import Mathlib

/-!
# oping: latency aggregation, percentile engine, main loop and graph row

A shallow embedding of the statistics code, the wait-time computation, the main
loop, the graph row, the box plot and the QoS option of `src/oping.c`.

Conventions of the embedding.

* A C `double` is a value of `Dbl`: NaN, the two infinities, negative zero, or a
  finite value carried as a rational (`Dbl.fin 0` is positive zero).  The
  special values follow IEEE 754.
* The operations `Dbl.add64`, `Dbl.sub64`, `Dbl.mul64` and `Dbl.div64` round the
  exact result to binary64 (`Dbl.round`: to nearest, ties to even, gradual
  underflow, overflow to infinity).  They are used wherever the code compares
  the result or converts it to an integer: the bucket of a reply, the
  percentile, the failure ratio behind the exit status, the intensity of the
  graph.  A decimal constant such as `0.001` is `Dbl.lit`, its binary64 value.
* The operations `Dbl.add`, `Dbl.sub`, `Dbl.mul` and `Dbl.div` are exact.  They
  are used for the running sums and for the statistics that are only reported
  (average, standard deviation, packet loss), and for the ratios of the box
  plot: a quotient of two counts below `2^32` and a constant `k / 40` are equal
  or further apart than the rounding errors, so that every comparison of
  `update_boxplot` has the result it has in binary64.
* `(double) n` of an integer is exact (`Dbl.ofInt`): the counters and sizes
  converted are below `2^53`.
* `int` counters are integers; signed overflow is undefined in C, so statements
  that depend on the size of a counter are made for fewer than `2^31` samples.
* `uint32_t` values are naturals reduced modulo `2^32` at every addition.
* `time_t` and `long` are 64 bits wide; a sum or difference that leaves the
  range wraps (`wrap_long`), as it does in the compiled code, although C leaves
  it undefined.
* A conversion from `double` to `size_t` is defined for values in `(-1, 2^64)`;
  outside of it, where C leaves the behaviour undefined, the model returns 0,
  and statements about a converted value are made for the defined range.
* Globals read by a function (`opt_interval`, `opt_exit_status_threshold`)
  and the library function `sqrt` are passed as explicit arguments.
* What the environment does (system call results, signals, terminal size and
  capabilities) is an explicit argument as well.
* A C string is a `String` of one-byte characters without a NUL; `strtoul` of
  the C library is an explicit argument of `set_opt_send_qos`.
-/

namespace Oping

/-! ## Doubles -/

/-- Values of a C `double`. -/
inductive Dbl where
  | nan
  | pinf
  | ninf
  | nzero
  | fin (q : ℚ)
  deriving DecidableEq

namespace Dbl

/-- Sign bit of a double (reported as clear for NaN). -/
def signbit : Dbl → Bool
  | nan => false
  | pinf => false
  | ninf => true
  | nzero => true
  | fin q => decide (q < 0)

/-- Zero of the given sign. -/
def zero (s : Bool) : Dbl := if s then nzero else fin 0

/-- Infinity of the given sign. -/
def inf (s : Bool) : Dbl := if s then ninf else pinf

/-- Test for NaN. -/
def isNaN : Dbl → Bool
  | nan => true
  | _ => false

/-- Test for an infinity of either sign. -/
def isInf : Dbl → Bool
  | pinf => true
  | ninf => true
  | _ => false

/-- Test for a zero of either sign. -/
def isZero : Dbl → Bool
  | nzero => true
  | fin q => decide (q = 0)
  | _ => false

/-- Numeric value of a finite double (0 for the special values). -/
def val : Dbl → ℚ
  | fin q => q
  | _ => 0

/-- Finite result `q` of an operation; a zero result takes the sign `s`. -/
def ofRat (s : Bool) (q : ℚ) : Dbl := if q = 0 then zero s else fin q

/-- Conversion `(double) n` of an integer. -/
def ofInt (n : Int) : Dbl := fin (n : ℚ)

/-- Unary minus. -/
def neg : Dbl → Dbl
  | nan => nan
  | pinf => ninf
  | ninf => pinf
  | nzero => fin 0
  | fin q => if q = 0 then nzero else fin (-q)

/-- Addition `x + y`. -/
def add : Dbl → Dbl → Dbl
  | nan, _ => nan
  | _, nan => nan
  | pinf, ninf => nan
  | ninf, pinf => nan
  | pinf, _ => pinf
  | _, pinf => pinf
  | ninf, _ => ninf
  | _, ninf => ninf
  | nzero, nzero => nzero
  | x, y => fin (x.val + y.val)

/-- Subtraction `x - y`. -/
def sub (x y : Dbl) : Dbl := add x (neg y)

/-- Multiplication `x * y`. -/
def mul (x y : Dbl) : Dbl :=
  if x.isNaN || y.isNaN then nan
  else if x.isInf || y.isInf then
    (if x.isZero || y.isZero then nan else inf (xor x.signbit y.signbit))
  else ofRat (xor x.signbit y.signbit) (x.val * y.val)

/-- Division `x / y`. -/
def div (x y : Dbl) : Dbl :=
  if x.isNaN || y.isNaN then nan
  else if x.isInf then
    (if y.isInf then nan else inf (xor x.signbit y.signbit))
  else if y.isInf then zero (xor x.signbit y.signbit)
  else if y.isZero then
    (if x.isZero then nan else inf (xor x.signbit y.signbit))
  else ofRat (xor x.signbit y.signbit) (x.val / y.val)

/-- Comparison `x < y` (false when either side is NaN). -/
def lt : Dbl → Dbl → Bool
  | nan, _ => false
  | _, nan => false
  | _, ninf => false
  | pinf, _ => false
  | ninf, _ => true
  | _, pinf => true
  | x, y => decide (x.val < y.val)

/-- Comparison `x <= y` (false when either side is NaN). -/
def le : Dbl → Dbl → Bool
  | nan, _ => false
  | _, nan => false
  | ninf, _ => true
  | _, pinf => true
  | _, ninf => false
  | pinf, _ => false
  | x, y => decide (x.val ≤ y.val)

/-- Comparison `x > y`. -/
def gt (x y : Dbl) : Bool := lt y x

/-- Comparison `x >= y`. -/
def ge (x y : Dbl) : Bool := le y x

/-- Conversion `(size_t) x`.  C defines it when the truncated value fits in
`size_t`, that is for `-1 < x < 2^64`; there the model returns the truncation
toward zero.  Everywhere else (NaN, infinities, values at or below `-1` or at or
above `2^64`) C leaves the behaviour undefined; the model returns 0. -/
def toSizeT : Dbl → Nat
  | fin q => if -1 < q ∧ q < 2 ^ 64 then Int.toNat (Int.floor q) else 0
  | _ => 0

/-- The power `2^e`. -/
def pow2 (e : Int) : ℚ :=
  if 0 ≤ e then ((2 ^ e.toNat : Nat) : ℚ) else 1 / ((2 ^ (-e).toNat : Nat) : ℚ)

/-- Length of the binary notation of `n`, with `fuel` at least `n`. -/
def bitlen : Nat → Nat → Nat
  | 0, _ => 0
  | fuel + 1, n => if n = 0 then 0 else bitlen fuel (n / 2) + 1

/-- The binary exponent of a rational `q ≠ 0`: the `e` with
`2^e ≤ |q| < 2^(e+1)`. -/
def ilog2 (q : ℚ) : Int :=
  let e : Int := (bitlen q.num.natAbs q.num.natAbs : Int) - (bitlen q.den q.den : Int)
  if pow2 e ≤ (if q < 0 then -q else q) then e else e - 1

/-- Rounding to the nearest integer, a tie going to the even one. -/
def rne (m : ℚ) : Int :=
  let f := Int.floor m
  if m - f < 1 / 2 then f
  else if 1 / 2 < m - f then f + 1
  else if f % 2 = 0 then f
  else f + 1

/-- The rational with 53 significant bits nearest to `q`, ties to even, at the
binary exponent of `q` and at least at exponent `-1022` (gradual underflow). -/
def rnd (q : ℚ) : ℚ :=
  let e := max (ilog2 q) (-1022)
  (rne (q / pow2 (e - 52)) : ℚ) * pow2 (e - 52)

/-- Rounding of the exact result `q` of an operation to binary64, to nearest
with ties to even.  A result whose rounded magnitude reaches `2^1024` is an
infinity; an exact zero takes the sign `s`, a result rounded to zero keeps the
sign of `q`. -/
def round (s : Bool) (q : ℚ) : Dbl :=
  if q = 0 then zero s
  else
    let r : ℚ := rnd q
    if pow2 1024 ≤ (if r < 0 then -r else r) then inf (decide (q < 0))
    else if r = 0 then zero (decide (q < 0))
    else fin r

/-- Addition `x + y` in binary64. -/
def add64 : Dbl → Dbl → Dbl
  | nan, _ => nan
  | _, nan => nan
  | pinf, ninf => nan
  | ninf, pinf => nan
  | pinf, _ => pinf
  | _, pinf => pinf
  | ninf, _ => ninf
  | _, ninf => ninf
  | nzero, nzero => nzero
  | x, y => round false (x.val + y.val)

/-- Subtraction `x - y` in binary64. -/
def sub64 (x y : Dbl) : Dbl := add64 x (neg y)

/-- Multiplication `x * y` in binary64. -/
def mul64 (x y : Dbl) : Dbl :=
  if x.isNaN || y.isNaN then nan
  else if x.isInf || y.isInf then
    (if x.isZero || y.isZero then nan else inf (xor x.signbit y.signbit))
  else round (xor x.signbit y.signbit) (x.val * y.val)

/-- Division `x / y` in binary64. -/
def div64 (x y : Dbl) : Dbl :=
  if x.isNaN || y.isNaN then nan
  else if x.isInf then
    (if y.isInf then nan else inf (xor x.signbit y.signbit))
  else if y.isInf then zero (xor x.signbit y.signbit)
  else if y.isZero then
    (if x.isZero then nan else inf (xor x.signbit y.signbit))
  else round (xor x.signbit y.signbit) (x.val / y.val)

/-- The binary64 value of a decimal constant of the source. -/
def lit (q : ℚ) : Dbl := round false q

end Dbl

/-! ## The per-target context -/

/-- Number of histogram buckets: 1000 + one "infinity" bucket. -/
def OPING_HISTOGRAM_BUCKETS : Nat := 1001

/-- The statistics fields of `struct ping_context` (`host`, `addr` and the
curses window do not take part in the statistics).  `latency_histogram` is
`none` for a `NULL` pointer and otherwise holds `latency_histogram_size`
counters of type `uint32_t`. -/
structure ping_context_t where
  index : Int
  req_sent : Int
  req_rcvd : Int
  latency_min : Dbl
  latency_max : Dbl
  latency_total : Dbl
  latency_total_square : Dbl
  latency_histogram : Option (List Nat)
  latency_histogram_size : Nat
  deriving DecidableEq

/-- Body of `context_create` after the successful `malloc`: the structure is
zeroed, the four latency fields are set and the histogram is requested from
`calloc`, which returns zeroed counters (`calloc_ok`) or `NULL`. -/
def context_init (calloc_ok : Bool) : ping_context_t :=
  { index := 0
    req_sent := 0
    req_rcvd := 0
    latency_min := Dbl.fin (-1)
    latency_max := Dbl.fin (-1)
    latency_total := Dbl.fin 0
    latency_total_square := Dbl.fin 0
    latency_histogram :=
      if calloc_ok then some (List.replicate OPING_HISTOGRAM_BUCKETS 0) else none
    latency_histogram_size := OPING_HISTOGRAM_BUCKETS }

/-- Function `context_create`: `NULL` when `malloc` fails. -/
def context_create (malloc_ok calloc_ok : Bool) : Option ping_context_t :=
  if malloc_ok then some (context_init calloc_ok) else none

/-- Function `update_context`: account for one received reply. -/
def update_context (opt_interval : Dbl) (context : ping_context_t) (latency : Dbl) :
    ping_context_t :=
  let context := { context with req_rcvd := context.req_rcvd + 1 }
  let context := { context with latency_total := Dbl.add context.latency_total latency }
  let context := { context with
    latency_total_square := Dbl.add context.latency_total_square (Dbl.mul latency latency) }
  let context :=
    if Dbl.lt context.latency_max (Dbl.fin 0) || Dbl.lt context.latency_max latency then
      { context with latency_max := latency }
    else context
  let context :=
    if Dbl.lt context.latency_min (Dbl.fin 0) || Dbl.gt context.latency_min latency then
      { context with latency_min := latency }
    else context
  match context.latency_histogram with
  | none => context
  | some hist =>
    let bucket := Dbl.toSizeT
      (Dbl.div64
        (Dbl.mul64 latency (Dbl.ofInt ((context.latency_histogram_size - 1 : Nat) : Int)))
        (Dbl.mul64 (Dbl.fin 1000) opt_interval))
    let bucket :=
      if bucket ≥ context.latency_histogram_size then context.latency_histogram_size - 1
      else bucket
    { context with
      latency_histogram := some (hist.set bucket ((hist.getD bucket 0 + 1) % 2 ^ 32)) }

/-- The statistics part of `update_host_hook`: `latency` is the value read from
the iterator (`-1.0` when no reply arrived). -/
def update_host_hook (opt_interval : Dbl) (context : ping_context_t) (latency : Dbl) :
    ping_context_t :=
  let context := { context with req_sent := context.req_sent + 1 }
  if Dbl.gt latency (Dbl.fin 0) then update_context opt_interval context latency
  else context

/-- The contexts after a sequence of rounds for one target, oldest sample first. -/
def run_samples (opt_interval : Dbl) (context : ping_context_t) (samples : List Dbl) :
    ping_context_t :=
  samples.foldl (update_host_hook opt_interval) context

/-! ## Derived statistics -/

/-- The first loop of `context_get_percentile` from index 1 on: `prev` is
`accumulated[i - 1]`, the list holds `latency_histogram[i ..]`, the sums are
taken in `uint32_t`. -/
def accumulate (prev : Nat) : List Nat → List Nat
  | [] => []
  | h :: t => ((prev + h) % 2 ^ 32) :: accumulate ((prev + h) % 2 ^ 32) t

/-- The array `accumulated` of `context_get_percentile`. -/
def accumulated (hist : List Nat) : List Nat :=
  match hist with
  | [] => []
  | h :: t => h :: accumulate h t

/-- The second loop of `context_get_percentile`, entered at index `i` with the
list holding `accumulated[i ..]`: the value of `i` when the loop is left. -/
def percentile_scan (threshold : Dbl) (num : Nat) : List Nat → Nat → Nat
  | [], i => i
  | a :: rest, i =>
    if Dbl.ge (Dbl.div64 (Dbl.ofInt (a : Int)) (Dbl.ofInt (num : Int))) threshold then i
    else percentile_scan threshold num rest (i + 1)

/-- Function `context_get_percentile`. -/
def context_get_percentile (opt_interval : Dbl) (ctx : ping_context_t) (percentile : Dbl) :
    Dbl :=
  let threshold := Dbl.div64 percentile (Dbl.fin 100)
  match ctx.latency_histogram with
  | none => Dbl.nan
  | some hist =>
    let acc := accumulated hist
    let num := acc.getD (ctx.latency_histogram_size - 1) 0
    let i := percentile_scan threshold num acc 0
    if i ≥ ctx.latency_histogram_size then Dbl.nan
    else if i = ctx.latency_histogram_size - 1 then Dbl.pinf
    else
      let index_to_ms_factor :=
        Dbl.div64 (Dbl.mul64 (Dbl.fin 1000) opt_interval)
          (Dbl.ofInt ((ctx.latency_histogram_size - 1 : Nat) : Int))
      Dbl.mul64 index_to_ms_factor (Dbl.ofInt ((i + 1 : Nat) : Int))

/-- Function `context_get_stddev`; `none` is the `NULL` context and `sqrt` is
the square root of the C library. -/
def context_get_stddev (sqrt : Dbl → Dbl) (ctx : Option ping_context_t) : Dbl :=
  match ctx with
  | none => Dbl.fin (-1)
  | some ctx =>
    if ctx.req_rcvd < 1 then Dbl.nzero
    else if ctx.req_rcvd < 2 then Dbl.fin 0
    else
      let num_total := Dbl.ofInt ctx.req_rcvd
      sqrt (Dbl.div
        (Dbl.sub (Dbl.mul num_total ctx.latency_total_square)
          (Dbl.mul ctx.latency_total ctx.latency_total))
        (Dbl.mul num_total (Dbl.sub num_total (Dbl.fin 1))))

/-- The test made by `post_loop_hook` on one context:
`pct_failed > opt_exit_status_threshold` with
`pct_failed = 1.0 - ((double) req_rcvd) / ((double) req_sent)`. -/
def host_failed (opt_exit_status_threshold : Dbl) (context : ping_context_t) : Bool :=
  let pct_failed :=
    Dbl.sub64 (Dbl.fin 1)
      (Dbl.div64 (Dbl.ofInt context.req_rcvd) (Dbl.ofInt context.req_sent))
  Dbl.gt pct_failed opt_exit_status_threshold

/-- Return value of `post_loop_hook` over the contexts of the targets in
iteration order (the printing and the clean-up are left out). -/
def post_loop_hook (opt_exit_status_threshold : Dbl) (contexts : List ping_context_t) : Int :=
  contexts.foldl
    (fun failure_count context =>
      if host_failed opt_exit_status_threshold context then failure_count + 1
      else failure_count)
    0

/-- Exit status seen by the parent of a process that calls `exit (status)`:
the low eight bits. -/
def exit_status (status : Int) : Int := status % 256

/-- The end of `main` after the loop: the status the process exits with. -/
def main_exit (opt_exit_status_threshold : Dbl) (contexts : List ping_context_t) : Int :=
  let status := post_loop_hook opt_exit_status_threshold contexts
  if status = 0 then exit_status 0
  else
    let status := if status > 255 then 255 else status
    exit_status status

/-! ## The wait time of a round -/

/-- C `struct timespec`: seconds and nanoseconds. -/
structure timespec where
  tv_sec : Int
  tv_nsec : Int
  deriving DecidableEq

/-- C `struct timeval`: seconds and microseconds. -/
structure timeval where
  tv_sec : Int
  tv_usec : Int
  deriving DecidableEq

/-- The value a 64-bit `time_t` or `long` holds after an operation whose exact
result is `x`: `x` itself inside `[-2^63, 2^63)`, wrapped into that range
outside of it. -/
def wrap_long (x : Int) : Int := (x + 9223372036854775808) % 18446744073709551616
  - 9223372036854775808

/-- First loop of `time_normalize`: `while (ts->tv_nsec < 0)`.  The flag of the
result is set when the loop left the function through its `return`. -/
def time_normalize_borrow (ts : timespec) : timespec × Bool :=
  if ts.tv_nsec < 0 then
    if ts.tv_sec = 0 then ({ ts with tv_nsec := 0 }, true)
    else time_normalize_borrow
      { tv_sec := wrap_long (ts.tv_sec - 1), tv_nsec := wrap_long (ts.tv_nsec + 1000000000) }
  else (ts, false)
termination_by (-ts.tv_nsec).toNat
decreasing_by
  simp_wf
  unfold wrap_long
  omega

/-- Second loop of `time_normalize`: `while (ts->tv_nsec >= 1000000000)`. -/
def time_normalize_carry (ts : timespec) : timespec :=
  if ts.tv_nsec ≥ 1000000000 then
    time_normalize_carry
      { tv_sec := wrap_long (ts.tv_sec + 1), tv_nsec := wrap_long (ts.tv_nsec - 1000000000) }
  else ts
termination_by ts.tv_nsec.toNat
decreasing_by
  simp_wf
  unfold wrap_long
  omega

/-- Function `time_normalize`. -/
def time_normalize (ts : timespec) : timespec :=
  let r := time_normalize_borrow ts
  if r.2 then r.1 else time_normalize_carry r.1

/-- Function `time_calc`: the value stored in `*ts_dest`. -/
def time_calc (ts_int : timespec) (tv_begin tv_end : timeval) : timespec :=
  let ts_dest : timespec :=
    { tv_sec := wrap_long (tv_begin.tv_sec + ts_int.tv_sec)
      tv_nsec := wrap_long (wrap_long (tv_begin.tv_usec * 1000) + ts_int.tv_nsec) }
  let ts_dest := time_normalize ts_dest
  if tv_end.tv_sec > ts_dest.tv_sec
      ∨ (tv_end.tv_sec = ts_dest.tv_sec
        ∧ wrap_long (tv_end.tv_usec * 1000) > ts_dest.tv_nsec) then
    { tv_sec := 0, tv_nsec := 0 }
  else
    let ts_dest : timespec :=
      { tv_sec := wrap_long (ts_dest.tv_sec - tv_end.tv_sec)
        tv_nsec := wrap_long (ts_dest.tv_nsec - wrap_long (tv_end.tv_usec * 1000)) }
    time_normalize ts_dest

/-! ## The main loop -/

/-- Result of `ping_send`: a value `>= 0`, `-EINTR`, or another negative value. -/
inductive SendStatus where
  | ok
  | eintr
  | error
  deriving DecidableEq

/-- What the environment does during one pass of the body of the loop of
`main`: whether the two `gettimeofday` calls succeed, what `ping_send` returns,
the latency each target reports to `update_host_hook`, how often `nanosleep` is
interrupted and called again, and whether `SIGINT` is handled (running
`sigint_handler`) while `ping_send` runs, while the hooks run, or during the
sleep. -/
structure Iteration where
  begin_ok : Bool
  sigint_in_send : Bool
  send : SendStatus
  latencies : List Dbl
  sigint_in_hooks : Bool
  end_ok : Bool
  sigint_in_sleep : Bool
  sleep_resumed : Nat
  deriving DecidableEq

/-- What the loop does, in order: `gettimeofday (&tv_begin)`, `ping_send`,
`update_host_hook` for every target followed by `pre_sleep_hook`, and the
`nanosleep` loop with the number of times it was resumed. -/
inductive Event where
  | begin_round
  | send
  | aggregate
  | sleep (resumed : Nat)
  deriving DecidableEq

/-- How the loop of `main` ended: left through its test or its `break`, left
through a `return (1)`, or still running when the described passes are over. -/
inductive LoopEnd where
  | left
  | returned
  | pending
  deriving DecidableEq

/-- The state when the loop ended and what it did until then. -/
structure LoopResult where
  how : LoopEnd
  opt_count : Int
  contexts : List ping_context_t
  trace : List Event
  deriving DecidableEq

/-- The events `events` happened before those of `r`. -/
def LoopResult.prepend (events : List Event) (r : LoopResult) : LoopResult :=
  { r with trace := events ++ r.trace }

/-- Function `sigint_handler`: the new value of `opt_count`. -/
def sigint_handler (_opt_count : Int) : Int := 0

/-- The `for` loop over the targets in the body of the main loop:
`update_host_hook` on the context of every target with the latency it reports
(`-1.0` when it reports none). -/
def update_hosts (opt_interval : Dbl) : List ping_context_t → List Dbl → List ping_context_t
  | [], _ => []
  | c :: cs, [] => update_host_hook opt_interval c (Dbl.fin (-1)) :: update_hosts opt_interval cs []
  | c :: cs, l :: ls => update_host_hook opt_interval c l :: update_hosts opt_interval cs ls

/-- The loop `while (opt_count != 0)` of `main`, one element of the list for
each pass of its body. -/
def main_loop (opt_interval : Dbl) (opt_count : Int) (contexts : List ping_context_t) :
    List Iteration → LoopResult
  | [] =>
    if opt_count = 0 then ⟨LoopEnd.left, opt_count, contexts, []⟩
    else ⟨LoopEnd.pending, opt_count, contexts, []⟩
  | it :: rest =>
    if opt_count = 0 then ⟨LoopEnd.left, opt_count, contexts, []⟩
    else if it.begin_ok = false then ⟨LoopEnd.returned, opt_count, contexts, []⟩
    else
      let opt_count := if it.sigint_in_send then sigint_handler opt_count else opt_count
      match it.send with
      | SendStatus.eintr =>
        (main_loop opt_interval opt_count contexts rest).prepend [Event.begin_round, Event.send]
      | SendStatus.error =>
        ⟨LoopEnd.returned, opt_count, contexts, [Event.begin_round, Event.send]⟩
      | SendStatus.ok =>
        let contexts := update_hosts opt_interval contexts it.latencies
        let opt_count := if it.sigint_in_hooks then sigint_handler opt_count else opt_count
        if opt_count = 1 then
          ⟨LoopEnd.left, opt_count, contexts, [Event.begin_round, Event.send, Event.aggregate]⟩
        else if it.end_ok = false then
          ⟨LoopEnd.returned, opt_count, contexts,
            [Event.begin_round, Event.send, Event.aggregate]⟩
        else
          let opt_count := if it.sigint_in_sleep then sigint_handler opt_count else opt_count
          let opt_count := if opt_count > 0 then opt_count - 1 else opt_count
          (main_loop opt_interval opt_count contexts rest).prepend
            [Event.begin_round, Event.send, Event.aggregate, Event.sleep it.sleep_resumed]

/-- The status the process ends with once the loop has ended: the exit status
computed from `post_loop_hook`, or 1 after a `return (1)` inside the loop;
`none` while the loop is still running. -/
def main_end (opt_exit_status_threshold : Dbl) (r : LoopResult) : Option Int :=
  match r.how with
  | LoopEnd.left => some (main_exit opt_exit_status_threshold r.contexts)
  | LoopEnd.returned => some (exit_status 1)
  | LoopEnd.pending => none

/-! ## Setting up the ping object -/

/-- What `main` finds while it sets up the ping object: whether
`ping_construct` returned an object, which options were given on the command
line, and the value `ping_setopt` returns for each option. -/
structure SetupEnv where
  construct_ok : Bool
  setopt_ttl : Int
  setopt_qos : Int
  addrfamily_given : Bool
  setopt_af : Int
  srcaddr_given : Bool
  setopt_source : Int
  device_given : Bool
  setopt_device : Int
  deriving DecidableEq

/-- The messages `main` prints to `stderr` during the set-up. -/
inductive SetupMessage where
  | construct_failed
  | ttl_failed
  | tos_failed
  | source_failed
  | device_failed
  deriving DecidableEq

/-- The part of `main` from `ping_construct` to the last `ping_setopt`: the
messages printed, and `some 1` when `main` returned 1 there, `none` when it
goes on to add the hosts. -/
def main_setup (env : SetupEnv) : List SetupMessage × Option Int :=
  if env.construct_ok = false then ([SetupMessage.construct_failed], some 1)
  else
    let messages : List SetupMessage := []
    let messages := if env.setopt_ttl ≠ 0 then messages ++ [SetupMessage.ttl_failed] else messages
    let messages := if env.setopt_qos ≠ 0 then messages ++ [SetupMessage.tos_failed] else messages
    let messages :=
      if env.srcaddr_given then
        (if env.setopt_source ≠ 0 then messages ++ [SetupMessage.source_failed] else messages)
      else messages
    let messages :=
      if env.device_given then
        (if env.setopt_device ≠ 0 then messages ++ [SetupMessage.device_failed] else messages)
      else messages
    (messages, none)

/-! ## The graph row -/

/-- Colour pair `OPING_GREEN`. -/
def OPING_GREEN : Int := 1

/-- Colour pair `OPING_YELLOW`. -/
def OPING_YELLOW : Int := 2

/-- Colour pair `OPING_RED`. -/
def OPING_RED : Int := 3

/-- Colour pair `OPING_GREEN_HIST`. -/
def OPING_GREEN_HIST : Int := 4

/-- Colour pair `OPING_YELLOW_HIST`. -/
def OPING_YELLOW_HIST : Int := 5

/-- Colour pair `OPING_RED_HIST`. -/
def OPING_RED_HIST : Int := 6

/-- Error number `EINVAL`. -/
def EINVAL : Int := 22

/-- Table `hist_symbols_utf8`. -/
def hist_symbols_utf8 : List String := ["▁", "▂", "▃", "▄", "▅", "▆", "▇", "█"]

/-- Constant `hist_symbols_utf8_num`. -/
def hist_symbols_utf8_num : Nat := hist_symbols_utf8.length

/-- Table `hist_symbols_acs`: scancodes of five horizontal bars. -/
def hist_symbols_acs : List Int := [115, 114, 113, 112, 111]

/-- Constant `hist_symbols_acs_num`. -/
def hist_symbols_acs_num : Nat := hist_symbols_acs.length

/-- Table `hist_colors_utf8`. -/
def hist_colors_utf8 : List Int := [OPING_GREEN_HIST, OPING_YELLOW_HIST, OPING_RED_HIST]

/-- Table `hist_colors_acs`. -/
def hist_colors_acs : List Int := [OPING_GREEN, OPING_YELLOW, OPING_RED]

/-- Constant `hist_colors_num`. -/
def hist_colors_num : Nat := hist_colors_utf8.length

/-- Conversion of an `unsigned int` value to `int`. -/
def to_int (v : Nat) : Int := if v < 2147483648 then (v : Int) else (v : Int) - 4294967296

/-- What `update_prettyping_graph` writes at the slot: a string through
`mvwprintw`, or a character through `mvwaddch`, with or without `A_ALTCHARSET`. -/
inductive graph_symbol where
  | text (s : String)
  | character (code : Int) (altcharset : Bool)
  deriving DecidableEq

/-- One glyph of the graph row: its column, whether `A_BOLD` is on, the colour
pair switched on when the terminal has colours, and the symbol. -/
structure graph_cell where
  x_pos : Int
  bold : Bool
  color_pair : Option Int
  symbol : graph_symbol
  deriving DecidableEq

/-- Outcome of `update_prettyping_graph`: the glyph drawn and the value
returned; undefined behaviour of C (division by zero, read outside a table); or
a failed `assert`. -/
inductive graph_result where
  | drawn (cell : graph_cell) (status : Int)
  | undefined
  | aborted
  deriving DecidableEq

/-- The value of `ratio` in `update_prettyping_graph` after the test
`ratio > 1`. -/
def graph_ratio (opt_interval latency : Dbl) : Dbl :=
  let ratio := Dbl.div64 (Dbl.mul64 latency (Dbl.lit (1 / 1000))) opt_interval
  if Dbl.gt ratio (Dbl.fin 1) then Dbl.fin 1 else ratio

/-- The value of `intensity` in `update_prettyping_graph` after the clamp, for
`symbols_num` glyph shades and `colors_num` colours. -/
def graph_intensity (opt_interval : Dbl) (symbols_num colors_num : Nat) (latency : Dbl) : Nat :=
  let intensity := Dbl.toSizeT
    (Dbl.mul64 (graph_ratio opt_interval latency)
      (Dbl.ofInt ((symbols_num * colors_num : Nat) : Int)))
  if intensity ≥ symbols_num * colors_num then symbols_num * colors_num - 1 else intensity

/-- Function `update_prettyping_graph`; `x_max` is the value of
`getmaxx (ctx->window)`, `has_utf8` and `has_colors` the results of the two
capability tests.  The blank written after the glyph is left out. -/
def update_prettyping_graph (opt_interval : Dbl) (has_utf8 has_colors : Bool) (x_max : Int)
    (latency : Dbl) (sequence : Nat) : graph_result :=
  let color : Int := OPING_RED
  let symbol : String := "!"
  let symbolc : graph_symbol := graph_symbol.character 33 false
  let divisor : Nat := ((x_max - 4) % 4294967296).toNat
  if divisor = 0 then graph_result.undefined
  else
    let x_pos : Int :=
      to_int ((((sequence + 4294967295) % 4294967296) % divisor + 2) % 4294967296)
    if Dbl.ge latency (Dbl.fin 0) then
      let symbols_num : Nat := if has_utf8 then hist_symbols_utf8_num else hist_symbols_acs_num
      let colors_num : Nat := if has_colors then hist_colors_num else 1
      let intensity := graph_intensity opt_interval symbols_num colors_num latency
      let index_symbols := intensity % symbols_num
      if ¬ index_symbols < symbols_num then graph_result.aborted
      else
        let index_colors := intensity / symbols_num
        if ¬ index_colors < colors_num then graph_result.aborted
        else if has_utf8 then
          match hist_colors_utf8[index_colors]?, hist_symbols_utf8[index_symbols]? with
          | some color, some symbol =>
            graph_result.drawn
              ⟨x_pos, false, if has_colors then some color else none, graph_symbol.text symbol⟩ 0
          | _, _ => graph_result.undefined
        else
          match hist_colors_acs[index_colors]?, hist_symbols_acs[index_symbols]? with
          | some color, some code =>
            graph_result.drawn
              ⟨x_pos, false, if has_colors then some color else none,
                graph_symbol.character code true⟩ 0
          | _, _ => graph_result.undefined
    else
      graph_result.drawn
        ⟨x_pos, true, if has_colors then some color else none,
          if has_utf8 then graph_symbol.text symbol else symbolc⟩ 0

/-- The symbols of the box plot: blank, `BOXPLOT_WHISKER_BAR`,
`BOXPLOT_WHISKER_LEFT_END`, `BOXPLOT_WHISKER_RIGHT_END`, `BOXPLOT_BOX` and
`BOXPLOT_MEDIAN`. -/
inductive boxplot_symbol where
  | blank
  | whisker_bar
  | whisker_left_end
  | whisker_right_end
  | box
  | median
  deriving DecidableEq

/-- One column of the box plot: the column written to, the symbol and whether
`A_REVERSE` is on. -/
structure boxplot_cell where
  x_pos : Int
  symbol : boxplot_symbol
  reverse : Bool
  deriving DecidableEq

/-- Outcome of `update_boxplot`: the columns drawn and the value returned, an
early return, or undefined behaviour of C (a `NULL` pointer is read). -/
inductive boxplot_result where
  | drawn (cells : List boxplot_cell) (status : Int)
  | failed (status : Int)
  | undefined
  deriving DecidableEq

/-- The "Downsample" loop of `update_boxplot`: the array `accumulated` after
it, for `x_max` columns. -/
def boxplot_downsample (hist : List Nat) (size x_max : Nat) : List Nat :=
  (List.range size).foldl
    (fun acc i =>
      let x := (i * x_max % 2 ^ 64) / size
      acc.set x ((acc.getD x 0 + hist.getD i 0) % 2 ^ 32))
    (List.replicate x_max 0)

/-- The choice of the symbol for column `x` in `update_boxplot`, from
`ratios[x]` and, for `x != 0`, `ratios[x - 1]`. -/
def boxplot_choose (x : Nat) (prev ratio : Dbl) : boxplot_symbol × Bool :=
  if x = 0 then
    if Dbl.ge ratio (Dbl.fin (1 / 2)) then (boxplot_symbol.median, true)
    else if Dbl.gt ratio (Dbl.fin (1 / 4)) then (boxplot_symbol.box, true)
    else if Dbl.gt ratio (Dbl.fin (1 / 40)) then (boxplot_symbol.whisker_bar, false)
    else (boxplot_symbol.blank, false)
  else
    if Dbl.lt prev (Dbl.fin (1 / 2)) && Dbl.ge ratio (Dbl.fin (1 / 2)) then
      (boxplot_symbol.median, true)
    else if (Dbl.ge ratio (Dbl.fin (1 / 4)) && Dbl.le ratio (Dbl.fin (3 / 4)))
        || (Dbl.lt prev (Dbl.fin (3 / 4)) && Dbl.gt ratio (Dbl.fin (3 / 4))) then
      (boxplot_symbol.box, true)
    else if Dbl.lt ratio (Dbl.fin (1 / 2)) && Dbl.ge ratio (Dbl.fin (1 / 40)) then
      (if Dbl.lt prev (Dbl.fin (1 / 40)) then (boxplot_symbol.whisker_left_end, false)
       else (boxplot_symbol.whisker_bar, false))
    else if Dbl.gt ratio (Dbl.fin (1 / 2)) && Dbl.lt ratio (Dbl.fin (39 / 40)) then
      (boxplot_symbol.whisker_bar, false)
    else if Dbl.ge ratio (Dbl.fin (39 / 40)) && Dbl.lt prev (Dbl.fin (39 / 40)) then
      (boxplot_symbol.whisker_right_end, false)
    else (boxplot_symbol.blank, false)

/-- Function `update_boxplot`; `x_max` is the value of `getmaxx (ctx->window)`
and `calloc_ok` tells whether the two `calloc` calls returned memory. -/
def update_boxplot (x_max : Int) (calloc_ok : Bool) (ctx : ping_context_t) : boxplot_result :=
  let x_max : Nat := (x_max % 2 ^ 64).toNat
  if x_max ≤ 4 then boxplot_result.failed EINVAL
  else
    let x_max := x_max - 4
    match calloc_ok, ctx.latency_histogram with
    | true, some hist =>
      let accumulated := accumulated (boxplot_downsample hist ctx.latency_histogram_size x_max)
      let num := accumulated.getD (x_max - 1) 0
      let ratios := accumulated.map
        (fun a => Dbl.div (Dbl.ofInt ((a : Nat) : Int)) (Dbl.ofInt ((num : Nat) : Int)))
      boxplot_result.drawn
        ((List.range x_max).map (fun x =>
          let choice := boxplot_choose x (ratios.getD (x - 1) Dbl.nan) (ratios.getD x Dbl.nan)
          { x_pos := to_int ((x + 2) % 4294967296), symbol := choice.1, reverse := choice.2 }))
        0
    | _, _ => boxplot_result.undefined

/-! ## The QoS option: `set_opt_send_qos` and `format_qos` -/

/-- `EXIT_SUCCESS` of `<stdlib.h>`. -/
def EXIT_SUCCESS : Int := 0

/-- `EXIT_FAILURE` of `<stdlib.h>`. -/
def EXIT_FAILURE : Int := 1

/-- `IPTOS_LOWDELAY` of `<netinet/ip.h>`. -/
def IPTOS_LOWDELAY : Nat := 0x10

/-- `IPTOS_THROUGHPUT` of `<netinet/ip.h>`. -/
def IPTOS_THROUGHPUT : Nat := 0x08

/-- `IPTOS_RELIABILITY` of `<netinet/ip.h>`. -/
def IPTOS_RELIABILITY : Nat := 0x04

/-- `IPTOS_MINCOST`. -/
def IPTOS_MINCOST : Nat := 0x02

/-- `strcasecmp (a, b) == 0` in the C locale.  A C string is modelled by a
`String` of one-byte characters without a NUL. -/
def strcasecmp (a b : String) : Bool :=
  a.data.map Char.toLower == b.data.map Char.toLower

/-- `strncasecmp (a, b, n) == 0` in the C locale, for strings without a NUL. -/
def strncasecmp (a b : String) (n : Nat) : Bool :=
  (a.data.take n).map Char.toLower == (b.data.take n).map Char.toLower

/-- What `strtoul (opt, &endptr, 0)` leaves behind: `errno`, the offset
`endptr - opt` and the value returned. -/
structure strtoul_result where
  errno : Int
  endptr : Nat
  value : Nat

/-- Outcome of `set_opt_send_qos`: it returns a status with `opt_send_qos` as
given, or it leaves the program through `usage_qos_exit (arg, status)`. -/
inductive qos_outcome where
  | returned (status : Int) (opt_send_qos : Nat)
  | usage_qos_exit (arg : Option String) (status : Int)
  deriving DecidableEq

/-- `set_opt_send_qos`.  The global `opt_send_qos` is passed in and returned;
`strtoul` of the C library is a parameter. -/
def set_opt_send_qos (strtoul : String → strtoul_result) (opt_send_qos : Nat) :
    Option String → qos_outcome
  | none => qos_outcome.returned EINVAL opt_send_qos
  | some opt =>
    if strcasecmp "help" opt then qos_outcome.usage_qos_exit none EXIT_SUCCESS
    else if strcasecmp "be" opt then qos_outcome.returned 0 0
    else if strcasecmp "ef" opt then qos_outcome.returned 0 0xB8
    else if strcasecmp "va" opt then qos_outcome.returned 0 0xB0
    else if strncasecmp "af" opt "af".length && opt.length == 4 then
      let c2 := opt.data.getD 2 (Char.ofNat 0)
      let c3 := opt.data.getD 3 (Char.ofNat 0)
      let cls : Option Nat :=
        if c2 = '1' then some 1
        else if c2 = '2' then some 2
        else if c2 = '3' then some 3
        else if c2 = '4' then some 4
        else none
      match cls with
      | none => qos_outcome.usage_qos_exit (some opt) EXIT_SUCCESS
      | some cls =>
        let prec : Option Nat :=
          if c3 = '1' then some 1
          else if c3 = '2' then some 2
          else if c3 = '3' then some 3
          else none
        match prec with
        | none => qos_outcome.usage_qos_exit (some opt) EXIT_SUCCESS
        | some prec =>
          let dscp := (8 * cls + 2 * prec) % 256
          qos_outcome.returned 0 (dscp * 4 % 256)
    else if strncasecmp "cs" opt "cs".length && opt.length == 3 then
      let c2 := opt.data.getD 2 (Char.ofNat 0)
      if c2.toNat < '0'.toNat || c2.toNat > '7'.toNat then
        qos_outcome.usage_qos_exit (some opt) EXIT_FAILURE
      else
        let cls := (c2.toNat % 256 + 256 - '0'.toNat % 256) % 256
        qos_outcome.returned 0 (cls * 32 % 256)
    else if strcasecmp "lowdelay" opt then qos_outcome.returned 0 IPTOS_LOWDELAY
    else if strcasecmp "throughput" opt then qos_outcome.returned 0 IPTOS_THROUGHPUT
    else if strcasecmp "reliability" opt then qos_outcome.returned 0 IPTOS_RELIABILITY
    else if strcasecmp "mincost" opt then qos_outcome.returned 0 IPTOS_MINCOST
    else
      let r := strtoul opt
      if r.errno ≠ 0 || r.endptr == 0 || r.endptr ≠ opt.length || r.value > 0xff then
        qos_outcome.usage_qos_exit (some opt) EXIT_FAILURE
      else qos_outcome.returned 0 (r.value % 256)

/-- The conversion `%02x` of `printf` for a value below 256. -/
def hex02 (v : Nat) : String :=
  String.mk [Nat.digitChar (v / 16 % 16), Nat.digitChar (v % 16)]

/-- `format_qos`: the string left in `buffer`, or `none` when `buffer_size` is 0
and `buffer[buffer_size - 1]` lies outside the buffer. -/
def format_qos (qos : Nat) (buffer_size : Nat) : Option String :=
  let qos := qos % 256
  let dscp := qos / 4
  let ecn := qos % 4
  let dscp_str : Option String :=
    if dscp = 0x00 then some "be"
    else if dscp = 0x2e then some "ef"
    else if dscp = 0x2d then some "va"
    else if dscp = 0x0a then some "af11"
    else if dscp = 0x0c then some "af12"
    else if dscp = 0x0e then some "af13"
    else if dscp = 0x12 then some "af21"
    else if dscp = 0x14 then some "af22"
    else if dscp = 0x16 then some "af23"
    else if dscp = 0x1a then some "af31"
    else if dscp = 0x1c then some "af32"
    else if dscp = 0x1e then some "af33"
    else if dscp = 0x22 then some "af41"
    else if dscp = 0x24 then some "af42"
    else if dscp = 0x26 then some "af43"
    else if dscp = 0x08 then some "cs1"
    else if dscp = 0x10 then some "cs2"
    else if dscp = 0x18 then some "cs3"
    else if dscp = 0x20 then some "cs4"
    else if dscp = 0x28 then some "cs5"
    else if dscp = 0x30 then some "cs6"
    else if dscp = 0x38 then some "cs7"
    else none
  let ecn_str : String :=
    if ecn = 0x01 then ",ecn(1)"
    else if ecn = 0x02 then ",ecn(0)"
    else if ecn = 0x03 then ",ce"
    else ""
  let text : String :=
    match dscp_str with
    | none => "0x" ++ hex02 dscp ++ ecn_str
    | some s => s ++ ecn_str
  if buffer_size = 0 then none
  else some (String.mk (text.data.take (buffer_size - 1)))

/-! ## Auxiliary definitions for the statements -/

/-- The quotient that `update_context` converts to the bucket:
`(latency * (size - 1)) / (1000.0 * opt_interval)`, each operation in binary64. -/
def bucket_quotient (opt_interval : Dbl) (size : Nat) (latency : Dbl) : Dbl :=
  Dbl.div64 (Dbl.mul64 latency (Dbl.ofInt ((size - 1 : Nat) : Int)))
    (Dbl.mul64 (Dbl.fin 1000) opt_interval)

/-- The bucket written by `update_context` after clamping. -/
def bucket_index (opt_interval : Dbl) (size : Nat) (latency : Dbl) : Nat :=
  let bucket := Dbl.toSizeT (bucket_quotient opt_interval size latency)
  if bucket ≥ size then size - 1 else bucket

/-- Well-formed context: the histogram is allocated with one counter per
bucket, its counters add up to `req_rcvd`, and `req_rcvd <= req_sent`. -/
def ctx_inv (ctx : ping_context_t) : Prop :=
  ∃ hist, ctx.latency_histogram = some hist ∧
    hist.length = ctx.latency_histogram_size ∧
    ctx.latency_histogram_size = OPING_HISTOGRAM_BUCKETS ∧
    (hist.sum : Int) = ctx.req_rcvd ∧ ctx.req_rcvd ≤ ctx.req_sent

/-- Cumulative count of buckets `0 .. i` as the specification defines it
(`cum[i] = cum[i-1] + bucket[i]`, `cum[0] = bucket[0]`), without reduction. -/
def cum (hist : List Nat) (i : Nat) : Nat := (hist.take (i + 1)).sum

/-- Index `i` is the smallest bucket index whose cumulative count divided by the
total count is at least `p / 100`. -/
def is_percentile_index (hist : List Nat) (p : ℚ) (i : Nat) : Prop :=
  i < hist.length ∧ p / 100 ≤ (cum hist i : ℚ) / (hist.sum : ℚ) ∧
    ∀ j, j < i → (cum hist j : ℚ) / (hist.sum : ℚ) < p / 100

/-- Index `i` is the smallest bucket index whose cumulative count divided by the
total count, the quotient rounded to binary64, is at least `p / 100` rounded to
binary64. -/
def is_double_percentile_index (hist : List Nat) (p : ℚ) (i : Nat) : Prop :=
  i < hist.length ∧ Dbl.rnd (p / 100) ≤ Dbl.rnd ((cum hist i : ℚ) / (hist.sum : ℚ)) ∧
    ∀ j, j < i → Dbl.rnd ((cum hist j : ℚ) / (hist.sum : ℚ)) < Dbl.rnd (p / 100)

/-- A context as created whose histogram holds the given counters. -/
def context_with_histogram (hist : List Nat) : ping_context_t :=
  { context_init true with
    latency_histogram := some hist
    latency_histogram_size := hist.length }

/-- Three replies in bucket 10, one in bucket 20, one in the overflow bucket. -/
def sample_histogram : List Nat :=
  List.replicate 10 0 ++ [3] ++ List.replicate 9 0 ++ [1] ++ List.replicate 979 0 ++ [1]

/-- One reply in bucket 0 and `2^32 - 1` replies in the overflow bucket: the
total count is `2^32`. -/
def wrapping_histogram : List Nat :=
  1 :: (List.replicate 999 0 ++ [4294967295])

/-- The percentile that `read_options` sets for `-c 14` when none is given:
`100.0 * (opt_count - 1) / opt_count`. -/
def default_percentile_14 : Dbl :=
  Dbl.div64 (Dbl.mul64 (Dbl.fin 100) (Dbl.ofInt (14 - 1))) (Dbl.ofInt 14)

/-- Thirteen replies in bucket 10 and one in bucket 20. -/
def run_14_histogram : List Nat :=
  List.replicate 10 0 ++ [13] ++ List.replicate 9 0 ++ [1] ++ List.replicate 980 0

/-- The ten latencies of scenario A, in milliseconds. -/
def scenario_A_latencies : List Dbl :=
  [Dbl.fin 10, Dbl.fin 20, Dbl.fin 30, Dbl.fin 40, Dbl.fin 50,
   Dbl.fin 60, Dbl.fin 70, Dbl.fin 80, Dbl.fin 90, Dbl.fin 100]

/-- Scenario A: a fresh context after `update_context` was called once for each
of the ten latencies, with `opt_interval` = 1 s. -/
def scenario_A_context : ping_context_t :=
  scenario_A_latencies.foldl (update_context (Dbl.fin 1)) (context_init true)

/-- Latencies that `update_host_hook` counts as received (`latency > 0.0`). -/
def received (latencies : List ℚ) : List ℚ := latencies.filter (fun q => decide (0 < q))

/-- Arithmetic mean of a list of latencies. -/
def mean (xs : List ℚ) : ℚ := xs.sum / (xs.length : ℚ)

/-- Sample variance `sum_i (x_i - mean)^2 / (n - 1)`. -/
def sample_variance (xs : List ℚ) : ℚ :=
  (xs.map (fun x => (x - mean xs) ^ 2)).sum / ((xs.length : ℚ) - 1)

/-- A histogram of 1001 buckets whose bucket 5 holds `UINT32_MAX`. -/
def saturated_histogram : List Nat :=
  List.replicate 5 0 ++ [4294967295] ++ List.replicate 995 0

/-- The bucket index as the specification states it, for `N = 1001`:
`min (floor (latency * (N - 1) / (1000 * interval)), N - 1)`. -/
def spec_bucket_index (latency interval : ℚ) : Nat :=
  min (Int.toNat (Int.floor (latency * (1001 - 1) / (1000 * interval)))) (1001 - 1)

/-- The bucket index that `update_context` derives from a quotient `q` in the
range of `size_t`, for `N = 1001`: `min (floor q, N - 1)`. -/
def clamped_bucket (q : ℚ) : Nat := min (Int.toNat (Int.floor q)) (1001 - 1)

/-- A run of `2^32` rounds at interval 1 s, every reply taking 1000 ms. -/
def overflow_samples : List Dbl := List.replicate (2 ^ 32) (Dbl.fin 1000)

/-- A `struct timeval` in nanoseconds. -/
def timeval.nanos (tv : timeval) : Int := tv.tv_sec * 1000000000 + tv.tv_usec * 1000

/-- A `struct timespec` in nanoseconds. -/
def timespec.nanos (ts : timespec) : Int := ts.tv_sec * 1000000000 + ts.tv_nsec

/-- A pass of the loop in which no `SIGINT` is handled, both `gettimeofday`
calls succeed and `ping_send` succeeds. -/
def Iteration.quiet (it : Iteration) : Prop :=
  it.begin_ok = true ∧ it.sigint_in_send = false ∧ it.send = SendStatus.ok ∧
    it.sigint_in_hooks = false ∧ it.end_ok = true ∧ it.sigint_in_sleep = false

/-- Test for a sleep event. -/
def Event.is_sleep : Event → Bool
  | Event.sleep _ => true
  | _ => false

/-- Number of rounds whose samples were aggregated. -/
def rounds (trace : List Event) : Nat := trace.count Event.aggregate

/-- Number of calls of `ping_send`. -/
def sends (trace : List Event) : Nat := trace.count Event.send

/-- Number of sleeps. -/
def sleeps (trace : List Event) : Nat := trace.countP Event.is_sleep

/-- The contexts after the rounds of the given passes were aggregated. -/
def aggregate_all (opt_interval : Dbl) (contexts : List ping_context_t)
    (its : List Iteration) : List ping_context_t :=
  its.foldl (fun cs it => update_hosts opt_interval cs it.latencies) contexts

/-- A quiet pass in which the targets report the given latencies. -/
def quiet_pass (latencies : List Dbl) : Iteration :=
  { begin_ok := true
    sigint_in_send := false
    send := SendStatus.ok
    latencies := latencies
    sigint_in_hooks := false
    end_ok := true
    sigint_in_sleep := false
    sleep_resumed := 0 }

/-- A pass in which `SIGINT` is handled during the sleep and nowhere else;
`nanosleep` is interrupted once and resumed. -/
def sigint_sleep_pass (latencies : List Dbl) : Iteration :=
  { quiet_pass latencies with sigint_in_sleep := true, sleep_resumed := 1 }

/-- A pass in which `SIGINT` is handled while `ping_send` runs and `ping_send`
returns `-EINTR`. -/
def sigint_send_pass (latencies : List Dbl) : Iteration :=
  { quiet_pass latencies with sigint_in_send := true, send := SendStatus.eintr }

/-- The column of the glyph, when one was drawn. -/
def graph_result.x_pos? : graph_result → Option Int
  | graph_result.drawn cell _ => some cell.x_pos
  | _ => none

/-- The glyph drawn is the bold timeout mark `!`. -/
def graph_result.is_timeout : graph_result → Bool
  | graph_result.drawn cell _ =>
    cell.bold && (cell.symbol == graph_symbol.text "!"
      || cell.symbol == graph_symbol.character 33 false)
  | _ => false

/-- Number of glyph shades: 8 with UTF-8, 5 otherwise. -/
def graph_levels (has_utf8 : Bool) : Nat := if has_utf8 then 8 else 5

/-- Number of colour bands: 3 with colours, 1 otherwise. -/
def graph_tiers (has_colors : Bool) : Nat := if has_colors then 3 else 1

/-- The symbol `update_prettyping_graph` writes for glyph index `i`: entry `i`
of `hist_symbols_utf8` through `mvwprintw` with UTF-8, entry `i` of
`hist_symbols_acs` with `A_ALTCHARSET` through `mvwaddch` otherwise. -/
def graph_glyph (has_utf8 : Bool) (i : Nat) : graph_symbol :=
  if has_utf8 then graph_symbol.text (hist_symbols_utf8.getD i "!")
  else graph_symbol.character (hist_symbols_acs.getD i 33) true

/-- The colour pair `update_prettyping_graph` reads for tier index `i`: entry
`i` of `hist_colors_utf8` with UTF-8, of `hist_colors_acs` otherwise. -/
def graph_color (has_utf8 : Bool) (i : Nat) : Int :=
  if has_utf8 then hist_colors_utf8.getD i OPING_RED else hist_colors_acs.getD i OPING_RED

/-- The DSCP names of the usage text that name a code point of their own:
`be`, `ef`, `va`, `af[1-4][1-3]` and `cs[1-7]` (`cs0` is the code point of
`be`). -/
def dscp_names : List String :=
  ["be", "ef", "va",
   "af11", "af12", "af13", "af21", "af22", "af23",
   "af31", "af32", "af33", "af41", "af42", "af43",
   "cs1", "cs2", "cs3", "cs4", "cs5", "cs6", "cs7"]

/-- The array `ratios` of `update_boxplot`, for `x_max` columns. -/
def boxplot_ratios (hist : List Nat) (size x_max : Nat) : List Dbl :=
  let accumulated := accumulated (boxplot_downsample hist size x_max)
  let num := accumulated.getD (x_max - 1) 0
  accumulated.map
    (fun a => Dbl.div (Dbl.ofInt ((a : Nat) : Int)) (Dbl.ofInt ((num : Nat) : Int)))

/-- Number of columns drawn with the median mark. -/
def boxplot_result.medians : boxplot_result → Nat
  | boxplot_result.drawn cells _ =>
    cells.countP (fun c => decide (c.symbol = boxplot_symbol.median))
  | _ => 0

/-- Sum of the counters of the buckets `i < size` with `i * x_max / size = x`. -/
def column_count (hist : List Nat) (size x_max x : Nat) : Nat :=
  (((List.range size).filter (fun i => decide (i * x_max / size = x))).map
    (fun i => hist.getD i 0)).sum

/-- `2^31` replies in bucket 0 and `2^31` replies in bucket 1: the total count
is `2^32`. -/
def half_histogram : List Nat :=
  2147483648 :: 2147483648 :: List.replicate 999 0

/-! ## Basic facts -/

theorem sum_set_add (h : List Nat) (b v : Nat) (hb : b < h.length) :
    (h.set b v).sum + h.getD b 0 = h.sum + v := by
  induction h generalizing b with
  | nil => simp at hb
  | cons a t ih =>
    cases b with
    | zero => simp; omega
    | succ b =>
      have := ih b (by simpa using hb)
      simp only [List.set_cons_succ, List.sum_cons, List.getD_cons_succ]
      omega

theorem getD_le_sum (h : List Nat) (b : Nat) : h.getD b 0 ≤ h.sum := by
  induction h generalizing b with
  | nil => simp
  | cons a t ih =>
    cases b with
    | zero => simp
    | succ b =>
      have := ih b
      simp only [List.getD_cons_succ, List.sum_cons]
      omega

theorem bucket_index_lt (opt_interval : Dbl) (size : Nat) (latency : Dbl) (hs : 0 < size) :
    bucket_index opt_interval size latency < size := by
  unfold bucket_index
  simp only
  split_ifs with h <;> omega

theorem update_context_histogram (opt_interval : Dbl) (ctx : ping_context_t) (latency : Dbl)
    (hist : List Nat) (hh : ctx.latency_histogram = some hist) :
    (update_context opt_interval ctx latency).latency_histogram =
      some (hist.set (bucket_index opt_interval ctx.latency_histogram_size latency)
        ((hist.getD (bucket_index opt_interval ctx.latency_histogram_size latency) 0 + 1)
          % 2 ^ 32)) := by
  unfold update_context bucket_index bucket_quotient
  simp only
  split_ifs <;> simp [hh]

theorem update_context_req_rcvd (opt_interval : Dbl) (ctx : ping_context_t) (latency : Dbl) :
    (update_context opt_interval ctx latency).req_rcvd = ctx.req_rcvd + 1 := by
  unfold update_context
  simp only
  split <;> split_ifs <;> rfl

theorem update_context_req_sent (opt_interval : Dbl) (ctx : ping_context_t) (latency : Dbl) :
    (update_context opt_interval ctx latency).req_sent = ctx.req_sent := by
  unfold update_context
  simp only
  split <;> split_ifs <;> rfl

theorem update_context_size (opt_interval : Dbl) (ctx : ping_context_t) (latency : Dbl) :
    (update_context opt_interval ctx latency).latency_histogram_size =
      ctx.latency_histogram_size := by
  unfold update_context
  simp only
  split <;> split_ifs <;> rfl

theorem update_context_latency_total (opt_interval : Dbl) (ctx : ping_context_t)
    (latency : Dbl) :
    (update_context opt_interval ctx latency).latency_total =
      Dbl.add ctx.latency_total latency := by
  unfold update_context
  simp only
  split <;> split_ifs <;> rfl

theorem update_context_latency_total_square (opt_interval : Dbl) (ctx : ping_context_t)
    (latency : Dbl) :
    (update_context opt_interval ctx latency).latency_total_square =
      Dbl.add ctx.latency_total_square (Dbl.mul latency latency) := by
  unfold update_context
  simp only
  split <;> split_ifs <;> rfl

theorem context_init_inv : ctx_inv (context_init true) := by
  refine ⟨List.replicate OPING_HISTOGRAM_BUCKETS 0, rfl, ?_, rfl, ?_, ?_⟩
  · simp [context_init]
  · simp [context_init]
  · simp [context_init]

theorem update_host_hook_req_sent (opt_interval : Dbl) (ctx : ping_context_t) (latency : Dbl) :
    (update_host_hook opt_interval ctx latency).req_sent = ctx.req_sent + 1 := by
  unfold update_host_hook
  simp only
  split_ifs
  · rw [update_context_req_sent]
  · rfl

theorem update_host_hook_inv (opt_interval : Dbl) (ctx : ping_context_t) (latency : Dbl)
    (hinv : ctx_inv ctx) (hsent : ctx.req_sent < 2 ^ 31) :
    ctx_inv (update_host_hook opt_interval ctx latency) := by
  obtain ⟨hist, hh, hlen, hsize, hsum, hle⟩ := hinv
  unfold update_host_hook
  simp only
  split_ifs with hgt
  · have hb : bucket_index opt_interval ctx.latency_histogram_size latency < hist.length := by
      rw [hlen]
      exact bucket_index_lt _ _ _ (by rw [hsize]; decide)
    have hget := getD_le_sum hist (bucket_index opt_interval ctx.latency_histogram_size latency)
    have hlt : hist.getD (bucket_index opt_interval ctx.latency_histogram_size latency) 0 + 1
        < 2 ^ 32 := by
      have : (hist.sum : Int) < 2 ^ 31 := by omega
      have h2 : hist.sum < 2 ^ 31 := by exact_mod_cast this
      omega
    have hset := sum_set_add hist _
      ((hist.getD (bucket_index opt_interval ctx.latency_histogram_size latency) 0 + 1)
        % 2 ^ 32) hb
    rw [Nat.mod_eq_of_lt hlt] at hset
    refine ⟨_, update_context_histogram opt_interval _ latency hist hh, ?_, ?_, ?_, ?_⟩
    · rw [update_context_size]; simpa using hlen
    · rw [update_context_size]; exact hsize
    · rw [update_context_req_rcvd, Nat.mod_eq_of_lt hlt]
      have : (hist.set (bucket_index opt_interval ctx.latency_histogram_size latency)
          (hist.getD (bucket_index opt_interval ctx.latency_histogram_size latency) 0 + 1)).sum
          = hist.sum + 1 := by omega
      rw [this, Nat.cast_add_one, hsum]
    · rw [update_context_req_rcvd, update_context_req_sent]
      simp only
      omega
  · exact ⟨hist, hh, hlen, hsize, hsum, by simp only; omega⟩

theorem run_samples_inv (opt_interval : Dbl) (samples : List Dbl) (ctx : ping_context_t)
    (hinv : ctx_inv ctx) (hsent : ctx.req_sent + samples.length < 2 ^ 31 + 1) :
    ctx_inv (run_samples opt_interval ctx samples) ∧
      (run_samples opt_interval ctx samples).req_sent = ctx.req_sent + samples.length := by
  induction samples generalizing ctx with
  | nil => simpa [run_samples] using hinv
  | cons s rest ih =>
    have hs : ctx.req_sent < 2 ^ 31 := by
      simp only [List.length_cons] at hsent
      push_cast at hsent
      omega
    have h1 := update_host_hook_inv opt_interval ctx s hinv hs
    have h2 := ih (update_host_hook opt_interval ctx s) h1 (by
      rw [update_host_hook_req_sent]
      simp only [List.length_cons] at hsent
      push_cast at hsent
      omega)
    refine ⟨h2.1, ?_⟩
    have := h2.2
    rw [update_host_hook_req_sent] at this
    simp only [run_samples, List.foldl_cons, List.length_cons] at this ⊢
    rw [this]
    push_cast
    omega

/-! ## C1: the histogram adds up to `req_rcvd` -/

/-- C1: for every sequence of fewer than `2^31` samples applied by
`update_host_hook` to a freshly created context whose histogram was allocated,
after every step (every prefix of the sequence) the 1001 histogram buckets add
up to `req_rcvd`, and `req_rcvd <= req_sent`. -/
theorem histogram_sum_eq_req_rcvd (opt_interval : Dbl) (samples : List Dbl) (k : Nat)
    (hlen : samples.length < 2 ^ 31) :
    ∃ hist,
      (run_samples opt_interval (context_init true) (samples.take k)).latency_histogram
        = some hist ∧
      hist.length = 1001 ∧
      (hist.sum : Int) = (run_samples opt_interval (context_init true) (samples.take k)).req_rcvd ∧
      (run_samples opt_interval (context_init true) (samples.take k)).req_rcvd
        ≤ (run_samples opt_interval (context_init true) (samples.take k)).req_sent := by
  have hk : (samples.take k).length ≤ samples.length := by
    simp [List.length_take]
  have h := (run_samples_inv opt_interval (samples.take k) (context_init true)
    context_init_inv (by
      have : (context_init true).req_sent = 0 := rfl
      rw [this]
      have : ((samples.take k).length : Int) < 2 ^ 31 := by exact_mod_cast (by omega)
      omega)).1
  obtain ⟨hist, hh, hl, hsize, hsum, hle⟩ := h
  exact ⟨hist, hh, by rw [hl, hsize]; rfl, hsum, hle⟩

theorem histogram_sum_eq_req_rcvd_witness :
    ∃ hist,
      (run_samples (Dbl.fin 1) (context_init true)
        ([Dbl.fin 12, Dbl.fin (-1), Dbl.fin 2500].take 2)).latency_histogram = some hist ∧
      hist.length = 1001 ∧
      (hist.sum : Int) = (run_samples (Dbl.fin 1) (context_init true)
        ([Dbl.fin 12, Dbl.fin (-1), Dbl.fin 2500].take 2)).req_rcvd ∧
      (run_samples (Dbl.fin 1) (context_init true)
        ([Dbl.fin 12, Dbl.fin (-1), Dbl.fin 2500].take 2)).req_rcvd
        ≤ (run_samples (Dbl.fin 1) (context_init true)
        ([Dbl.fin 12, Dbl.fin (-1), Dbl.fin 2500].take 2)).req_sent :=
  histogram_sum_eq_req_rcvd (Dbl.fin 1) [Dbl.fin 12, Dbl.fin (-1), Dbl.fin 2500] 2 (by decide)

/-! ## Arithmetic on finite doubles -/

theorem Dbl.mul_fin_pos_left (a b : ℚ) (ha : 0 < a) :
    Dbl.mul (Dbl.fin a) (Dbl.fin b) = Dbl.fin (a * b) := by
  simp only [Dbl.mul, Dbl.isNaN, Dbl.isInf, Dbl.isZero, Dbl.signbit, Dbl.val, Dbl.ofRat, Dbl.zero]
  by_cases hb : b = 0
  · subst hb; simp [ha.le]
  · have hab : a * b ≠ 0 := mul_ne_zero ha.ne' hb
    simp [hab]

theorem Dbl.mul_fin_pos_right (a b : ℚ) (hb : 0 < b) :
    Dbl.mul (Dbl.fin a) (Dbl.fin b) = Dbl.fin (a * b) := by
  simp only [Dbl.mul, Dbl.isNaN, Dbl.isInf, Dbl.isZero, Dbl.signbit, Dbl.val, Dbl.ofRat, Dbl.zero]
  by_cases ha : a = 0
  · subst ha; simp [hb.le]
  · have hab : a * b ≠ 0 := mul_ne_zero ha hb.ne'
    simp [hab]

theorem Dbl.div_fin_pos_right (a b : ℚ) (hb : 0 < b) :
    Dbl.div (Dbl.fin a) (Dbl.fin b) = Dbl.fin (a / b) := by
  simp only [Dbl.div, Dbl.isNaN, Dbl.isInf, Dbl.isZero, Dbl.signbit, Dbl.val, Dbl.ofRat, Dbl.zero]
  by_cases ha : a = 0
  · subst ha; simp [hb.ne', hb.le]
  · have hab : a / b ≠ 0 := div_ne_zero ha hb.ne'
    simp [hab, hb.ne']

theorem Dbl.ge_fin_fin (a b : ℚ) : Dbl.ge (Dbl.fin a) (Dbl.fin b) = decide (b ≤ a) := by
  simp [Dbl.ge, Dbl.le, Dbl.val]

theorem Dbl.gt_fin_fin (a b : ℚ) : Dbl.gt (Dbl.fin a) (Dbl.fin b) = decide (b < a) := by
  simp [Dbl.gt, Dbl.lt, Dbl.val]

theorem Dbl.lt_fin_fin (a b : ℚ) : Dbl.lt (Dbl.fin a) (Dbl.fin b) = decide (a < b) := by
  simp [Dbl.lt, Dbl.val]

/-! ## Rounding to binary64 -/

theorem Dbl.pow2_eq (e : Int) : Dbl.pow2 e = (2 : ℚ) ^ e := by
  unfold Dbl.pow2
  split_ifs with h
  · obtain ⟨n, rfl⟩ := Int.eq_ofNat_of_zero_le h
    simp
  · have h' : 0 ≤ -e := by omega
    obtain ⟨n, hn⟩ := Int.eq_ofNat_of_zero_le h'
    have he : e = -(n : Int) := by omega
    subst he
    simp

theorem Dbl.pow2_pos (e : Int) : 0 < Dbl.pow2 e := by
  rw [Dbl.pow2_eq]
  positivity

theorem Dbl.pow2_le_pow2 {a b : Int} (h : a ≤ b) : Dbl.pow2 a ≤ Dbl.pow2 b := by
  rw [Dbl.pow2_eq, Dbl.pow2_eq]
  exact zpow_le_zpow_right₀ (by norm_num) h

theorem Dbl.pow2_lt_pow2_iff {a b : Int} : Dbl.pow2 a < Dbl.pow2 b ↔ a < b := by
  rw [Dbl.pow2_eq, Dbl.pow2_eq]
  exact zpow_lt_zpow_iff_right₀ (by norm_num)

theorem Dbl.pow2_add (a b : Int) : Dbl.pow2 (a + b) = Dbl.pow2 a * Dbl.pow2 b := by
  rw [Dbl.pow2_eq, Dbl.pow2_eq, Dbl.pow2_eq]
  exact zpow_add₀ (by norm_num) a b

theorem Dbl.pow2_natCast (n : Nat) : Dbl.pow2 (n : Int) = ((2 ^ n : Nat) : ℚ) := by
  rw [Dbl.pow2_eq]
  simp

theorem Dbl.bitlen_spec (fuel n : Nat) (h : n ≤ fuel) :
    n < 2 ^ Dbl.bitlen fuel n ∧ (0 < n → 2 ^ (Dbl.bitlen fuel n - 1) ≤ n ∧ 1 ≤ Dbl.bitlen fuel n) := by
  induction fuel generalizing n with
  | zero =>
    have : n = 0 := by omega
    subst this
    simp [Dbl.bitlen]
  | succ f ih =>
    unfold Dbl.bitlen
    by_cases hn : n = 0
    · subst hn
      simp
    · rw [if_neg hn]
      have h2 : n / 2 ≤ f := by omega
      obtain ⟨hlt, hge⟩ := ih (n / 2) h2
      refine ⟨?_, fun _ => ⟨?_, by omega⟩⟩
      · rw [pow_succ]
        omega
      · rw [Nat.add_sub_cancel]
        by_cases h0 : n / 2 = 0
        · have : n = 1 := by omega
          subst this
          simp [Dbl.bitlen] at *
          cases f <;> simp [Dbl.bitlen]
        · obtain ⟨hle, hb⟩ := hge (by omega)
          have : 2 ^ Dbl.bitlen f (n / 2) = 2 * 2 ^ (Dbl.bitlen f (n / 2) - 1) := by
            conv_lhs => rw [show Dbl.bitlen f (n / 2) = (Dbl.bitlen f (n / 2) - 1) + 1 by omega]
            rw [pow_succ]
            ring
          omega

theorem Dbl.ilog2_spec (q : ℚ) (hq : 0 < q) :
    Dbl.pow2 (Dbl.ilog2 q) ≤ q ∧ q < Dbl.pow2 (Dbl.ilog2 q + 1) := by
  have hnum : 0 < q.num := Rat.num_pos.mpr hq
  have hn0 : 0 < q.num.natAbs := Int.natAbs_pos.mpr hnum.ne'
  have hd0 : 0 < q.den := q.den_pos
  obtain ⟨hn1, hn2⟩ := Dbl.bitlen_spec q.num.natAbs q.num.natAbs (le_refl _)
  obtain ⟨hn2, hna⟩ := hn2 hn0
  obtain ⟨hd1, hd2⟩ := Dbl.bitlen_spec q.den q.den (le_refl _)
  obtain ⟨hd2, hdb⟩ := hd2 hd0
  unfold Dbl.ilog2
  simp only [not_lt.mpr hq.le, if_false]
  generalize Dbl.bitlen q.num.natAbs q.num.natAbs = a at hn1 hn2 hna ⊢
  generalize Dbl.bitlen q.den q.den = b at hd1 hd2 hdb ⊢
  have hqeq : q = (q.num.natAbs : ℚ) / (q.den : ℚ) := by
    have h2 : ((q.num.natAbs : ℚ)) = (q.num : ℚ) := by
      rw [Nat.cast_natAbs, abs_of_pos hnum]
    rw [h2]
    exact (Rat.num_div_den q).symm
  have hA2 : (2 : ℚ) ^ a ≤ 2 * (q.num.natAbs : ℚ) := by
    have : 2 ^ a ≤ 2 * q.num.natAbs := by
      have : 2 ^ a = 2 * 2 ^ (a - 1) := by
        conv_lhs => rw [show a = (a - 1) + 1 by omega]
        rw [pow_succ]
        ring
      omega
    exact_mod_cast this
  have hB2 : (2 : ℚ) ^ b ≤ 2 * (q.den : ℚ) := by
    have : 2 ^ b ≤ 2 * q.den := by
      have : 2 ^ b = 2 * 2 ^ (b - 1) := by
        conv_lhs => rw [show b = (b - 1) + 1 by omega]
        rw [pow_succ]
        ring
      omega
    exact_mod_cast this
  have hA1 : (q.num.natAbs : ℚ) < (2 : ℚ) ^ a := by exact_mod_cast hn1
  have hB1 : (q.den : ℚ) < (2 : ℚ) ^ b := by exact_mod_cast hd1
  have hN : (0 : ℚ) < (q.num.natAbs : ℚ) := by exact_mod_cast hn0
  have hD : (0 : ℚ) < (q.den : ℚ) := by exact_mod_cast hd0
  have hA : (0 : ℚ) < (2 : ℚ) ^ a := by positivity
  have hB : (0 : ℚ) < (2 : ℚ) ^ b := by positivity
  have hp0 : Dbl.pow2 ((a : Int) - (b : Int)) = (2 : ℚ) ^ a / (2 : ℚ) ^ b := by
    rw [Dbl.pow2_eq, zpow_sub₀ (by norm_num), zpow_natCast, zpow_natCast]
  have hp1 : Dbl.pow2 ((a : Int) - (b : Int) + 1) = 2 * (2 : ℚ) ^ a / (2 : ℚ) ^ b := by
    rw [Dbl.pow2_add, hp0]
    have : Dbl.pow2 1 = 2 := by rw [Dbl.pow2_eq]; norm_num
    rw [this]
    ring
  have hpm : Dbl.pow2 ((a : Int) - (b : Int) - 1) = (2 : ℚ) ^ a / (2 * (2 : ℚ) ^ b) := by
    have : (a : Int) - (b : Int) - 1 = ((a : Int) - (b : Int)) + (-1) := by ring
    rw [this, Dbl.pow2_add, hp0]
    have : Dbl.pow2 (-1) = 1 / 2 := by rw [Dbl.pow2_eq]; norm_num
    rw [this]
    field_simp
    ring
  split_ifs with h
  · refine ⟨h, ?_⟩
    rw [hp1]
    conv_lhs => rw [hqeq]
    rw [div_lt_div_iff₀ hD hB]
    nlinarith
  · have h' := not_le.mp h
    refine ⟨?_, ?_⟩
    · rw [hpm]
      conv_rhs => rw [hqeq]
      rw [div_le_div_iff₀ (by positivity) hD]
      nlinarith
    · rw [sub_add_cancel]
      exact h'

theorem Dbl.rne_le (m : ℚ) (K : Int) (h : m ≤ (K : ℚ)) : Dbl.rne m ≤ K := by
  have hf : (Int.floor m : ℚ) ≤ m := Int.floor_le m
  have hfK : Int.floor m ≤ K := by
    have : (Int.floor m : ℚ) ≤ (K : ℚ) := le_trans hf h
    exact_mod_cast this
  unfold Dbl.rne
  simp only
  split_ifs with h1 h2 h3
  · exact hfK
  · by_contra hcon
    have hfe : Int.floor m = K := by omega
    rw [hfe] at h1
    exact h1 (by linarith)
  · exact hfK
  · by_contra hcon
    have hfe : Int.floor m = K := by omega
    rw [hfe] at h1
    exact h1 (by linarith)

theorem Dbl.le_rne (m : ℚ) (K : Int) (h : (K : ℚ) ≤ m) : K ≤ Dbl.rne m := by
  have hfK : K ≤ Int.floor m := Int.le_floor.mpr h
  unfold Dbl.rne
  simp only
  split_ifs <;> omega

theorem Dbl.rne_mono (m n : ℚ) (h : m ≤ n) : Dbl.rne m ≤ Dbl.rne n := by
  have hf : Int.floor m ≤ Int.floor n := Int.floor_mono h
  by_cases hlt : Int.floor m < Int.floor n
  · have h1 : Dbl.rne m ≤ Int.floor m + 1 := by
      unfold Dbl.rne
      simp only
      split_ifs <;> omega
    have h2 : Int.floor n ≤ Dbl.rne n := by
      unfold Dbl.rne
      simp only
      split_ifs <;> omega
    omega
  · have he : Int.floor m = Int.floor n := by omega
    unfold Dbl.rne
    simp only
    rw [he]
    split_ifs <;> first | omega | (exfalso; linarith)

theorem Dbl.rnd_nonneg (q : ℚ) (hq : 0 ≤ q) : 0 ≤ Dbl.rnd q := by
  unfold Dbl.rnd
  simp only
  apply mul_nonneg _ (Dbl.pow2_pos _).le
  have h0 : (0 : ℚ) ≤ q / Dbl.pow2 (max (Dbl.ilog2 q) (-1022) - 52) :=
    div_nonneg hq (Dbl.pow2_pos _).le
  have := Dbl.le_rne _ 0 (by simpa using h0)
  exact_mod_cast this

/-- A value between 0 and a natural number below `2^53` is rounded to a value
between 0 and that number. -/
theorem Dbl.rnd_le_nat (q : ℚ) (K : Nat) (hq : 0 < q) (hK : K < 2 ^ 53) (hle : q ≤ (K : ℚ)) :
    Dbl.rnd q ≤ (K : ℚ) := by
  obtain ⟨hlo, _⟩ := Dbl.ilog2_spec q hq
  have he : Dbl.ilog2 q < 53 := by
    have h1 : Dbl.pow2 (Dbl.ilog2 q) < Dbl.pow2 53 := by
      have h53 : Dbl.pow2 53 = ((2 ^ 53 : Nat) : ℚ) := Dbl.pow2_natCast 53
      rw [h53]
      have : (K : ℚ) < ((2 ^ 53 : Nat) : ℚ) := by exact_mod_cast hK
      linarith
    exact Dbl.pow2_lt_pow2_iff.mp h1
  unfold Dbl.rnd
  simp only
  have hmax : max (Dbl.ilog2 q) (-1022) - 52 ≤ 0 := by
    have : max (Dbl.ilog2 q) (-1022) ≤ 52 := max_le (by omega) (by norm_num)
    omega
  generalize max (Dbl.ilog2 q) (-1022) - 52 = t at hmax
  obtain ⟨n, hn⟩ := Int.eq_ofNat_of_zero_le (show 0 ≤ -t by omega)
  have ht : t = -(n : Int) := by omega
  subst ht
  have hu : Dbl.pow2 (-(n : Int)) * ((2 ^ n : Nat) : ℚ) = 1 := by
    rw [← Dbl.pow2_natCast, ← Dbl.pow2_add]
    simp [Dbl.pow2]
  have hupos := Dbl.pow2_pos (-(n : Int))
  have hm : q / Dbl.pow2 (-(n : Int)) ≤ (((K * 2 ^ n : Nat) : Int) : ℚ) := by
    rw [div_le_iff₀ hupos]
    push_cast
    have : (K : ℚ) * 2 ^ n * Dbl.pow2 (-(n : Int)) = (K : ℚ) := by
      have h2 : ((2 ^ n : Nat) : ℚ) = (2 : ℚ) ^ n := by push_cast; rfl
      rw [h2] at hu
      rw [mul_assoc, mul_comm ((2 : ℚ) ^ n), hu, mul_one]
    rw [this]
    exact hle
  have hr := Dbl.rne_le _ _ hm
  have hr' : (Dbl.rne (q / Dbl.pow2 (-(n : Int))) : ℚ) ≤ (((K * 2 ^ n : Nat) : Int) : ℚ) := by
    exact_mod_cast hr
  calc (Dbl.rne (q / Dbl.pow2 (-(n : Int))) : ℚ) * Dbl.pow2 (-(n : Int))
      ≤ (((K * 2 ^ n : Nat) : Int) : ℚ) * Dbl.pow2 (-(n : Int)) :=
        mul_le_mul_of_nonneg_right hr' hupos.le
    _ = (K : ℚ) := by
        push_cast
        have h2 : ((2 ^ n : Nat) : ℚ) = (2 : ℚ) ^ n := by push_cast; rfl
        rw [h2] at hu
        rw [mul_assoc, mul_comm ((2 : ℚ) ^ n), hu, mul_one]

/-- The result of rounding a positive value. -/
theorem Dbl.round_of_pos (s : Bool) (q : ℚ) (hq : 0 < q) :
    Dbl.round s q = if Dbl.pow2 1024 ≤ Dbl.rnd q then Dbl.pinf else Dbl.fin (Dbl.rnd q) := by
  have hr := Dbl.rnd_nonneg q hq.le
  unfold Dbl.round
  simp only [hq.ne', if_false, not_lt.mpr hr, not_lt.mpr hq.le, decide_False, Dbl.inf, Dbl.zero,
    Bool.false_eq_true]
  split_ifs with h1 h2
  · rfl
  · rw [h2]
  · rfl

theorem Dbl.round_zero : Dbl.round false 0 = Dbl.fin 0 := by
  simp [Dbl.round, Dbl.zero]

/-- Rounding a value in `[0, K]`, for a natural number `K` below `2^53`, gives a
finite value in `[0, K]`. -/
theorem Dbl.round_le_nat (q : ℚ) (K : Nat) (hq : 0 ≤ q) (hK : K < 2 ^ 53) (hle : q ≤ (K : ℚ)) :
    Dbl.round false q = Dbl.fin (Dbl.rnd q) ∧ 0 ≤ Dbl.rnd q ∧ Dbl.rnd q ≤ (K : ℚ) := by
  rcases hq.lt_or_eq with hpos | h0
  · have hr := Dbl.rnd_le_nat q K hpos hK hle
    refine ⟨?_, Dbl.rnd_nonneg q hq, hr⟩
    rw [Dbl.round_of_pos false q hpos, if_neg]
    have h1024 : ((2 ^ 53 : Nat) : ℚ) ≤ Dbl.pow2 1024 := by
      rw [← Dbl.pow2_natCast]
      exact Dbl.pow2_le_pow2 (by norm_num)
    have : (K : ℚ) < ((2 ^ 53 : Nat) : ℚ) := by exact_mod_cast hK
    linarith
  · subst h0
    have hz : Dbl.rnd 0 = 0 := by
      simp [Dbl.rnd, Dbl.rne]
    rw [hz, Dbl.round_zero]
    exact ⟨rfl, le_refl _, by exact_mod_cast Nat.zero_le K⟩

/-- Rounding never gives NaN. -/
theorem Dbl.round_ne_nan (s : Bool) (q : ℚ) : Dbl.round s q ≠ Dbl.nan := by
  unfold Dbl.round Dbl.zero Dbl.inf
  simp only
  split_ifs <;> simp

theorem Dbl.ilog2_mono (p q : ℚ) (hp : 0 < p) (h : p ≤ q) : Dbl.ilog2 p ≤ Dbl.ilog2 q := by
  by_contra hcon
  have hlt : Dbl.ilog2 q + 1 ≤ Dbl.ilog2 p := by omega
  have h1 := (Dbl.ilog2_spec q (lt_of_lt_of_le hp h)).2
  have h2 := (Dbl.ilog2_spec p hp).1
  have h3 := Dbl.pow2_le_pow2 hlt
  linarith

theorem Dbl.pow2_split (e : Int) : Dbl.pow2 (e + 1) = ((2 ^ 53 : Nat) : ℚ) * Dbl.pow2 (e - 52) := by
  rw [← Dbl.pow2_natCast, ← Dbl.pow2_add]
  congr 1
  push_cast
  ring

theorem Dbl.pow2_split' (e : Int) : Dbl.pow2 e = ((2 ^ 52 : Nat) : ℚ) * Dbl.pow2 (e - 52) := by
  rw [← Dbl.pow2_natCast, ← Dbl.pow2_add]
  congr 1
  push_cast
  ring

/-- Rounding a positive value stays below the next power of two. -/
theorem Dbl.rnd_le_pow2 (q : ℚ) (hq : 0 < q) :
    Dbl.rnd q ≤ Dbl.pow2 (max (Dbl.ilog2 q) (-1022) + 1) := by
  have hup := (Dbl.ilog2_spec q hq).2
  have hle : q ≤ Dbl.pow2 (max (Dbl.ilog2 q) (-1022) + 1) :=
    le_trans hup.le (Dbl.pow2_le_pow2 (by have := le_max_left (Dbl.ilog2 q) (-1022); omega))
  unfold Dbl.rnd
  simp only
  generalize max (Dbl.ilog2 q) (-1022) = e at hle ⊢
  have hu := Dbl.pow2_pos (e - 52)
  rw [Dbl.pow2_split] at hle ⊢
  have hm : q / Dbl.pow2 (e - 52) ≤ (((2 ^ 53 : Nat) : Int) : ℚ) := by
    rw [div_le_iff₀ hu]
    exact_mod_cast hle
  have hr := Dbl.rne_le _ _ hm
  have hr' : (Dbl.rne (q / Dbl.pow2 (e - 52)) : ℚ) ≤ ((2 ^ 53 : Nat) : ℚ) := by
    exact_mod_cast hr
  exact mul_le_mul_of_nonneg_right hr' hu.le

/-- Rounding a normal positive value stays at or above its power of two. -/
theorem Dbl.pow2_le_rnd (q : ℚ) (hq : 0 < q) (hn : -1022 ≤ Dbl.ilog2 q) :
    Dbl.pow2 (Dbl.ilog2 q) ≤ Dbl.rnd q := by
  have hlo := (Dbl.ilog2_spec q hq).1
  unfold Dbl.rnd
  simp only
  rw [max_eq_left hn]
  generalize Dbl.ilog2 q = e at hlo ⊢
  have hu := Dbl.pow2_pos (e - 52)
  rw [Dbl.pow2_split'] at hlo ⊢
  have hm : (((2 ^ 52 : Nat) : Int) : ℚ) ≤ q / Dbl.pow2 (e - 52) := by
    rw [le_div_iff₀ hu]
    exact_mod_cast hlo
  have hr := Dbl.le_rne _ _ hm
  have hr' : ((2 ^ 52 : Nat) : ℚ) ≤ (Dbl.rne (q / Dbl.pow2 (e - 52)) : ℚ) := by
    exact_mod_cast hr
  exact mul_le_mul_of_nonneg_right hr' hu.le

/-- Rounding is monotone on the positive values. -/
theorem Dbl.rnd_mono (p q : ℚ) (hp : 0 < p) (h : p ≤ q) : Dbl.rnd p ≤ Dbl.rnd q := by
  have hq : 0 < q := lt_of_lt_of_le hp h
  have he := Dbl.ilog2_mono p q hp h
  by_cases heq : max (Dbl.ilog2 p) (-1022) = max (Dbl.ilog2 q) (-1022)
  · unfold Dbl.rnd
    simp only
    rw [heq]
    have hu := Dbl.pow2_pos (max (Dbl.ilog2 q) (-1022) - 52)
    apply mul_le_mul_of_nonneg_right _ hu.le
    have := Dbl.rne_mono _ _ (div_le_div_of_nonneg_right h hu.le)
    exact_mod_cast this
  · have hlt : max (Dbl.ilog2 p) (-1022) + 1 ≤ Dbl.ilog2 q := by
      rcases le_total (Dbl.ilog2 p) (-1022) with h1 | h1
      · rw [max_eq_right h1] at heq ⊢
        rcases le_total (Dbl.ilog2 q) (-1022) with h2 | h2
        · rw [max_eq_right h2] at heq
          exact absurd rfl heq
        · rw [max_eq_left h2] at heq
          omega
      · rw [max_eq_left h1] at heq ⊢
        have h2 : -1022 ≤ Dbl.ilog2 q := by omega
        rw [max_eq_left h2] at heq
        omega
    have hn : -1022 ≤ Dbl.ilog2 q := by
      have := le_max_right (Dbl.ilog2 p) (-1022)
      omega
    calc Dbl.rnd p ≤ Dbl.pow2 (max (Dbl.ilog2 p) (-1022) + 1) := Dbl.rnd_le_pow2 p hp
      _ ≤ Dbl.pow2 (Dbl.ilog2 q) := Dbl.pow2_le_pow2 hlt
      _ ≤ Dbl.rnd q := Dbl.pow2_le_rnd q hq hn

/-- Rounding to binary64 is monotone on the values that are not negative. -/
theorem Dbl.round_mono (p q : ℚ) (hp : 0 ≤ p) (h : p ≤ q) :
    Dbl.le (Dbl.round false p) (Dbl.round false q) = true := by
  rcases hp.lt_or_eq with hpos | h0
  · have hq : 0 < q := lt_of_lt_of_le hpos h
    have hm := Dbl.rnd_mono p q hpos h
    rw [Dbl.round_of_pos false p hpos, Dbl.round_of_pos false q hq]
    split_ifs with h1 h2 h2
    · rfl
    · exact absurd (le_trans h1 hm) h2
    · rfl
    · simp only [Dbl.le, Dbl.val, decide_eq_true_eq]
      exact hm
  · subst h0
    rw [Dbl.round_zero]
    rcases h.lt_or_eq with hq | hq
    · rw [Dbl.round_of_pos false q hq]
      split_ifs
      · rfl
      · simp only [Dbl.le, Dbl.val, decide_eq_true_eq]
        exact Dbl.rnd_nonneg q h
    · rw [← hq, Dbl.round_zero]
      simp [Dbl.le, Dbl.val]

/-- A positive value at most `K / 2^k`, a binary64 value, is rounded to a value
at most `K / 2^k`. -/
theorem Dbl.rnd_le_dyadic (q : ℚ) (K k : Nat) (hq : 0 < q) (hK : K < 2 ^ 53) (hk : k ≤ 1074)
    (hle : q ≤ (K : ℚ) / 2 ^ k) : Dbl.rnd q ≤ (K : ℚ) / 2 ^ k := by
  obtain ⟨hlo, _⟩ := Dbl.ilog2_spec q hq
  have h2k : (0 : ℚ) < 2 ^ k := by positivity
  have he : Dbl.ilog2 q < 53 - (k : Int) := by
    have h1 : Dbl.pow2 (Dbl.ilog2 q) < Dbl.pow2 (53 - (k : Int)) := by
      have h53 : Dbl.pow2 (53 - (k : Int)) = ((2 ^ 53 : Nat) : ℚ) / 2 ^ k := by
        rw [Dbl.pow2_eq, zpow_sub₀ (by norm_num), zpow_natCast]
        norm_num
      rw [h53]
      have : (K : ℚ) < ((2 ^ 53 : Nat) : ℚ) := by exact_mod_cast hK
      have : (K : ℚ) / 2 ^ k < ((2 ^ 53 : Nat) : ℚ) / 2 ^ k :=
        div_lt_div_of_pos_right this h2k
      linarith
    exact Dbl.pow2_lt_pow2_iff.mp h1
  unfold Dbl.rnd
  simp only
  have hmax : max (Dbl.ilog2 q) (-1022) - 52 ≤ -(k : Int) := by
    have : max (Dbl.ilog2 q) (-1022) ≤ 52 - (k : Int) := max_le (by omega) (by omega)
    omega
  generalize max (Dbl.ilog2 q) (-1022) - 52 = t at hmax
  obtain ⟨n, hn⟩ := Int.eq_ofNat_of_zero_le (show 0 ≤ -t - (k : Int) by omega)
  have ht : t = -((n + k : Nat) : Int) := by push_cast; omega
  subst ht
  have hu : Dbl.pow2 (-((n + k : Nat) : Int)) = 1 / ((2 : ℚ) ^ n * 2 ^ k) := by
    rw [Dbl.pow2_eq, zpow_neg, zpow_natCast, pow_add]
    simp
  have hupos := Dbl.pow2_pos (-((n + k : Nat) : Int))
  have h2n : (0 : ℚ) < 2 ^ n := by positivity
  have hm : q / Dbl.pow2 (-((n + k : Nat) : Int)) ≤ (((K * 2 ^ n : Nat) : Int) : ℚ) := by
    rw [div_le_iff₀ hupos, hu]
    push_cast
    have : (K : ℚ) * 2 ^ n * (1 / ((2 : ℚ) ^ n * 2 ^ k)) = (K : ℚ) / 2 ^ k := by
      field_simp
      ring
    rw [this]
    exact hle
  have hr := Dbl.rne_le _ _ hm
  have hr' : (Dbl.rne (q / Dbl.pow2 (-((n + k : Nat) : Int))) : ℚ)
      ≤ (((K * 2 ^ n : Nat) : Int) : ℚ) := by
    exact_mod_cast hr
  calc (Dbl.rne (q / Dbl.pow2 (-((n + k : Nat) : Int))) : ℚ) * Dbl.pow2 (-((n + k : Nat) : Int))
      ≤ (((K * 2 ^ n : Nat) : Int) : ℚ) * Dbl.pow2 (-((n + k : Nat) : Int)) :=
        mul_le_mul_of_nonneg_right hr' hupos.le
    _ = (K : ℚ) / 2 ^ k := by
        rw [hu]
        push_cast
        field_simp
        ring

/-- Product of two finite values that are not negative. -/
theorem Dbl.mul64_nonneg (a b : ℚ) (ha : 0 ≤ a) (hb : 0 ≤ b) :
    Dbl.mul64 (Dbl.fin a) (Dbl.fin b) = Dbl.round false (a * b) := by
  simp [Dbl.mul64, Dbl.isNaN, Dbl.isInf, Dbl.signbit, Dbl.val, not_lt.mpr ha, not_lt.mpr hb]

/-- Quotient of a finite value that is not negative by a positive one. -/
theorem Dbl.div64_nonneg_pos (a b : ℚ) (ha : 0 ≤ a) (hb : 0 < b) :
    Dbl.div64 (Dbl.fin a) (Dbl.fin b) = Dbl.round false (a / b) := by
  simp [Dbl.div64, Dbl.isNaN, Dbl.isInf, Dbl.isZero, Dbl.signbit, Dbl.val, not_lt.mpr ha,
    not_lt.mpr hb.le, hb.ne']

theorem Dbl.round_one : Dbl.round false 1 = Dbl.fin 1 := by decide!

theorem Dbl.rnd_one : Dbl.rnd 1 = 1 := by decide!

/-- The ratio of two counts, the first at most the second, in binary64. -/
theorem Dbl.ratio64 (a num : Nat) (hnum : 0 < num) (hle : a ≤ num) :
    Dbl.div64 (Dbl.ofInt (a : Int)) (Dbl.ofInt (num : Int))
      = Dbl.fin (Dbl.rnd ((a : ℚ) / (num : ℚ))) := by
  have hn : (0 : ℚ) < (num : ℚ) := by exact_mod_cast hnum
  have ha : (0 : ℚ) ≤ (a : ℚ) := Nat.cast_nonneg a
  unfold Dbl.ofInt
  simp only [Int.cast_natCast]
  rw [Dbl.div64_nonneg_pos _ _ ha hn]
  have h1 : (a : ℚ) / (num : ℚ) ≤ ((1 : Nat) : ℚ) := by
    rw [div_le_iff₀ hn]
    simp only [Nat.cast_one, one_mul]
    exact_mod_cast hle
  exact (Dbl.round_le_nat _ 1 (div_nonneg ha hn.le) (by norm_num) h1).1

/-- The threshold `p / 100.0` of a percentile `p` in `[0, 100]`. -/
theorem Dbl.threshold64 (p : ℚ) (hp0 : 0 ≤ p) (hp : p ≤ 100) :
    Dbl.div64 (Dbl.fin p) (Dbl.fin 100) = Dbl.fin (Dbl.rnd (p / 100)) ∧
      Dbl.rnd (p / 100) ≤ 1 := by
  rw [Dbl.div64_nonneg_pos _ _ hp0 (by norm_num)]
  have h1 : p / 100 ≤ ((1 : Nat) : ℚ) := by
    rw [div_le_iff₀ (by norm_num)]
    simpa using hp
  obtain ⟨h, _, h3⟩ := Dbl.round_le_nat _ 1 (div_nonneg hp0 (by norm_num)) (by norm_num) h1
  exact ⟨h, by simpa using h3⟩

/-- Rounding a value that is not negative gives `+Infinity` or a finite value
that is not negative. -/
theorem Dbl.round_nonneg_cases (q : ℚ) (hq : 0 ≤ q) :
    Dbl.round false q = Dbl.pinf ∨ ∃ r, 0 ≤ r ∧ Dbl.round false q = Dbl.fin r := by
  rcases hq.lt_or_eq with hpos | h0
  · rw [Dbl.round_of_pos false q hpos]
    split_ifs
    · exact Or.inl rfl
    · exact Or.inr ⟨_, Dbl.rnd_nonneg q hq, rfl⟩
  · subst h0
    exact Or.inr ⟨0, le_refl _, Dbl.round_zero⟩

/-- A finite quotient of two doubles, each `+Infinity` or finite and not
negative, is not negative. -/
theorem Dbl.div64_fin_nonneg (x y : Dbl) (q : ℚ)
    (hx : x = Dbl.pinf ∨ ∃ r, 0 ≤ r ∧ x = Dbl.fin r)
    (hy : y = Dbl.pinf ∨ ∃ r, 0 ≤ r ∧ y = Dbl.fin r)
    (h : Dbl.div64 x y = Dbl.fin q) : 0 ≤ q := by
  rcases hx with rfl | ⟨a, ha, rfl⟩ <;> rcases hy with rfl | ⟨b, hb, rfl⟩
  · simp [Dbl.div64, Dbl.isNaN, Dbl.isInf] at h
  · simp [Dbl.div64, Dbl.isNaN, Dbl.isInf, Dbl.inf, Dbl.signbit, not_lt.mpr hb] at h
  · simp [Dbl.div64, Dbl.isNaN, Dbl.isInf, Dbl.zero, Dbl.signbit, not_lt.mpr ha] at h
    rw [← h]
  · rcases hb.lt_or_eq with hbpos | hb0
    · rw [Dbl.div64_nonneg_pos a b ha hbpos] at h
      rcases Dbl.round_nonneg_cases (a / b) (div_nonneg ha hb) with h1 | ⟨r, hr, h1⟩
      · rw [h1] at h
        cases h
      · rw [h1] at h
        cases h
        exact hr
    · subst hb0
      simp only [Dbl.div64, Dbl.isNaN, Dbl.isInf, Dbl.isZero, Dbl.inf, Dbl.signbit,
        Bool.or_self, Bool.false_eq_true, if_false, decide_True, if_true, lt_self_iff_false,
        decide_False, Bool.xor_false, not_lt.mpr ha] at h
      split_ifs at h

/-! ## The percentile scan -/

theorem accumulate_length (prev : Nat) (t : List Nat) :
    (accumulate prev t).length = t.length := by
  induction t generalizing prev with
  | nil => rfl
  | cons h t ih => simp [accumulate, ih]

theorem accumulated_length (hist : List Nat) : (accumulated hist).length = hist.length := by
  cases hist with
  | nil => rfl
  | cons h t => simp [accumulated, accumulate_length]

theorem accumulate_getD (prev : Nat) (t : List Nat) (j : Nat) (hj : j < t.length) :
    (accumulate prev t).getD j 0 = (prev + (t.take (j + 1)).sum) % 2 ^ 32 := by
  induction t generalizing prev j with
  | nil => simp at hj
  | cons h t ih =>
    cases j with
    | zero => simp [accumulate]
    | succ j =>
      have hj2 : j < t.length := by simpa using hj
      simp only [accumulate, List.getD_cons_succ, List.take_succ_cons, List.sum_cons]
      rw [ih _ j hj2, Nat.mod_add_mod, Nat.add_assoc]

theorem cum_le_sum (hist : List Nat) (j : Nat) : cum hist j ≤ hist.sum := by
  unfold cum
  conv_rhs => rw [← List.take_append_drop (j + 1) hist]
  rw [List.sum_append]
  exact Nat.le_add_right _ _

/-- Without wrap-around the array `accumulated` holds the cumulative counts. -/
theorem accumulated_getD (hist : List Nat) (j : Nat) (hj : j < hist.length)
    (hsum : hist.sum < 2 ^ 32) : (accumulated hist).getD j 0 = cum hist j := by
  cases hist with
  | nil => simp at hj
  | cons h t =>
    have hc := cum_le_sum (h :: t) j
    cases j with
    | zero => simp [accumulated, cum]
    | succ j =>
      have hj2 : j < t.length := by simpa using hj
      simp only [accumulated, List.getD_cons_succ]
      rw [accumulate_getD h t j hj2]
      simp only [List.sum_cons] at hsum
      simp only [cum, List.take_succ_cons, List.sum_cons] at hc ⊢
      exact Nat.mod_eq_of_lt (by omega)

theorem cum_last (hist : List Nat) : cum hist (hist.length - 1) = hist.sum := by
  unfold cum
  rw [List.take_of_length_le (by omega)]

theorem percentile_scan_eq (threshold : Dbl) (num : Nat) (l : List Nat) (k i : Nat)
    (hi : i < l.length)
    (hlow : ∀ j, j < i →
      Dbl.ge (Dbl.div64 (Dbl.ofInt ((l.getD j 0 : Nat) : Int)) (Dbl.ofInt (num : Int))) threshold
        = false)
    (hhit : Dbl.ge (Dbl.div64 (Dbl.ofInt ((l.getD i 0 : Nat) : Int)) (Dbl.ofInt (num : Int)))
      threshold = true) :
    percentile_scan threshold num l k = k + i := by
  induction l generalizing k i with
  | nil => simp at hi
  | cons a rest ih =>
    cases i with
    | zero =>
      simp only [List.getD_cons_zero] at hhit
      simp [percentile_scan, hhit]
    | succ i =>
      have h0 := hlow 0 (Nat.succ_pos i)
      simp only [List.getD_cons_zero] at h0
      simp only [percentile_scan, h0, Bool.false_eq_true, if_false]
      rw [ih (k + 1) i (by simpa using hi)
        (fun j hj => by simpa using hlow (j + 1) (Nat.succ_lt_succ hj))
        (by simpa using hhit)]
      omega

theorem percentile_scan_none (threshold : Dbl) (num : Nat) (l : List Nat) (k : Nat)
    (hlow : ∀ j, j < l.length →
      Dbl.ge (Dbl.div64 (Dbl.ofInt ((l.getD j 0 : Nat) : Int)) (Dbl.ofInt (num : Int))) threshold
        = false) :
    percentile_scan threshold num l k = k + l.length := by
  induction l generalizing k with
  | nil => rfl
  | cons a rest ih =>
    have h0 := hlow 0 (by simp)
    simp only [List.getD_cons_zero] at h0
    simp only [percentile_scan, h0, Bool.false_eq_true, if_false]
    rw [ih (k + 1) (fun j hj => by simpa using hlow (j + 1) (by simpa using hj))]
    simp only [List.length_cons]
    omega

theorem percentile_scan_le (threshold : Dbl) (num : Nat) (l : List Nat) (k : Nat) :
    percentile_scan threshold num l k ≤ k + l.length := by
  induction l generalizing k with
  | nil => simp [percentile_scan]
  | cons a rest ih =>
    simp only [percentile_scan, List.length_cons]
    split_ifs
    · omega
    · have := ih (k + 1)
      omega

theorem ratio_fin (a num : Nat) (hnum : 0 < num) :
    Dbl.div (Dbl.ofInt (a : Int)) (Dbl.ofInt (num : Int)) = Dbl.fin ((a : ℚ) / (num : ℚ)) := by
  unfold Dbl.ofInt
  rw [Dbl.div_fin_pos_right _ _ (by exact_mod_cast hnum)]
  simp

theorem exists_percentile_index (hist : List Nat) (p : ℚ) (hpos : 0 < hist.sum)
    (hp : p ≤ 100) : ∃ i, is_percentile_index hist p i := by
  classical
  have hne : hist ≠ [] := by
    rintro rfl
    simp at hpos
  have hlen : 0 < hist.length := List.length_pos.mpr hne
  have hex : ∃ j, j < hist.length ∧ p / 100 ≤ (cum hist j : ℚ) / (hist.sum : ℚ) := by
    refine ⟨hist.length - 1, by omega, ?_⟩
    rw [cum_last, div_self (by exact_mod_cast hpos.ne')]
    linarith
  refine ⟨Nat.find hex, (Nat.find_spec hex).1, (Nat.find_spec hex).2, ?_⟩
  intro j hj
  have hmin := Nat.find_min hex hj
  have hjlen : j < hist.length := lt_trans hj (Nat.find_spec hex).1
  by_contra hcon
  exact hmin ⟨hjlen, not_lt.mp hcon⟩

/-- The test of the percentile scan at bucket `j`, for a total that is not 0
and a percentile in `[0, 100]`: a comparison of two rounded quotients. -/
theorem ge_ratio_threshold (hist : List Nat) (p : ℚ) (j : Nat) (hpos : 0 < hist.sum)
    (hp0 : 0 ≤ p) (hp : p ≤ 100) :
    Dbl.ge (Dbl.div64 (Dbl.ofInt ((cum hist j : Nat) : Int)) (Dbl.ofInt ((hist.sum : Nat) : Int)))
        (Dbl.div64 (Dbl.fin p) (Dbl.fin 100))
      = decide (Dbl.rnd (p / 100) ≤ Dbl.rnd ((cum hist j : ℚ) / (hist.sum : ℚ))) := by
  rw [Dbl.ratio64 _ _ hpos (cum_le_sum hist j), (Dbl.threshold64 p hp0 hp).1, Dbl.ge_fin_fin]

theorem exists_double_percentile_index (hist : List Nat) (p : ℚ) (hpos : 0 < hist.sum)
    (hp0 : 0 ≤ p) (hp : p ≤ 100) : ∃ i, is_double_percentile_index hist p i := by
  classical
  have hne : hist ≠ [] := by
    rintro rfl
    simp at hpos
  have hlen : 0 < hist.length := List.length_pos.mpr hne
  have hex : ∃ j, j < hist.length ∧
      Dbl.rnd (p / 100) ≤ Dbl.rnd ((cum hist j : ℚ) / (hist.sum : ℚ)) := by
    refine ⟨hist.length - 1, by omega, ?_⟩
    rw [cum_last, div_self (by exact_mod_cast hpos.ne'), Dbl.rnd_one]
    exact (Dbl.threshold64 p hp0 hp).2
  refine ⟨Nat.find hex, (Nat.find_spec hex).1, (Nat.find_spec hex).2, ?_⟩
  intro j hj
  have hmin := Nat.find_min hex hj
  have hjlen : j < hist.length := lt_trans hj (Nat.find_spec hex).1
  by_contra hcon
  exact hmin ⟨hjlen, not_lt.mp hcon⟩

theorem percentile_scan_of_index (hist : List Nat) (p : ℚ) (i : Nat)
    (hpos : 0 < hist.sum) (hsum : hist.sum < 2 ^ 32) (hp0 : 0 ≤ p) (hp : p ≤ 100)
    (hi : is_double_percentile_index hist p i) :
    percentile_scan (Dbl.div64 (Dbl.fin p) (Dbl.fin 100)) hist.sum (accumulated hist) 0 = i := by
  obtain ⟨hlt, hhit, hlow⟩ := hi
  rw [percentile_scan_eq _ _ _ 0 i (by rw [accumulated_length]; exact hlt)]
  · omega
  · intro j hj
    rw [accumulated_getD hist j (lt_trans hj hlt) hsum, ge_ratio_threshold hist p j hpos hp0 hp]
    exact decide_eq_false (not_le.mpr (hlow j hj))
  · rw [accumulated_getD hist i hlt hsum, ge_ratio_threshold hist p i hpos hp0 hp]
    exact decide_eq_true hhit

theorem accumulated_num (hist : List Nat) (hpos : 0 < hist.sum) (hsum : hist.sum < 2 ^ 32) :
    (accumulated hist).getD (hist.length - 1) 0 = hist.sum := by
  have hne : hist ≠ [] := by
    rintro rfl
    simp at hpos
  have hlen : 0 < hist.length := List.length_pos.mpr hne
  rw [accumulated_getD hist _ (by omega) hsum, cum_last]

theorem context_get_percentile_of_index (ctx : ping_context_t) (hist : List Nat)
    (interval p : ℚ) (i : Nat)
    (hh : ctx.latency_histogram = some hist)
    (hlen : hist.length = ctx.latency_histogram_size)
    (hpos : 0 < hist.sum) (hsum : hist.sum < 2 ^ 32) (hp0 : 0 ≤ p) (hp : p ≤ 100)
    (hi : is_double_percentile_index hist p i) :
    context_get_percentile (Dbl.fin interval) ctx (Dbl.fin p) =
      if i = ctx.latency_histogram_size - 1 then Dbl.pinf
      else Dbl.mul64
        (Dbl.div64 (Dbl.mul64 (Dbl.fin 1000) (Dbl.fin interval))
          (Dbl.ofInt ((ctx.latency_histogram_size - 1 : Nat) : Int)))
        (Dbl.ofInt ((i + 1 : Nat) : Int)) := by
  have hilt : i < ctx.latency_histogram_size := hlen ▸ hi.1
  unfold context_get_percentile
  simp only [hh]
  rw [← hlen, accumulated_num hist hpos hsum,
    percentile_scan_of_index hist p i hpos hsum hp0 hp hi]
  rw [if_neg (by omega)]

/-- The scan never stops later than the exact rule asks: rounding is monotone, so
a bucket whose exact ratio reaches `p / 100` also passes the test in binary64. -/
theorem double_index_le_exact (hist : List Nat) (p : ℚ) (i j : Nat)
    (hp0 : 0 < p) (hi : is_double_percentile_index hist p i)
    (hj : is_percentile_index hist p j) : i ≤ j := by
  by_contra hcon
  have hlt : j < i := by omega
  have h1 := hi.2.2 j hlt
  have hq : (0 : ℚ) < p / 100 := by positivity
  have h2 := Dbl.rnd_mono _ _ hq hj.2.1
  linarith

theorem cum_succ (hist : List Nat) (j : Nat) :
    cum hist (j + 1) = cum hist j + hist.getD (j + 1) 0 := by
  unfold cum
  by_cases hj : j + 1 < hist.length
  · rw [List.sum_take_succ hist (j + 1) hj]
    simp [List.getD_eq_getElem?_getD, List.getElem?_eq_getElem hj]
  · have h1 : hist.length ≤ j + 1 := by omega
    rw [List.take_of_length_le (by omega), List.take_of_length_le h1]
    simp [List.getD_eq_getElem?_getD, List.getElem?_eq_none h1]

theorem cum_mono (hist : List Nat) (j k : Nat) (h : j ≤ k) : cum hist j ≤ cum hist k := by
  induction k, h using Nat.le_induction with
  | base => exact le_refl _
  | succ k _ ih =>
    rw [cum_succ]
    omega

/-! ## C2: the percentile is the upper bound of the first bucket reaching `p` -/

/-- C2 (amended): for a histogram whose total count is positive and below
`2^32`, and `p` in `(0, 100]`: there is a smallest bucket index `i` whose
cumulative count over the total, the quotient rounded to binary64, is at least
`p / 100` rounded to binary64; `context_get_percentile` returns `+Infinity` when
`i = N - 1` and, when `i < N - 1`, the binary64 value of
`((1000.0 * interval) / (N - 1)) * (i + 1)`, the upper bound of bucket `i`; and
`i` is never beyond the smallest index whose exact ratio reaches `p / 100`. -/
theorem context_get_percentile_eq (ctx : ping_context_t) (hist : List Nat) (interval p : ℚ)
    (hh : ctx.latency_histogram = some hist)
    (hlen : hist.length = ctx.latency_histogram_size)
    (hpos : 0 < hist.sum) (hsum : hist.sum < 2 ^ 32) (hp0 : 0 < p) (hp : p ≤ 100) :
    (∃ i, is_double_percentile_index hist p i) ∧
    (∀ i, is_double_percentile_index hist p i →
      context_get_percentile (Dbl.fin interval) ctx (Dbl.fin p) =
        if i = ctx.latency_histogram_size - 1 then Dbl.pinf
        else Dbl.mul64
          (Dbl.div64 (Dbl.mul64 (Dbl.fin 1000) (Dbl.fin interval))
            (Dbl.ofInt ((ctx.latency_histogram_size - 1 : Nat) : Int)))
          (Dbl.ofInt ((i + 1 : Nat) : Int))) ∧
    (∀ i j, is_double_percentile_index hist p i → is_percentile_index hist p j → i ≤ j) :=
  ⟨exists_double_percentile_index hist p hpos hp0.le hp,
    fun i hi =>
      context_get_percentile_of_index ctx hist interval p i hh hlen hpos hsum hp0.le hp hi,
    fun i j hi hj => double_index_le_exact hist p i j hp0 hi hj⟩

theorem context_get_percentile_eq_witness :
    (∃ i, is_double_percentile_index sample_histogram 50 i) ∧
    (∀ i, is_double_percentile_index sample_histogram 50 i →
      context_get_percentile (Dbl.fin 1) (context_with_histogram sample_histogram) (Dbl.fin 50) =
        if i = (context_with_histogram sample_histogram).latency_histogram_size - 1 then Dbl.pinf
        else Dbl.mul64
          (Dbl.div64 (Dbl.mul64 (Dbl.fin 1000) (Dbl.fin 1))
            (Dbl.ofInt (((context_with_histogram sample_histogram).latency_histogram_size - 1
              : Nat) : Int)))
          (Dbl.ofInt ((i + 1 : Nat) : Int))) ∧
    (∀ i j, is_double_percentile_index sample_histogram 50 i →
      is_percentile_index sample_histogram 50 j → i ≤ j) :=
  context_get_percentile_eq (context_with_histogram sample_histogram) sample_histogram 1 50
    rfl rfl (by decide!) (by decide!) (by norm_num) (by norm_num)

theorem wrapping_histogram_cum (j : Nat) (hj : j < 1000) : cum wrapping_histogram j = 1 := by
  unfold cum wrapping_histogram
  rw [List.take_succ_cons, List.take_append_of_le_length (by rw [List.length_replicate]; omega), List.take_replicate]
  simp

theorem wrapping_histogram_sum : wrapping_histogram.sum = 4294967296 := by decide!

theorem wrapping_histogram_index : is_percentile_index wrapping_histogram 50 1000 := by
  have hlen : wrapping_histogram.length = 1001 := by decide!
  refine ⟨by omega, ?_, ?_⟩
  · have h := cum_last wrapping_histogram
    rw [hlen] at h
    rw [h, wrapping_histogram_sum]
    norm_num
  · intro j hj
    rw [wrapping_histogram_cum j hj, wrapping_histogram_sum]
    norm_num

theorem run_14_histogram_index :
    is_percentile_index run_14_histogram (3267120265391543 / 35184372088832) 20 := by
  have hlen : run_14_histogram.length = 1001 := by decide!
  have hsum : run_14_histogram.sum = 14 := by decide!
  have h20 : cum run_14_histogram 20 = 14 := by decide!
  have h19 : cum run_14_histogram 19 = 13 := by decide!
  refine ⟨by omega, ?_, ?_⟩
  · rw [h20, hsum]
    norm_num
  · intro j hj
    have hle : cum run_14_histogram j ≤ 13 := by
      rw [← h19]
      exact cum_mono _ _ _ (by omega)
    have hq : (cum run_14_histogram j : ℚ) ≤ 13 := by exact_mod_cast hle
    rw [hsum, div_lt_iff₀ (by norm_num)]
    push_cast
    linarith

/-- C2 as stated fails in two ways.  The comparison is made on doubles: with
`-c 14` the default percentile is the double `100.0 * 13 / 14`, a little above
`1300 / 14`; with 13 of 14 replies in bucket 10 and one in bucket 20 (interval
1 s) the exact ratio `13/14` is below `p / 100`, so the smallest index reaching
`p / 100` is 20 and the claim asks for 21 ms; the two quotients round to the
same double and the function returns 11 ms.  And the counts wrap: with one
reply in bucket 0 and `2^32 - 1` replies in the overflow bucket, `p = 50`, the
smallest index reaching half of the total is 1000, so the claim asks for
`+Infinity`; the `uint32_t` total wraps to 0, the first ratio is `1/0` and the
function returns 1 ms. -/
theorem context_get_percentile_not_exact :
    (default_percentile_14 = Dbl.fin (3267120265391543 / 35184372088832) ∧
      run_14_histogram.length = 1001 ∧ run_14_histogram.sum = 14 ∧
      is_percentile_index run_14_histogram (3267120265391543 / 35184372088832) 20 ∧
      context_get_percentile (Dbl.fin 1) (context_with_histogram run_14_histogram)
        (Dbl.fin (3267120265391543 / 35184372088832)) = Dbl.fin 11) ∧
    (wrapping_histogram.length = 1001 ∧ 0 < wrapping_histogram.sum ∧
      is_percentile_index wrapping_histogram 50 1000 ∧
      context_get_percentile (Dbl.fin 1) (context_with_histogram wrapping_histogram)
        (Dbl.fin 50) = Dbl.fin 1) :=
  ⟨⟨by decide!, by decide!, by decide!, run_14_histogram_index, by decide!⟩,
    ⟨by decide!, by decide!, wrapping_histogram_index, by decide!⟩⟩

/-! ## C3: scenario A -/

/-- C3 as stated fails: in scenario A (interval 1 s, latencies 10, 20, ..., 100 ms)
the ten replies are counted, five of them lie in buckets `0 .. 50`, and
`context_get_percentile (ctx, 50)` does not return 60 ms. -/
theorem scenario_A_percentile_ne_60 :
    scenario_A_context.req_rcvd = 10 ∧
    (∃ hist, scenario_A_context.latency_histogram = some hist ∧ cum hist 50 = 5) ∧
    context_get_percentile (Dbl.fin 1) scenario_A_context (Dbl.fin 50) ≠ Dbl.fin 60 := by
  refine ⟨by decide!, ⟨_, rfl, by decide!⟩, by decide!⟩

/-- C3 (amended): in scenario A, on a context whose histogram was allocated,
`context_get_percentile (ctx, 50)` returns 51 ms,
the upper bound of bucket 50, the bucket of the fifth reply (50 ms), where the
cumulative ratio reaches 5/10. -/
theorem scenario_A_percentile :
    context_get_percentile (Dbl.fin 1) scenario_A_context (Dbl.fin 50) = Dbl.fin 51 := by
  decide!

/-! ## C5: NaN exactly for the empty histogram -/

theorem percentile_scan_lt (threshold : Dbl) (num : Nat) (l : List Nat) (k j : Nat)
    (hj : j < l.length)
    (hhit : Dbl.ge (Dbl.div64 (Dbl.ofInt ((l.getD j 0 : Nat) : Int)) (Dbl.ofInt (num : Int)))
      threshold = true) :
    percentile_scan threshold num l k < k + l.length := by
  induction l generalizing k j with
  | nil => simp at hj
  | cons a rest ih =>
    simp only [percentile_scan, List.length_cons]
    split_ifs with h
    · omega
    · cases j with
      | zero => simp only [List.getD_cons_zero] at hhit; exact absurd hhit h
      | succ j =>
        have := ih (k + 1) j (by simpa using hj) (by simpa using hhit)
        omega

theorem accumulated_getD_mod (hist : List Nat) (j : Nat) (hj : j < hist.length)
    (hu32 : ∀ b ∈ hist, b < 2 ^ 32) : (accumulated hist).getD j 0 = cum hist j % 2 ^ 32 := by
  cases hist with
  | nil => simp at hj
  | cons h t =>
    have hh : h < 2 ^ 32 := hu32 h (by simp)
    cases j with
    | zero =>
      simp only [accumulated, cum, List.getD_cons_zero, List.take_succ_cons, List.take_zero,
        List.sum_cons, List.sum_nil, Nat.add_zero]
      exact (Nat.mod_eq_of_lt hh).symm
    | succ j =>
      have hj2 : j < t.length := by simpa using hj
      simp only [accumulated, List.getD_cons_succ]
      rw [accumulate_getD h t j hj2]
      simp only [cum, List.take_succ_cons, List.sum_cons]

theorem cum_zero (hist : List Nat) : cum hist 0 = hist.getD 0 0 := by
  cases hist <;> simp [cum]

theorem getD_lt_u32 (hist : List Nat) (j : Nat) (hu32 : ∀ b ∈ hist, b < 2 ^ 32) :
    hist.getD j 0 < 2 ^ 32 := by
  by_cases hj : j < hist.length
  · rw [List.getD_eq_getElem?_getD, List.getElem?_eq_getElem hj]
    exact hu32 _ (List.getElem_mem hj)
  · rw [List.getD_eq_getElem?_getD, List.getElem?_eq_none (by omega)]
    simp

/-- Some entry of `accumulated` is not zero when some bucket is not. -/
theorem exists_accumulated_ne_zero (hist : List Nat) (hpos : 0 < hist.sum)
    (hu32 : ∀ b ∈ hist, b < 2 ^ 32) :
    ∃ j, j < hist.length ∧ (accumulated hist).getD j 0 ≠ 0 := by
  classical
  have hne : hist ≠ [] := by
    rintro rfl
    simp at hpos
  have hlen : 0 < hist.length := List.length_pos.mpr hne
  have hex : ∃ j, j < hist.length ∧ cum hist j ≠ 0 :=
    ⟨hist.length - 1, by omega, by rw [cum_last]; omega⟩
  have hspec := Nat.find_spec hex
  refine ⟨Nat.find hex, hspec.1, ?_⟩
  rw [accumulated_getD_mod hist _ hspec.1 hu32]
  have hsmall : cum hist (Nat.find hex) < 2 ^ 32 := by
    cases hf : Nat.find hex with
    | zero => rw [cum_zero]; exact getD_lt_u32 hist 0 hu32
    | succ m =>
      have hm : m < Nat.find hex := by omega
      have hmin := Nat.find_min hex hm
      have hz : cum hist m = 0 := by
        by_contra hcon
        exact hmin ⟨by omega, hcon⟩
      rw [cum_succ, hz, Nat.zero_add]
      exact getD_lt_u32 hist _ hu32
  rw [Nat.mod_eq_of_lt hsmall]
  exact hspec.2

theorem accumulate_zero (t : List Nat) (hz : ∀ b ∈ t, b = 0) :
    accumulate 0 t = List.replicate t.length 0 := by
  induction t with
  | nil => rfl
  | cons h t ih =>
    have hh : h = 0 := hz h (by simp)
    subst hh
    simp only [accumulate, Nat.add_zero, Nat.zero_mod, List.length_cons, List.replicate_succ]
    rw [ih (fun b hb => hz b (by simp [hb]))]

theorem accumulated_zero (hist : List Nat) (hz : ∀ b ∈ hist, b = 0) :
    accumulated hist = List.replicate hist.length 0 := by
  cases hist with
  | nil => rfl
  | cons h t =>
    have hh : h = 0 := hz h (by simp)
    subst hh
    simp only [accumulated, List.length_cons, List.replicate_succ]
    rw [accumulate_zero t (fun b hb => hz b (by simp [hb]))]

theorem percentile_scan_zero (threshold : Dbl) (n k : Nat) :
    percentile_scan threshold 0 (List.replicate n 0) k = k + n := by
  rw [percentile_scan_none]
  · simp
  · intro j hj
    have hj2 : j < n := by simpa using hj
    have : (List.replicate n 0).getD j 0 = 0 := by
      simp [List.getD_eq_getElem?_getD]
    rw [this]
    cases threshold <;> rfl

/-- An all-zero histogram gives NaN whatever the percentile and the interval. -/
theorem context_get_percentile_empty (opt_interval : Dbl) (ctx : ping_context_t)
    (hist : List Nat) (percentile : Dbl)
    (hh : ctx.latency_histogram = some hist)
    (hlen : hist.length = ctx.latency_histogram_size) (hsum : hist.sum = 0) :
    context_get_percentile opt_interval ctx percentile = Dbl.nan := by
  have hz : ∀ b ∈ hist, b = 0 := fun b hb => by
    have := List.single_le_sum (fun x _ => Nat.zero_le x) b hb
    omega
  unfold context_get_percentile
  simp only [hh]
  rw [accumulated_zero hist hz]
  have hnum : (List.replicate hist.length 0).getD (ctx.latency_histogram_size - 1) 0 = 0 := by
    simp only [List.getD_eq_getElem?_getD, List.getElem?_replicate]
    split_ifs <;> rfl
  rw [hnum, percentile_scan_zero, ← hlen]
  simp


/-- The product of a double that is not NaN with a finite double that is not
zero is not NaN. -/
theorem Dbl.mul64_ne_nan (x : Dbl) (b : ℚ) (hx : x ≠ Dbl.nan) (hb : b ≠ 0) :
    Dbl.mul64 x (Dbl.fin b) ≠ Dbl.nan := by
  unfold Dbl.mul64
  cases x with
  | nan => exact absurd rfl hx
  | pinf => simp [Dbl.isNaN, Dbl.isInf, Dbl.isZero, Dbl.inf, hb]; split_ifs <;> simp
  | ninf => simp [Dbl.isNaN, Dbl.isInf, Dbl.isZero, Dbl.inf, hb]; split_ifs <;> simp
  | nzero => simpa [Dbl.isNaN, Dbl.isInf] using Dbl.round_ne_nan _ _
  | fin a => simpa [Dbl.isNaN, Dbl.isInf] using Dbl.round_ne_nan _ _

/-- The quotient of a double that is not NaN by a finite double that is not
zero is not NaN. -/
theorem Dbl.div64_ne_nan (x : Dbl) (b : ℚ) (hx : x ≠ Dbl.nan) (hb : b ≠ 0) :
    Dbl.div64 x (Dbl.fin b) ≠ Dbl.nan := by
  unfold Dbl.div64
  cases x with
  | nan => exact absurd rfl hx
  | pinf => simp [Dbl.isNaN, Dbl.isInf, Dbl.inf]; split_ifs <;> simp
  | ninf => simp [Dbl.isNaN, Dbl.isInf, Dbl.inf]; split_ifs <;> simp
  | nzero => simpa [Dbl.isNaN, Dbl.isInf, Dbl.isZero, hb] using Dbl.round_ne_nan _ _
  | fin a => simpa [Dbl.isNaN, Dbl.isInf, Dbl.isZero, hb] using Dbl.round_ne_nan _ _

/-- The upper bound of a bucket is not NaN. -/
theorem index_to_ms_ne_nan (interval : ℚ) (n i : Nat) (hn : 1 < n) :
    Dbl.mul64 (Dbl.div64 (Dbl.mul64 (Dbl.fin 1000) (Dbl.fin interval))
      (Dbl.ofInt ((n - 1 : Nat) : Int))) (Dbl.ofInt ((i + 1 : Nat) : Int)) ≠ Dbl.nan := by
  have h1 : Dbl.mul64 (Dbl.fin 1000) (Dbl.fin interval) ≠ Dbl.nan := by
    simpa [Dbl.mul64, Dbl.isNaN, Dbl.isInf] using Dbl.round_ne_nan _ _
  have hn1 : (((n - 1 : Nat) : Int) : ℚ) ≠ 0 := by
    have : n - 1 ≠ 0 := by omega
    exact_mod_cast this
  have hi1 : (((i + 1 : Nat) : Int) : ℚ) ≠ 0 := by
    have : i + 1 ≠ 0 := by omega
    exact_mod_cast this
  unfold Dbl.ofInt
  exact Dbl.mul64_ne_nan _ _ (Dbl.div64_ne_nan _ _ h1 hn1) hi1

theorem ratio_zero_num (a : Nat) (ha : a ≠ 0) :
    Dbl.div64 (Dbl.ofInt (a : Int)) (Dbl.ofInt ((0 : Nat) : Int)) = Dbl.pinf := by
  have ha2 : ¬ ((a : ℚ) = 0) := by exact_mod_cast ha
  have ha3 : ¬ ((a : ℚ) < 0) := by
    have : (0 : ℚ) ≤ (a : ℚ) := Nat.cast_nonneg a
    linarith
  simp [Dbl.div64, Dbl.ofInt, Dbl.isNaN, Dbl.isInf, Dbl.isZero, Dbl.signbit, Dbl.inf, ha2, ha3]

theorem percentile_scan_found (hist : List Nat) (p : ℚ) (hpos : 0 < hist.sum)
    (hu32 : ∀ b ∈ hist, b < 2 ^ 32) (hp0 : 0 ≤ p) (hp : p ≤ 100) :
    percentile_scan (Dbl.div64 (Dbl.fin p) (Dbl.fin 100))
      ((accumulated hist).getD (hist.length - 1) 0) (accumulated hist) 0 < hist.length := by
  have hne : hist ≠ [] := by
    rintro rfl
    simp at hpos
  have hlen : 0 < hist.length := List.length_pos.mpr hne
  obtain ⟨hthr, hthr1⟩ := Dbl.threshold64 p hp0 hp
  rw [hthr]
  have key : ∃ j, j < (accumulated hist).length ∧
      Dbl.ge (Dbl.div64 (Dbl.ofInt (((accumulated hist).getD j 0 : Nat) : Int))
        (Dbl.ofInt (((accumulated hist).getD (hist.length - 1) 0 : Nat) : Int)))
        (Dbl.fin (Dbl.rnd (p / 100))) = true := by
    by_cases hnum : (accumulated hist).getD (hist.length - 1) 0 = 0
    · obtain ⟨j, hj, hne0⟩ := exists_accumulated_ne_zero hist hpos hu32
      refine ⟨j, by rw [accumulated_length]; exact hj, ?_⟩
      rw [hnum, ratio_zero_num _ hne0]
      rfl
    · refine ⟨hist.length - 1, by rw [accumulated_length]; omega, ?_⟩
      rw [Dbl.ratio64 _ _ (Nat.pos_of_ne_zero hnum) (le_refl _), Dbl.ge_fin_fin]
      have hq : ((((accumulated hist).getD (hist.length - 1) 0 : Nat) : ℚ)) ≠ 0 := by
        exact_mod_cast hnum
      rw [div_self hq, Dbl.rnd_one]
      exact decide_eq_true hthr1
  obtain ⟨j, hj, hhit⟩ := key
  have := percentile_scan_lt _ _ _ 0 j hj hhit
  rw [accumulated_length] at this
  omega

theorem context_get_percentile_ne_nan (ctx : ping_context_t) (hist : List Nat)
    (interval p : ℚ)
    (hh : ctx.latency_histogram = some hist)
    (hlen : hist.length = ctx.latency_histogram_size)
    (hpos : 0 < hist.sum) (hu32 : ∀ b ∈ hist, b < 2 ^ 32) (hp0 : 0 ≤ p) (hp : p ≤ 100) :
    context_get_percentile (Dbl.fin interval) ctx (Dbl.fin p) ≠ Dbl.nan := by
  have hscan := percentile_scan_found hist p hpos hu32 hp0 hp
  unfold context_get_percentile
  simp only [hh]
  rw [← hlen, if_neg (not_le.mpr hscan)]
  split_ifs with hlast
  · simp
  · exact index_to_ms_ne_nan interval hist.length _ (by omega)

/-- C5: for a histogram of `uint32_t` counters and `p` in `(0, 100]`,
`context_get_percentile` returns NaN if and only if the total count is 0; and a
context whose buckets add up to `req_rcvd = 0` gives NaN for every `p`, NaN and
the infinities included. -/
theorem context_get_percentile_nan_iff (ctx : ping_context_t) (hist : List Nat)
    (interval p : ℚ)
    (hh : ctx.latency_histogram = some hist)
    (hlen : hist.length = ctx.latency_histogram_size)
    (hu32 : ∀ b ∈ hist, b < 2 ^ 32) (hp0 : 0 < p) (hp : p ≤ 100) :
    (context_get_percentile (Dbl.fin interval) ctx (Dbl.fin p) = Dbl.nan ↔ hist.sum = 0) ∧
    ((hist.sum : Int) = ctx.req_rcvd → ctx.req_rcvd = 0 →
      ∀ percentile : Dbl,
        context_get_percentile (Dbl.fin interval) ctx percentile = Dbl.nan) := by
  refine ⟨⟨fun hnan => ?_, fun hz => context_get_percentile_empty _ ctx hist _ hh hlen hz⟩, ?_⟩
  · by_contra hne
    exact context_get_percentile_ne_nan ctx hist interval p hh hlen
      (Nat.pos_of_ne_zero hne) hu32 hp0.le hp hnan
  · intro hsum hr percentile
    refine context_get_percentile_empty _ ctx hist _ hh hlen ?_
    rw [hr] at hsum
    exact_mod_cast hsum

theorem context_get_percentile_nan_iff_witness :
    (context_get_percentile (Dbl.fin 1) (context_with_histogram sample_histogram) (Dbl.fin 95)
        = Dbl.nan ↔ sample_histogram.sum = 0) ∧
    ((sample_histogram.sum : Int) = (context_with_histogram sample_histogram).req_rcvd →
      (context_with_histogram sample_histogram).req_rcvd = 0 →
      ∀ percentile : Dbl,
        context_get_percentile (Dbl.fin 1) (context_with_histogram sample_histogram) percentile
          = Dbl.nan) :=
  context_get_percentile_nan_iff (context_with_histogram sample_histogram) sample_histogram
    1 95 rfl rfl (by decide!) (by norm_num) (by norm_num)

/-! ## Running sums -/

theorem Dbl.add_fin_fin (a b : ℚ) : Dbl.add (Dbl.fin a) (Dbl.fin b) = Dbl.fin (a + b) := rfl

theorem Dbl.sub_fin_fin (a b : ℚ) : Dbl.sub (Dbl.fin a) (Dbl.fin b) = Dbl.fin (a - b) := by
  simp only [Dbl.sub, Dbl.neg]
  split_ifs with hb
  · subst hb
    simp [Dbl.add, Dbl.val]
  · simp [Dbl.add, Dbl.val, sub_eq_add_neg]

theorem update_host_hook_received (opt_interval : Dbl) (ctx : ping_context_t) (q : ℚ)
    (hq : 0 < q) :
    update_host_hook opt_interval ctx (Dbl.fin q) =
      update_context opt_interval { ctx with req_sent := ctx.req_sent + 1 } (Dbl.fin q) := by
  unfold update_host_hook
  simp [Dbl.gt_fin_fin, hq]

theorem update_host_hook_lost (opt_interval : Dbl) (ctx : ping_context_t) (q : ℚ)
    (hq : ¬ 0 < q) :
    update_host_hook opt_interval ctx (Dbl.fin q) = { ctx with req_sent := ctx.req_sent + 1 } := by
  unfold update_host_hook
  simp [Dbl.gt_fin_fin, hq]

theorem run_samples_stats (opt_interval : Dbl) (qs : List ℚ) (ctx : ping_context_t) (T Q : ℚ)
    (hT : ctx.latency_total = Dbl.fin T) (hQ : ctx.latency_total_square = Dbl.fin Q) :
    (run_samples opt_interval ctx (qs.map Dbl.fin)).req_rcvd
        = ctx.req_rcvd + ((received qs).length : Int) ∧
    (run_samples opt_interval ctx (qs.map Dbl.fin)).latency_total
        = Dbl.fin (T + (received qs).sum) ∧
    (run_samples opt_interval ctx (qs.map Dbl.fin)).latency_total_square
        = Dbl.fin (Q + ((received qs).map (fun x => x * x)).sum) := by
  induction qs generalizing ctx T Q with
  | nil => simp [run_samples, received, hT, hQ]
  | cons q rest ih =>
    simp only [run_samples, List.map_cons, List.foldl_cons]
    by_cases hq : 0 < q
    · have hrec : received (q :: rest) = q :: received rest := by
        simp [received, hq]
      rw [update_host_hook_received opt_interval ctx q hq, hrec]
      have h := ih (update_context opt_interval { ctx with req_sent := ctx.req_sent + 1 }
        (Dbl.fin q)) (T + q) (Q + q * q)
        (by rw [update_context_latency_total]; simp only [hT]; rfl)
        (by rw [update_context_latency_total_square]; simp only [hQ]
            rw [Dbl.mul_fin_pos_left q q hq]; rfl)
      simp only [run_samples, update_context_req_rcvd] at h
      refine ⟨?_, ?_, ?_⟩
      · rw [h.1]; simp only [List.length_cons]; push_cast; ring
      · rw [h.2.1]; simp only [List.sum_cons]; congr 1; ring
      · rw [h.2.2]; simp only [List.map_cons, List.sum_cons]; congr 1; ring
    · have hrec : received (q :: rest) = received rest := by
        simp [received, hq]
      rw [update_host_hook_lost opt_interval ctx q hq, hrec]
      have h := ih { ctx with req_sent := ctx.req_sent + 1 } T Q hT hQ
      simpa [run_samples] using h


theorem received_pos (qs : List ℚ) : ∀ x ∈ received qs, 0 < x := by
  intro x hx
  simpa using (List.mem_filter.mp hx).2

theorem received_sum_nonneg (qs : List ℚ) : 0 ≤ (received qs).sum :=
  List.sum_nonneg (fun x hx => (received_pos qs x hx).le)

theorem run_latencies_stats (opt_interval : Dbl) (calloc_ok : Bool) (qs : List ℚ) :
    (run_samples opt_interval (context_init calloc_ok) (qs.map Dbl.fin)).req_rcvd
        = ((received qs).length : Int) ∧
    (run_samples opt_interval (context_init calloc_ok) (qs.map Dbl.fin)).latency_total
        = Dbl.fin ((received qs).sum) ∧
    (run_samples opt_interval (context_init calloc_ok) (qs.map Dbl.fin)).latency_total_square
        = Dbl.fin (((received qs).map (fun x => x * x)).sum) := by
  have h := run_samples_stats opt_interval qs (context_init calloc_ok) 0 0 rfl rfl
  simpa [context_init] using h

/-! ## C6: the average -/

theorem sum_sq_dev (xs : List ℚ) (m : ℚ) :
    (xs.map (fun x => (x - m) ^ 2)).sum
      = (xs.map (fun x => x * x)).sum - 2 * m * xs.sum + (xs.length : ℚ) * m ^ 2 := by
  induction xs with
  | nil => simp
  | cons x t ih =>
    simp only [List.map_cons, List.sum_cons, List.length_cons, ih]
    push_cast
    ring

theorem radicand_eq_sample_variance (xs : List ℚ) (hn : 2 ≤ xs.length) :
    ((xs.length : ℚ) * (xs.map (fun x => x * x)).sum - xs.sum * xs.sum)
        / ((xs.length : ℚ) * ((xs.length : ℚ) - 1))
      = sample_variance xs := by
  have hn0 : (xs.length : ℚ) ≠ 0 := by
    have : xs.length ≠ 0 := by omega
    exact_mod_cast this
  have hn1 : (xs.length : ℚ) - 1 ≠ 0 := by
    have : (2 : ℚ) ≤ (xs.length : ℚ) := by exact_mod_cast hn
    linarith
  unfold sample_variance mean
  rw [sum_sq_dev]
  field_simp
  ring

theorem sample_variance_nonneg (xs : List ℚ) (hn : 2 ≤ xs.length) : 0 ≤ sample_variance xs := by
  unfold sample_variance
  have h1 : (0 : ℚ) ≤ (xs.length : ℚ) - 1 := by
    have : (2 : ℚ) ≤ (xs.length : ℚ) := by exact_mod_cast hn
    linarith
  refine div_nonneg (List.sum_nonneg ?_) h1
  intro y hy
  obtain ⟨x, _, rfl⟩ := List.mem_map.mp hy
  positivity

theorem received_sum_pos (qs : List ℚ) (hn : 1 ≤ (received qs).length) :
    0 < (received qs).sum := by
  cases h : received qs with
  | nil => rw [h] at hn; simp at hn
  | cons x t =>
    have hx : 0 < x := received_pos qs x (by rw [h]; simp)
    have ht : 0 ≤ t.sum :=
      List.sum_nonneg (fun y hy => (received_pos qs y (by rw [h]; simp [hy])).le)
    simp only [List.sum_cons]
    linarith

/-- C7: over exact arithmetic, for the received latencies `x_1 .. x_n` of any
sample sequence applied to a fresh context: for `n >= 2` `context_get_stddev`
returns `sqrt ((n * sumsq - sum^2) / (n * (n - 1)))`, whose radicand equals the
sample variance `sum_i (x_i - mean)^2 / (n - 1)` and is not negative; it
returns 0 for `n = 1` and negative zero for `n = 0`. -/
theorem context_get_stddev_eq (sqrt : Dbl → Dbl) (opt_interval : Dbl) (calloc_ok : Bool)
    (qs : List ℚ) :
    (2 ≤ (received qs).length →
      context_get_stddev sqrt
          (some (run_samples opt_interval (context_init calloc_ok) (qs.map Dbl.fin)))
        = sqrt (Dbl.fin
            ((((received qs).length : ℚ) * ((received qs).map (fun x => x * x)).sum
                - (received qs).sum * (received qs).sum)
              / (((received qs).length : ℚ) * (((received qs).length : ℚ) - 1)))) ∧
      (((received qs).length : ℚ) * ((received qs).map (fun x => x * x)).sum
          - (received qs).sum * (received qs).sum)
        / (((received qs).length : ℚ) * (((received qs).length : ℚ) - 1))
        = sample_variance (received qs) ∧
      0 ≤ sample_variance (received qs)) ∧
    ((received qs).length = 1 →
      context_get_stddev sqrt
          (some (run_samples opt_interval (context_init calloc_ok) (qs.map Dbl.fin)))
        = Dbl.fin 0) ∧
    ((received qs).length = 0 →
      context_get_stddev sqrt
          (some (run_samples opt_interval (context_init calloc_ok) (qs.map Dbl.fin)))
        = Dbl.nzero) := by
  obtain ⟨hr, ht, hq⟩ := run_latencies_stats opt_interval calloc_ok qs
  refine ⟨?_, ?_, ?_⟩
  · intro hn
    refine ⟨?_, radicand_eq_sample_variance _ hn, sample_variance_nonneg _ hn⟩
    have hnot1 : ¬ (((received qs).length : Int) < 1) := by omega
    have hnot2 : ¬ (((received qs).length : Int) < 2) := by omega
    have hnq : (2 : ℚ) ≤ ((received qs).length : ℚ) := by exact_mod_cast hn
    have hS := received_sum_pos qs (by omega)
    simp only [context_get_stddev, hr, ht, hq, hnot1, hnot2, if_false, Dbl.ofInt,
      Int.cast_natCast]
    rw [Dbl.mul_fin_pos_left _ _ (by linarith), Dbl.mul_fin_pos_left _ _ hS,
      Dbl.sub_fin_fin, Dbl.sub_fin_fin, Dbl.mul_fin_pos_left _ _ (by linarith),
      Dbl.div_fin_pos_right _ _ (by nlinarith)]
  · intro hn
    simp [context_get_stddev, hr, hn]
  · intro hn
    simp [context_get_stddev, hr, hn]

/-! ## C8: packet loss -/

theorem getD_set_self (l : List Nat) (b v : Nat) (hb : b < l.length) :
    (l.set b v).getD b 0 = v := by
  simp [List.getD_eq_getElem?_getD, List.getElem?_set, hb]

theorem getD_set_ne (l : List Nat) (b j v : Nat) (hj : j ≠ b) :
    (l.set b v).getD j 0 = l.getD j 0 := by
  simp [List.getD_eq_getElem?_getD, List.getElem?_set, Ne.symm hj]

/-- The quotient that `update_context` converts, for a positive latency and a
positive interval: two rounded products and their rounded quotient. -/
theorem bucket_quotient_pos (latency interval : ℚ) (hl : 0 < latency) (hi : 0 < interval) :
    bucket_quotient (Dbl.fin interval) 1001 (Dbl.fin latency)
      = Dbl.div64 (Dbl.round false (latency * 1000)) (Dbl.round false (1000 * interval)) := by
  have hc : (((1001 - 1 : Nat) : Int) : ℚ) = 1000 := by norm_num
  unfold bucket_quotient
  simp only [Dbl.ofInt, hc]
  rw [Dbl.mul64_nonneg _ _ hl.le (by norm_num), Dbl.mul64_nonneg _ _ (by norm_num) hi.le]

/-- A finite quotient of `update_context` is not negative. -/
theorem bucket_quotient_nonneg (latency interval q : ℚ) (hl : 0 < latency) (hi : 0 < interval)
    (hq : bucket_quotient (Dbl.fin interval) 1001 (Dbl.fin latency) = Dbl.fin q) : 0 ≤ q := by
  rw [bucket_quotient_pos latency interval hl hi] at hq
  exact Dbl.div64_fin_nonneg _ _ q (Dbl.round_nonneg_cases _ (by positivity))
    (Dbl.round_nonneg_cases _ (by positivity)) hq

/-- The bucket of a reply whose quotient is a finite double below `2^64`. -/
theorem bucket_index_fin (latency interval q : ℚ) (hl : 0 < latency) (hi : 0 < interval)
    (hq : bucket_quotient (Dbl.fin interval) 1001 (Dbl.fin latency) = Dbl.fin q)
    (h64 : q < 2 ^ 64) :
    bucket_index (Dbl.fin interval) 1001 (Dbl.fin latency) = clamped_bucket q := by
  have h0 := bucket_quotient_nonneg latency interval q hl hi hq
  unfold bucket_index clamped_bucket
  have hr : -1 < q ∧ q < 2 ^ 64 := ⟨by linarith, h64⟩
  simp only [hq, Dbl.toSizeT, if_pos hr]
  generalize Int.toNat (Int.floor q) = n
  simp only [min_def]
  split_ifs <;> omega

theorem clamped_bucket_le (q : ℚ) : clamped_bucket q ≤ 1000 := by
  unfold clamped_bucket
  exact min_le_right _ _

/-- C10 (amended): for every latency > 0 and interval > 0 whose quotient
`(latency * (N - 1)) / (1000.0 * interval)`, each operation rounded to binary64,
is a finite double `q` below `2^64`: `q` is not negative, and `update_context`
on a context with an allocated histogram of `N = 1001` buckets changes exactly
one bucket, the one at index `min (floor q, N - 1)`: its counter is incremented
by 1 modulo `2^32`, that is by exactly 1 unless it holds `2^32 - 1`; every other
bucket is unchanged. -/
theorem update_context_bucket (ctx : ping_context_t) (hist : List Nat)
    (latency interval q : ℚ)
    (hh : ctx.latency_histogram = some hist)
    (hsize : ctx.latency_histogram_size = 1001) (hlen : hist.length = 1001)
    (hl : 0 < latency) (hi : 0 < interval)
    (hq : Dbl.div64 (Dbl.mul64 (Dbl.fin latency) (Dbl.fin 1000))
      (Dbl.mul64 (Dbl.fin 1000) (Dbl.fin interval)) = Dbl.fin q)
    (h64 : q < 2 ^ 64) :
    0 ≤ q ∧
    ∃ hist', (update_context (Dbl.fin interval) ctx (Dbl.fin latency)).latency_histogram
        = some hist' ∧
      hist'.length = 1001 ∧
      hist'.getD (clamped_bucket q) 0 = (hist.getD (clamped_bucket q) 0 + 1) % 2 ^ 32 ∧
      (hist.getD (clamped_bucket q) 0 + 1 < 2 ^ 32 →
        hist'.getD (clamped_bucket q) 0 = hist.getD (clamped_bucket q) 0 + 1) ∧
      ∀ j, j ≠ clamped_bucket q → hist'.getD j 0 = hist.getD j 0 := by
  have hq' : bucket_quotient (Dbl.fin interval) 1001 (Dbl.fin latency) = Dbl.fin q := hq
  have hb := clamped_bucket_le q
  have hupd := update_context_histogram (Dbl.fin interval) ctx (Dbl.fin latency) hist hh
  rw [hsize, bucket_index_fin latency interval q hl hi hq' h64] at hupd
  refine ⟨bucket_quotient_nonneg latency interval q hl hi hq', _, hupd, by simp [hlen], ?_, ?_, ?_⟩
  · exact getD_set_self _ _ _ (by omega)
  · intro hlt
    rw [getD_set_self _ _ _ (by omega), Nat.mod_eq_of_lt hlt]
  · intro j hj
    exact getD_set_ne _ _ _ _ hj

theorem update_context_bucket_witness :
    0 ≤ (25 / 2 : ℚ) ∧
    ∃ hist', (update_context (Dbl.fin 1) (context_with_histogram sample_histogram)
          (Dbl.fin (25 / 2))).latency_histogram = some hist' ∧
      hist'.length = 1001 ∧
      hist'.getD (clamped_bucket (25 / 2)) 0
        = (sample_histogram.getD (clamped_bucket (25 / 2)) 0 + 1) % 2 ^ 32 ∧
      (sample_histogram.getD (clamped_bucket (25 / 2)) 0 + 1 < 2 ^ 32 →
        hist'.getD (clamped_bucket (25 / 2)) 0
          = sample_histogram.getD (clamped_bucket (25 / 2)) 0 + 1) ∧
      ∀ j, j ≠ clamped_bucket (25 / 2) → hist'.getD j 0 = sample_histogram.getD j 0 :=
  update_context_bucket (context_with_histogram sample_histogram) sample_histogram (25 / 2) 1
    (25 / 2) rfl (by decide!) (by decide!) (by norm_num) (by norm_num) (by decide!)
    (by norm_num)

/-- C10 as stated fails in two ways.  The quotient is a double: with `-i 0.1`
(the double nearest to 0.1, a little above it) and a latency of 0.5 ms the exact
quotient is below 5, so the claimed bucket is 4; the product `1000.0 * 0.1`
rounds to 100, the quotient is 5.0 and `update_context` increments bucket 5.
And the counter wraps: with interval 1 s and latency 5 ms the bucket is 5; when
it holds `2^32 - 1` the `uint32_t` increment leaves 0 in it, not `2^32`. -/
theorem update_context_bucket_not_exact :
    (Dbl.lit (1 / 10) = Dbl.fin (3602879701896397 / 36028797018963968) ∧
      spec_bucket_index (1 / 2) (3602879701896397 / 36028797018963968) = 4 ∧
      Dbl.div64 (Dbl.mul64 (Dbl.fin (1 / 2)) (Dbl.fin 1000))
        (Dbl.mul64 (Dbl.fin 1000) (Dbl.lit (1 / 10))) = Dbl.fin 5 ∧
      (update_context (Dbl.lit (1 / 10)) (context_init true) (Dbl.fin (1 / 2))).latency_histogram
        = some ((List.replicate 1001 0).set 5 1)) ∧
    (spec_bucket_index 5 1 = 5 ∧
      saturated_histogram.length = 1001 ∧
      saturated_histogram.getD 5 0 = 4294967295 ∧
      (update_context (Dbl.fin 1) (context_with_histogram saturated_histogram)
          (Dbl.fin 5)).latency_histogram
        = some (List.replicate 1001 0)) := by
  refine ⟨⟨by decide!, by decide!, by decide!, by decide!⟩,
    ⟨by decide!, by decide!, by decide!, by decide!⟩⟩

/-! ## C4: the overflow bucket -/

theorem update_host_hook_step (opt_interval : Dbl) (ctx : ping_context_t) (s : Dbl)
    (hist : List Nat) (hinv : ctx_inv ctx) (hsent : ctx.req_sent < 2 ^ 31)
    (hh : ctx.latency_histogram = some hist) :
    ∃ hist', (update_host_hook opt_interval ctx s).latency_histogram = some hist' ∧
      (∀ j, hist.getD j 0 ≤ hist'.getD j 0) ∧
      (Dbl.gt s (Dbl.fin 0) = true →
        hist'.getD (bucket_index opt_interval ctx.latency_histogram_size s) 0
          = hist.getD (bucket_index opt_interval ctx.latency_histogram_size s) 0 + 1) := by
  obtain ⟨hist0, hh0, hlen, hsize, hsum, hle⟩ := hinv
  have he : hist0 = hist := by
    rw [hh0] at hh
    exact Option.some.inj hh
  subst he
  unfold update_host_hook
  simp only
  split_ifs with hgt
  · have hb : bucket_index opt_interval ctx.latency_histogram_size s < hist0.length := by
      rw [hlen]
      exact bucket_index_lt _ _ _ (by rw [hsize]; decide)
    have hget := getD_le_sum hist0 (bucket_index opt_interval ctx.latency_histogram_size s)
    have hlt : hist0.getD (bucket_index opt_interval ctx.latency_histogram_size s) 0 + 1
        < 2 ^ 32 := by
      have : (hist0.sum : Int) < 2 ^ 31 := by omega
      have h2 : hist0.sum < 2 ^ 31 := by exact_mod_cast this
      omega
    have hupd := update_context_histogram opt_interval
      { ctx with req_sent := ctx.req_sent + 1 } s hist0 hh0
    simp only [Nat.mod_eq_of_lt hlt] at hupd
    refine ⟨_, hupd, ?_, fun _ => getD_set_self _ _ _ hb⟩
    intro j
    by_cases hj : j = bucket_index opt_interval ctx.latency_histogram_size s
    · subst hj
      rw [getD_set_self _ _ _ hb]
      omega
    · rw [getD_set_ne _ _ _ _ hj]
  · exact ⟨hist0, hh0, fun j => le_refl _, fun h => absurd h hgt⟩

theorem run_samples_mono (opt_interval : Dbl) (samples : List Dbl) (ctx : ping_context_t)
    (hist : List Nat) (hinv : ctx_inv ctx)
    (hsent : ctx.req_sent + samples.length < 2 ^ 31 + 1)
    (hh : ctx.latency_histogram = some hist) :
    ∃ hist', (run_samples opt_interval ctx samples).latency_histogram = some hist' ∧
      ∀ j, hist.getD j 0 ≤ hist'.getD j 0 := by
  induction samples generalizing ctx hist with
  | nil => exact ⟨hist, hh, fun j => le_refl _⟩
  | cons s rest ih =>
    simp only [List.length_cons] at hsent
    push_cast at hsent
    have hs : ctx.req_sent < 2 ^ 31 := by omega
    obtain ⟨h1, hh1, hmono1, _⟩ := update_host_hook_step opt_interval ctx s hist hinv hs hh
    have hinv1 := update_host_hook_inv opt_interval ctx s hinv hs
    obtain ⟨h2, hh2, hmono2⟩ := ih (update_host_hook opt_interval ctx s) h1 hinv1
      (by rw [update_host_hook_req_sent]; omega) hh1
    exact ⟨h2, hh2, fun j => le_trans (hmono1 j) (hmono2 j)⟩

theorem run_samples_append (opt_interval : Dbl) (ctx : ping_context_t) (xs ys : List Dbl) :
    run_samples opt_interval ctx (xs ++ ys)
      = run_samples opt_interval (run_samples opt_interval ctx xs) ys := by
  simp [run_samples, List.foldl_append]

theorem spec_bucket_index_overflow (latency interval : ℚ) (hi : 0 < interval)
    (hge : 1000 * interval ≤ latency) : spec_bucket_index latency interval = 1000 := by
  unfold spec_bucket_index
  have h1 : (1000 : ℚ) ≤ latency * (1001 - 1) / (1000 * interval) := by
    rw [le_div_iff₀ (by positivity)]
    nlinarith
  have h2 : (1000 : Int) ≤ Int.floor (latency * (1001 - 1) / (1000 * interval)) :=
    Int.le_floor.mpr (by exact_mod_cast h1)
  have h3 : 1000 ≤ Int.toNat (Int.floor (latency * (1001 - 1) / (1000 * interval))) := by
    omega
  simp only [min_def]
  split_ifs <;> omega

/-- A histogram whose last bucket is not empty, with a total below `2^32`, has
its 100th percentile in the last bucket: every earlier ratio is at most
`1 - 2^-32` and stays below 1 when rounded. -/
theorem percentile_index_last (hist : List Nat) (hlen : 0 < hist.length)
    (hlast : 0 < hist.getD (hist.length - 1) 0) (hsum : hist.sum < 2 ^ 32) :
    is_double_percentile_index hist 100 (hist.length - 1) := by
  have hpos : 0 < hist.sum := lt_of_lt_of_le hlast (getD_le_sum hist _)
  have hq : (0 : ℚ) < (hist.sum : ℚ) := by exact_mod_cast hpos
  have h100 : Dbl.rnd ((100 : ℚ) / 100) = 1 := by
    rw [div_self (by norm_num), Dbl.rnd_one]
  refine ⟨by omega, ?_, ?_⟩
  · rw [cum_last, div_self hq.ne', h100, Dbl.rnd_one]
  · intro j hj
    rw [h100]
    have hlt : cum hist j < hist.sum := by
      have h1 : cum hist (hist.length - 1) = cum hist (hist.length - 2) +
          hist.getD (hist.length - 1) 0 := by
        have : hist.length - 1 = (hist.length - 2) + 1 := by omega
        rw [this, cum_succ]
      have h2 : cum hist j ≤ cum hist (hist.length - 2) := cum_mono hist _ _ (by omega)
      rw [cum_last] at h1
      omega
    have hc0 : (0 : ℚ) ≤ (cum hist j : ℚ) / (hist.sum : ℚ) :=
      div_nonneg (Nat.cast_nonneg _) hq.le
    rcases hc0.lt_or_eq with hcpos | hczero
    · have hnat : cum hist j * 4294967296 ≤ 4294967295 * hist.sum := by
        have : hist.sum ≤ 4294967296 := by
          have h232 : (2 : Nat) ^ 32 = 4294967296 := by norm_num
          omega
        omega
      have hle : (cum hist j : ℚ) / (hist.sum : ℚ) ≤ ((4294967295 : Nat) : ℚ) / 2 ^ 32 := by
        rw [div_le_div_iff₀ hq (by positivity)]
        have : ((cum hist j * 4294967296 : Nat) : ℚ) ≤ ((4294967295 * hist.sum : Nat) : ℚ) := by
          exact_mod_cast hnat
        push_cast at this
        norm_num
        linarith
      have := Dbl.rnd_le_dyadic _ 4294967295 32 hcpos (by norm_num) (by norm_num) hle
      have h1 : ((4294967295 : Nat) : ℚ) / 2 ^ 32 < 1 := by norm_num
      linarith
    · rw [← hczero]
      have hz : Dbl.rnd 0 = 0 := by simp [Dbl.rnd, Dbl.rne]
      rw [hz]
      norm_num

/-- A quotient at or above 1000 goes to the overflow bucket. -/
theorem clamped_bucket_overflow (q : ℚ) (hge : 1000 ≤ q) : clamped_bucket q = 1000 := by
  unfold clamped_bucket
  have h2 : (1000 : Int) ≤ Int.floor q := Int.le_floor.mpr (by exact_mod_cast hge)
  have h3 : 1000 ≤ Int.toNat (Int.floor q) := by omega
  simp only [min_def]
  split_ifs <;> omega

theorem run_samples_overflow_percentile (interval latency q : ℚ) (samples : List Dbl)
    (hi : 0 < interval) (hl : 0 < latency) (hx : Dbl.fin latency ∈ samples)
    (hq : bucket_quotient (Dbl.fin interval) 1001 (Dbl.fin latency) = Dbl.fin q)
    (hge : 1000 ≤ q) (h64 : q < 2 ^ 64)
    (hlen : samples.length < 2 ^ 31) :
    context_get_percentile (Dbl.fin interval)
      (run_samples (Dbl.fin interval) (context_init true) samples) (Dbl.fin 100) = Dbl.pinf := by
  obtain ⟨pre, post, rfl⟩ := List.append_of_mem hx
  simp only [List.length_append, List.length_cons] at hlen
  have hsent0 : (context_init true).req_sent = 0 := rfl
  -- the context before the overflowing sample
  obtain ⟨hinv1, hsent1⟩ := run_samples_inv (Dbl.fin interval) pre (context_init true)
    context_init_inv (by rw [hsent0]; have : (pre.length : Int) < 2 ^ 31 := by omega
                         omega)
  rw [hsent0, Int.zero_add] at hsent1
  obtain ⟨hist1, hh1, hlen1, hsize1, hsum1, hle1⟩ := hinv1
  have hinv1 : ctx_inv (run_samples (Dbl.fin interval) (context_init true) pre) :=
    ⟨hist1, hh1, hlen1, hsize1, hsum1, hle1⟩
  have hs1 : (run_samples (Dbl.fin interval) (context_init true) pre).req_sent < 2 ^ 31 := by
    rw [hsent1]; omega
  -- the overflowing sample
  obtain ⟨hist2, hh2, _, hbump⟩ := update_host_hook_step (Dbl.fin interval) _
    (Dbl.fin latency) hist1 hinv1 hs1 hh1
  have hinv2 := update_host_hook_inv (Dbl.fin interval) _ (Dbl.fin latency) hinv1 hs1
  have hb : bucket_index (Dbl.fin interval)
      (run_samples (Dbl.fin interval) (context_init true) pre).latency_histogram_size
      (Dbl.fin latency) = 1000 := by
    have h1001 : OPING_HISTOGRAM_BUCKETS = 1001 := rfl
    rw [hsize1, h1001, bucket_index_fin latency interval q hl hi hq h64,
      clamped_bucket_overflow q hge]
  have hbump2 := hbump (by rw [Dbl.gt_fin_fin]; exact decide_eq_true hl)
  rw [hb] at hbump2
  -- the remaining samples
  obtain ⟨hinv3, _⟩ := run_samples_inv (Dbl.fin interval) post _ hinv2
    (by rw [update_host_hook_req_sent, hsent1]; omega)
  obtain ⟨hist3, hh3, hmono⟩ := run_samples_mono (Dbl.fin interval) post _ hist2 hinv2
    (by rw [update_host_hook_req_sent, hsent1]; omega) hh2
  obtain ⟨hist3', hh3', hlen3, hsize3, hsum3, hle3⟩ := hinv3
  have he : hist3' = hist3 := by
    rw [hh3] at hh3'
    exact (Option.some.inj hh3').symm
  subst he
  have h1001 : OPING_HISTOGRAM_BUCKETS = 1001 := rfl
  have hl3 : hist3'.length = 1001 := by rw [hlen3, hsize3, h1001]
  have hlast : 0 < hist3'.getD (hist3'.length - 1) 0 := by
    rw [hl3]
    have hm := hmono 1000
    show 0 < hist3'.getD 1000 0
    omega
  have hpos : 0 < hist3'.sum := lt_of_lt_of_le hlast (getD_le_sum hist3' _)
  have hsumlt : hist3'.sum < 2 ^ 32 := by
    have hsent3 := (run_samples_inv (Dbl.fin interval) post _ hinv2
      (by rw [update_host_hook_req_sent, hsent1]; omega)).2
    rw [update_host_hook_req_sent, hsent1] at hsent3
    have : (hist3'.sum : Int) < 2 ^ 32 := by omega
    exact_mod_cast this
  have hidx := percentile_index_last hist3' (by omega) hlast hsumlt
  rw [run_samples_append]
  simp only [run_samples, List.foldl_cons] at hh3' hlen3 ⊢
  rw [context_get_percentile_of_index _ hist3' interval 100 _ hh3' hlen3 hpos hsumlt
    (by norm_num) (le_refl _) hidx, ← hlen3]
  simp

/-- C4 (amended): for every interval > 0 and every sequence of fewer than `2^31`
samples applied to a fresh context whose histogram was allocated, if the
sequence contains a sample with latency > 0 whose quotient
`(latency * (N - 1)) / (1000.0 * interval)`, each operation rounded to binary64,
is a finite double at or above `N - 1 = 1000` and below `2^64`, then
`update_context` counts that sample in the overflow bucket (index 1000) and
`context_get_percentile (ctx, 100)` returns `+Infinity`. -/
theorem overflow_bucket_percentile (interval latency q : ℚ) (samples : List Dbl)
    (hi : 0 < interval) (hl : 0 < latency) (hx : Dbl.fin latency ∈ samples)
    (hq : Dbl.div64 (Dbl.mul64 (Dbl.fin latency) (Dbl.fin 1000))
      (Dbl.mul64 (Dbl.fin 1000) (Dbl.fin interval)) = Dbl.fin q)
    (hge : 1000 ≤ q) (h64 : q < 2 ^ 64)
    (hlen : samples.length < 2 ^ 31) :
    (∀ (ctx : ping_context_t) (hist : List Nat), ctx.latency_histogram = some hist →
      ctx.latency_histogram_size = 1001 →
      (update_context (Dbl.fin interval) ctx (Dbl.fin latency)).latency_histogram
        = some (hist.set 1000 ((hist.getD 1000 0 + 1) % 2 ^ 32))) ∧
    context_get_percentile (Dbl.fin interval)
      (run_samples (Dbl.fin interval) (context_init true) samples) (Dbl.fin 100) = Dbl.pinf := by
  have hq' : bucket_quotient (Dbl.fin interval) 1001 (Dbl.fin latency) = Dbl.fin q := hq
  refine ⟨?_, run_samples_overflow_percentile interval latency q samples hi hl hx hq' hge h64
    hlen⟩
  intro ctx hist hh hsize
  have hupd := update_context_histogram (Dbl.fin interval) ctx (Dbl.fin latency) hist hh
  rw [hsize, bucket_index_fin latency interval q hl hi hq' h64,
    clamped_bucket_overflow q hge] at hupd
  exact hupd

theorem overflow_bucket_percentile_witness :
    (∀ (ctx : ping_context_t) (hist : List Nat), ctx.latency_histogram = some hist →
      ctx.latency_histogram_size = 1001 →
      (update_context (Dbl.fin 1) ctx (Dbl.fin 1000)).latency_histogram
        = some (hist.set 1000 ((hist.getD 1000 0 + 1) % 2 ^ 32))) ∧
    context_get_percentile (Dbl.fin 1)
      (run_samples (Dbl.fin 1) (context_init true) [Dbl.fin 12, Dbl.fin 1000, Dbl.fin (-1)])
      (Dbl.fin 100) = Dbl.pinf :=
  overflow_bucket_percentile 1 1000 1000 [Dbl.fin 12, Dbl.fin 1000, Dbl.fin (-1)]
    (by norm_num) (by norm_num) (by simp) (by decide!) (by norm_num) (by norm_num) (by decide)


theorem set_last (z : List Nat) (c v : Nat) :
    (z ++ [c]).set z.length v = z ++ [v] := by
  induction z with
  | nil => rfl
  | cons a t ih => simp only [List.cons_append, List.length_cons, List.set_cons_succ, ih]

theorem getD_last (z : List Nat) (c : Nat) : (z ++ [c]).getD z.length 0 = c := by
  induction z with
  | nil => rfl
  | cons a t ih => simp only [List.cons_append, List.length_cons, List.getD_cons_succ, ih]

theorem update_context_overflow (ctx : ping_context_t) (z : List Nat) (c : Nat)
    (hz : z.length = 1000)
    (hh : ctx.latency_histogram = some (z ++ [c]))
    (hsize : ctx.latency_histogram_size = 1001) :
    (update_context (Dbl.fin 1) ctx (Dbl.fin 1000)).latency_histogram
      = some (z ++ [(c + 1) % 2 ^ 32]) := by
  have hupd := update_context_histogram (Dbl.fin 1) ctx (Dbl.fin 1000) (z ++ [c]) hh
  have hb : bucket_index (Dbl.fin 1) 1001 (Dbl.fin 1000) = 1000 := by decide!
  rw [hsize, hb] at hupd
  have h1000 : (1000 : Nat) = z.length := hz.symm
  rw [h1000, set_last, getD_last] at hupd
  exact hupd

theorem run_overflow_samples (n : Nat) (ctx : ping_context_t) (z : List Nat) (c : Nat)
    (hz : z.length = 1000) (hc : c < 2 ^ 32)
    (hh : ctx.latency_histogram = some (z ++ [c]))
    (hsize : ctx.latency_histogram_size = 1001) :
    (run_samples (Dbl.fin 1) ctx (List.replicate n (Dbl.fin 1000))).latency_histogram
        = some (z ++ [(c + n) % 2 ^ 32]) ∧
    (run_samples (Dbl.fin 1) ctx (List.replicate n (Dbl.fin 1000))).latency_histogram_size
        = 1001 := by
  induction n generalizing ctx c with
  | zero =>
    simp only [List.replicate_zero, run_samples, List.foldl_nil, Nat.add_zero]
    rw [Nat.mod_eq_of_lt hc]
    exact ⟨hh, hsize⟩
  | succ n ih =>
    have hstep : (update_host_hook (Dbl.fin 1) ctx (Dbl.fin 1000)).latency_histogram
        = some (z ++ [(c + 1) % 2 ^ 32]) := by
      rw [update_host_hook_received (Dbl.fin 1) ctx 1000 (by norm_num)]
      exact update_context_overflow _ z c hz hh hsize
    have hstep2 : (update_host_hook (Dbl.fin 1) ctx (Dbl.fin 1000)).latency_histogram_size
        = 1001 := by
      rw [update_host_hook_received (Dbl.fin 1) ctx 1000 (by norm_num), update_context_size]
      exact hsize
    have h := ih (update_host_hook (Dbl.fin 1) ctx (Dbl.fin 1000)) ((c + 1) % 2 ^ 32)
      (Nat.mod_lt _ (by norm_num)) hstep hstep2
    simp only [List.replicate_succ, run_samples, List.foldl_cons] at h ⊢
    refine ⟨?_, h.2⟩
    have hmod : ((c + 1) % 2 ^ 32 + n) % 2 ^ 32 = (c + (n + 1)) % 2 ^ 32 := by omega
    rw [h.1, hmod]

/-- C4 as stated fails in three ways.  The quotient is a double: with
`-i 0.1313` and a reply of 131.3 ms (the doubles nearest to these values) the
latency is at least `1000 * interval`, but the quotient
`(131.3 * 1000) / (1000.0 * 0.1313)` is `999.9999999999999`, the sample is
counted in bucket 999 and `context_get_percentile (ctx, 100)` returns 131.3,
not `+Infinity`.  When `calloc` returned `NULL` for the histogram of the fresh
context, a sample of 1000 ms at interval 1 s is counted in no bucket and
`context_get_percentile (ctx, 100)` returns NaN.  With an allocated histogram,
`2^32` samples of 1000 ms each all land in bucket 1000, whose `uint32_t` counter
is back at 0 after the last one; the histogram is then all zero and
`context_get_percentile (ctx, 100)` returns NaN. -/
theorem overflow_bucket_percentile_fails :
    (Dbl.lit (1313 / 10000) = Dbl.fin (4730581048589969 / 36028797018963968) ∧
      Dbl.lit (1313 / 10) = Dbl.fin (2309854027631821 / 17592186044416) ∧
      (1000 : ℚ) * (4730581048589969 / 36028797018963968)
        ≤ 2309854027631821 / 17592186044416 ∧
      Dbl.div64 (Dbl.mul64 (Dbl.lit (1313 / 10)) (Dbl.fin 1000))
          (Dbl.mul64 (Dbl.fin 1000) (Dbl.lit (1313 / 10000)))
        = Dbl.fin (8796093022207999 / 8796093022208) ∧
      (run_samples (Dbl.lit (1313 / 10000)) (context_init true)
          [Dbl.lit (1313 / 10)]).latency_histogram
        = some ((List.replicate 1001 0).set 999 1) ∧
      context_get_percentile (Dbl.lit (1313 / 10000))
        (run_samples (Dbl.lit (1313 / 10000)) (context_init true) [Dbl.lit (1313 / 10)])
        (Dbl.fin 100) = Dbl.fin (2309854027631821 / 17592186044416)) ∧
    ((run_samples (Dbl.fin 1) (context_init false) [Dbl.fin 1000]).latency_histogram = none ∧
      context_get_percentile (Dbl.fin 1)
        (run_samples (Dbl.fin 1) (context_init false) [Dbl.fin 1000]) (Dbl.fin 100)
        = Dbl.nan) ∧
    (overflow_samples.length = 2 ^ 32 ∧
      Dbl.fin 1000 ∈ overflow_samples ∧
      (run_samples (Dbl.fin 1) (context_init true) overflow_samples).latency_histogram
        = some (List.replicate 1000 0 ++ [0]) ∧
      context_get_percentile (Dbl.fin 1)
        (run_samples (Dbl.fin 1) (context_init true) overflow_samples) (Dbl.fin 100)
        = Dbl.nan) := by
  refine ⟨⟨by decide!, by decide!, by norm_num, by decide!, by decide!, by decide!⟩,
    ⟨by decide!, by decide!⟩, ?_⟩
  unfold overflow_samples
  have hinit : (context_init true).latency_histogram = some (List.replicate 1000 0 ++ [0]) := by
    show some (List.replicate (1000 + 1) 0) = some (List.replicate 1000 0 ++ [0])
    rw [List.replicate_succ']
  have hrun := run_overflow_samples (2 ^ 32) (context_init true) (List.replicate 1000 0) 0
    (List.length_replicate _ _) (by norm_num) hinit rfl
  have hmod : (0 + 2 ^ 32) % 2 ^ 32 = 0 := by norm_num
  rw [hmod] at hrun
  refine ⟨?_, ?_, hrun.1, ?_⟩
  · exact List.length_replicate _ _
  · exact List.mem_replicate.mpr ⟨by norm_num, rfl⟩
  · refine context_get_percentile_empty _ _ _ _ hrun.1 ?_ ?_
    · rw [hrun.2, List.length_append, List.length_replicate]
      rfl
    · rw [List.sum_append, List.sum_replicate]
      simp

/-! ## C11: minimum and maximum latency -/

theorem update_context_latency_max (opt_interval : Dbl) (ctx : ping_context_t) (latency : Dbl) :
    (update_context opt_interval ctx latency).latency_max =
      if Dbl.lt ctx.latency_max (Dbl.fin 0) || Dbl.lt ctx.latency_max latency then latency
      else ctx.latency_max := by
  unfold update_context
  simp only
  split <;> split_ifs <;> rfl

theorem update_context_latency_min (opt_interval : Dbl) (ctx : ping_context_t) (latency : Dbl) :
    (update_context opt_interval ctx latency).latency_min =
      if Dbl.lt ctx.latency_min (Dbl.fin 0) || Dbl.gt ctx.latency_min latency then latency
      else ctx.latency_min := by
  unfold update_context
  simp only
  split <;> split_ifs <;> rfl

theorem update_context_min_max_set (opt_interval : Dbl) (ctx : ping_context_t) (m M q : ℚ)
    (hm : ctx.latency_min = Dbl.fin m) (hM : ctx.latency_max = Dbl.fin M)
    (hm0 : 0 < m) (hM0 : 0 < M) :
    (update_context opt_interval ctx (Dbl.fin q)).latency_min = Dbl.fin (min m q) ∧
    (update_context opt_interval ctx (Dbl.fin q)).latency_max = Dbl.fin (max M q) := by
  rw [update_context_latency_min, update_context_latency_max, hm, hM]
  simp only [Dbl.lt_fin_fin, Dbl.gt_fin_fin, not_lt.mpr hm0.le, not_lt.mpr hM0.le,
    decide_False, Bool.false_or, decide_eq_true_eq]
  constructor
  · split_ifs with h
    · rw [min_eq_right h.le]
    · rw [min_eq_left (not_lt.mp h)]
  · split_ifs with h
    · rw [max_eq_right h.le]
    · rw [max_eq_left (not_lt.mp h)]

theorem update_context_min_max_unset (opt_interval : Dbl) (ctx : ping_context_t) (q : ℚ)
    (hm : ctx.latency_min = Dbl.fin (-1)) (hM : ctx.latency_max = Dbl.fin (-1)) :
    (update_context opt_interval ctx (Dbl.fin q)).latency_min = Dbl.fin q ∧
    (update_context opt_interval ctx (Dbl.fin q)).latency_max = Dbl.fin q := by
  rw [update_context_latency_min, update_context_latency_max, hm, hM]
  simp [Dbl.lt_fin_fin]

theorem foldl_update_context_min_max (opt_interval : Dbl) (qs : List ℚ) (ctx : ping_context_t)
    (m M : ℚ) (hm : ctx.latency_min = Dbl.fin m) (hM : ctx.latency_max = Dbl.fin M)
    (hm0 : 0 < m) (hM0 : 0 < M) (hpos : ∀ q ∈ qs, 0 < q) :
    ∃ m' M',
      ((qs.map Dbl.fin).foldl (update_context opt_interval) ctx).latency_min = Dbl.fin m' ∧
      ((qs.map Dbl.fin).foldl (update_context opt_interval) ctx).latency_max = Dbl.fin M' ∧
      m' ≤ m ∧ M ≤ M' ∧ (m' = m ∨ m' ∈ qs) ∧ (M' = M ∨ M' ∈ qs) ∧
      ∀ q ∈ qs, m' ≤ q ∧ q ≤ M' := by
  induction qs generalizing ctx m M with
  | nil => exact ⟨m, M, hm, hM, le_refl _, le_refl _, Or.inl rfl, Or.inl rfl, by simp⟩
  | cons q rest ih =>
    have hq : 0 < q := hpos q (by simp)
    obtain ⟨h1, h2⟩ := update_context_min_max_set opt_interval ctx m M q hm hM hm0 hM0
    obtain ⟨m', M', e1, e2, l1, l2, o1, o2, hall⟩ :=
      ih (update_context opt_interval ctx (Dbl.fin q)) (min m q) (max M q) h1 h2
        (lt_min hm0 hq) (lt_max_of_lt_left hM0) (fun x hx => hpos x (by simp [hx]))
    refine ⟨m', M', by simpa using e1, by simpa using e2, le_trans l1 (min_le_left _ _),
      le_trans (le_max_left _ _) l2, ?_, ?_, ?_⟩
    · rcases o1 with h | h
      · rcases min_choice m q with hc | hc
        · left; rw [h, hc]
        · right; rw [h, hc]; simp
      · right; simp [h]
    · rcases o2 with h | h
      · rcases max_choice M q with hc | hc
        · left; rw [h, hc]
        · right; rw [h, hc]; simp
      · right; simp [h]
    · intro x hx
      rcases List.mem_cons.mp hx with rfl | hx
      · exact ⟨le_trans l1 (min_le_right _ _), le_trans (le_max_right _ _) l2⟩
      · exact hall x hx

/-- C11: a freshly created context has `latency_min` and `latency_max` at the
"unset" value `-1.0`; after any non-empty sequence of `update_context` calls
with positive latencies `latency_min` is the minimum and `latency_max` the
maximum of the latencies applied. -/
theorem latency_min_max (opt_interval : Dbl) (calloc_ok : Bool) (qs : List ℚ)
    (hne : qs ≠ []) (hpos : ∀ q ∈ qs, 0 < q) :
    (context_init calloc_ok).latency_min = Dbl.fin (-1) ∧
    (context_init calloc_ok).latency_max = Dbl.fin (-1) ∧
    ∃ m M, m ∈ qs ∧ M ∈ qs ∧ (∀ q ∈ qs, m ≤ q ∧ q ≤ M) ∧
      ((qs.map Dbl.fin).foldl (update_context opt_interval)
        (context_init calloc_ok)).latency_min = Dbl.fin m ∧
      ((qs.map Dbl.fin).foldl (update_context opt_interval)
        (context_init calloc_ok)).latency_max = Dbl.fin M := by
  refine ⟨rfl, rfl, ?_⟩
  cases qs with
  | nil => exact absurd rfl hne
  | cons q rest =>
    have hq : 0 < q := hpos q (by simp)
    obtain ⟨h1, h2⟩ := update_context_min_max_unset opt_interval (context_init calloc_ok) q
      rfl rfl
    obtain ⟨m', M', e1, e2, l1, l2, o1, o2, hall⟩ :=
      foldl_update_context_min_max opt_interval rest _ q q h1 h2 hq hq
        (fun x hx => hpos x (by simp [hx]))
    refine ⟨m', M', ?_, ?_, ?_, by simpa using e1, by simpa using e2⟩
    · rcases o1 with h | h
      · simp [h]
      · simp [h]
    · rcases o2 with h | h
      · simp [h]
      · simp [h]
    · intro x hx
      rcases List.mem_cons.mp hx with rfl | hx
      · exact ⟨l1, l2⟩
      · exact hall x hx

theorem latency_min_max_witness :
    (context_init true).latency_min = Dbl.fin (-1) ∧
    (context_init true).latency_max = Dbl.fin (-1) ∧
    ∃ m M, m ∈ [(30 : ℚ), 12, 45] ∧ M ∈ [(30 : ℚ), 12, 45] ∧
      (∀ q ∈ [(30 : ℚ), 12, 45], m ≤ q ∧ q ≤ M) ∧
      (([(30 : ℚ), 12, 45].map Dbl.fin).foldl (update_context (Dbl.fin 1))
        (context_init true)).latency_min = Dbl.fin m ∧
      (([(30 : ℚ), 12, 45].map Dbl.fin).foldl (update_context (Dbl.fin 1))
        (context_init true)).latency_max = Dbl.fin M :=
  latency_min_max (Dbl.fin 1) true [30, 12, 45] (by simp) (by
    intro q hq
    simp only [List.mem_cons, List.mem_singleton, List.not_mem_nil, or_false] at hq
    rcases hq with rfl | rfl | rfl <;> norm_num)

/-! ## C12: the wait time -/

theorem wrap_long_of_range (x : Int) (h0 : -9223372036854775808 ≤ x)
    (h1 : x < 9223372036854775808) : wrap_long x = x := by
  unfold wrap_long
  omega

theorem time_normalize_of_range (s n : Int) (h0 : 0 ≤ n) (h1 : n < 1000000000) :
    time_normalize { tv_sec := s, tv_nsec := n } = { tv_sec := s, tv_nsec := n } := by
  unfold time_normalize
  rw [time_normalize_borrow]
  simp only [not_lt.mpr h0, if_false]
  rw [time_normalize_carry]
  simp [not_le.mpr h1]

theorem time_normalize_of_carry (s n : Int) (h0 : 1000000000 ≤ n) (h1 : n < 2000000000)
    (hs0 : -9223372036854775808 ≤ s + 1) (hs1 : s + 1 < 9223372036854775808) :
    time_normalize { tv_sec := s, tv_nsec := n }
      = { tv_sec := s + 1, tv_nsec := n - 1000000000 } := by
  unfold time_normalize
  rw [time_normalize_borrow]
  have hn : ¬ n < 0 := by omega
  simp only [hn, if_false]
  rw [time_normalize_carry]
  simp only [ge_iff_le, h0, if_true]
  rw [wrap_long_of_range (s + 1) hs0 hs1,
    wrap_long_of_range (n - 1000000000) (by omega) (by omega)]
  rw [time_normalize_carry]
  have h2 : ¬ (1000000000 : Int) ≤ n - 1000000000 := by omega
  simp [h2]

theorem time_normalize_of_borrow (s n : Int) (hs : s ≠ 0) (h0 : -1000000000 ≤ n) (h1 : n < 0)
    (hs0 : -9223372036854775808 ≤ s - 1) (hs1 : s - 1 < 9223372036854775808) :
    time_normalize { tv_sec := s, tv_nsec := n }
      = { tv_sec := s - 1, tv_nsec := n + 1000000000 } := by
  unfold time_normalize
  rw [time_normalize_borrow]
  simp only [h1, if_true, hs, if_false]
  rw [wrap_long_of_range (s - 1) hs0 hs1,
    wrap_long_of_range (n + 1000000000) (by omega) (by omega)]
  rw [time_normalize_borrow]
  have h2 : ¬ n + 1000000000 < 0 := by omega
  simp only [h2, if_false]
  rw [time_normalize_carry]
  have h3 : ¬ (1000000000 : Int) ≤ n + 1000000000 := by omega
  simp [h3]

theorem time_calc_spec (ts_int : timespec) (tv_begin tv_end : timeval)
    (hb : 0 ≤ tv_begin.tv_sec) (hbu : 0 ≤ tv_begin.tv_usec) (hbu' : tv_begin.tv_usec < 1000000)
    (he : 0 ≤ tv_end.tv_sec) (heu : 0 ≤ tv_end.tv_usec) (heu' : tv_end.tv_usec < 1000000)
    (hi : 0 ≤ ts_int.tv_sec) (hin : 0 ≤ ts_int.tv_nsec) (hin' : ts_int.tv_nsec < 1000000000)
    (hsum : tv_begin.tv_sec + ts_int.tv_sec + 1 < 9223372036854775808) :
    0 ≤ (time_calc ts_int tv_begin tv_end).tv_sec ∧
    0 ≤ (time_calc ts_int tv_begin tv_end).tv_nsec ∧
    (time_calc ts_int tv_begin tv_end).tv_nsec < 1000000000 ∧
    (time_calc ts_int tv_begin tv_end).nanos
      = max 0 (tv_begin.nanos + ts_int.nanos - tv_end.nanos) := by
  obtain ⟨bs, bu⟩ := tv_begin
  obtain ⟨es, eu⟩ := tv_end
  obtain ⟨is, ins⟩ := ts_int
  simp only at hb hbu hbu' he heu heu' hi hin hin' hsum
  unfold time_calc
  simp only [timespec.nanos, timeval.nanos]
  rw [wrap_long_of_range (bs + is) (by omega) (by omega),
    wrap_long_of_range (bu * 1000) (by omega) (by omega),
    wrap_long_of_range (bu * 1000 + ins) (by omega) (by omega),
    wrap_long_of_range (eu * 1000) (by omega) (by omega)]
  by_cases hc : bu * 1000 + ins < 1000000000
  · rw [time_normalize_of_range _ _ (by omega) hc]
    simp only
    split_ifs with hg
    · simp only
      rw [max_eq_left (by omega)]
      omega
    · rw [wrap_long_of_range (bs + is - es) (by omega) (by omega),
        wrap_long_of_range (bu * 1000 + ins - eu * 1000) (by omega) (by omega)]
      by_cases hneg : bu * 1000 + ins - eu * 1000 < 0
      · rw [time_normalize_of_borrow _ _ (by omega) (by omega) hneg (by omega) (by omega)]
        simp only
        rw [max_eq_right (by omega)]
        omega
      · rw [time_normalize_of_range _ _ (by omega) (by omega)]
        simp only
        rw [max_eq_right (by omega)]
        omega
  · rw [time_normalize_of_carry _ _ (by omega) (by omega) (by omega) (by omega)]
    simp only
    split_ifs with hg
    · simp only
      rw [max_eq_left (by omega)]
      omega
    · rw [wrap_long_of_range (bs + is + 1 - es) (by omega) (by omega),
        wrap_long_of_range (bu * 1000 + ins - 1000000000 - eu * 1000) (by omega) (by omega)]
      by_cases hneg : bu * 1000 + ins - 1000000000 - eu * 1000 < 0
      · rw [time_normalize_of_borrow _ _ (by omega) (by omega) hneg (by omega) (by omega)]
        simp only
        rw [max_eq_right (by omega)]
        omega
      · rw [time_normalize_of_range _ _ (by omega) (by omega)]
        simp only
        rw [max_eq_right (by omega)]
        omega


/-- C12 (amended): for every begin and end timestamp (seconds >= 0,
0 <= usec < 10^6) and every interval (seconds >= 0, 0 <= nsec < 10^9) whose sum
`begin + interval` stays below `2^63 - 1` seconds, the range of `time_t`,
`time_calc` stores a wait time with `tv_sec >= 0` and `0 <= tv_nsec < 10^9`
whose value in nanoseconds is `max (0, begin + interval - end)`: zero when the
round overran its budget, the exact remainder otherwise. -/
theorem time_calc_wait (ts_int : timespec) (tv_begin tv_end : timeval)
    (hb : 0 ≤ tv_begin.tv_sec) (hbu : 0 ≤ tv_begin.tv_usec) (hbu' : tv_begin.tv_usec < 1000000)
    (he : 0 ≤ tv_end.tv_sec) (heu : 0 ≤ tv_end.tv_usec) (heu' : tv_end.tv_usec < 1000000)
    (hi : 0 ≤ ts_int.tv_sec) (hin : 0 ≤ ts_int.tv_nsec) (hin' : ts_int.tv_nsec < 1000000000)
    (hsum : tv_begin.tv_sec + ts_int.tv_sec + 1 < 2 ^ 63) :
    0 ≤ (time_calc ts_int tv_begin tv_end).tv_sec ∧
    0 ≤ (time_calc ts_int tv_begin tv_end).tv_nsec ∧
    (time_calc ts_int tv_begin tv_end).tv_nsec < 1000000000 ∧
    (time_calc ts_int tv_begin tv_end).nanos
      = max 0 (tv_begin.nanos + ts_int.nanos - tv_end.nanos) :=
  time_calc_spec ts_int tv_begin tv_end hb hbu hbu' he heu heu' hi hin hin'
    (by have h63 : (2 : Int) ^ 63 = 9223372036854775808 := by norm_num
        rw [h63] at hsum
        exact hsum)

theorem time_calc_wait_witness :
    0 ≤ (time_calc ⟨1, 500000000⟩ ⟨10, 700000⟩ ⟨11, 900000⟩).tv_sec ∧
    0 ≤ (time_calc ⟨1, 500000000⟩ ⟨10, 700000⟩ ⟨11, 900000⟩).tv_nsec ∧
    (time_calc ⟨1, 500000000⟩ ⟨10, 700000⟩ ⟨11, 900000⟩).tv_nsec < 1000000000 ∧
    (time_calc ⟨1, 500000000⟩ ⟨10, 700000⟩ ⟨11, 900000⟩).nanos
      = max 0 ((⟨10, 700000⟩ : timeval).nanos + (⟨1, 500000000⟩ : timespec).nanos
          - (⟨11, 900000⟩ : timeval).nanos) :=
  time_calc_wait ⟨1, 500000000⟩ ⟨10, 700000⟩ ⟨11, 900000⟩
    (by decide) (by decide) (by decide) (by decide) (by decide) (by decide)
    (by decide) (by decide) (by decide) (by decide)

/-- C12 as stated fails where the sum leaves the range of `time_t`: with the
begin at `2^63 - 1` s, an interval of 1 s and the end at 0 s, all within the
ranges of the claim, the sum `tv_begin.tv_sec + ts_int.tv_sec` wraps to `-2^63`,
the test `tv_end.tv_sec > ts_dest.tv_sec` holds and `time_calc` stores a wait
of 0, where `begin + interval - end` is `2^63` s. -/
theorem time_calc_wraps :
    time_calc ⟨1, 0⟩ ⟨9223372036854775807, 0⟩ ⟨0, 0⟩ = ⟨0, 0⟩ ∧
    wrap_long (9223372036854775807 + 1) = -9223372036854775808 ∧
    max 0 ((⟨9223372036854775807, 0⟩ : timeval).nanos + (⟨1, 0⟩ : timespec).nanos
      - (⟨0, 0⟩ : timeval).nanos) = 9223372036854775808000000000 := by
  refine ⟨?_, by decide, by decide⟩
  unfold time_calc
  have h1 : wrap_long (9223372036854775807 + 1) = -9223372036854775808 := by decide
  have h2 : wrap_long ((0 : Int) * 1000) = 0 := by decide
  have h3 : wrap_long ((0 : Int) + 0) = 0 := by decide
  simp only [h1, h2, h3]
  rw [time_normalize_of_range _ _ (by norm_num) (by norm_num)]
  simp

/-! ## C13: a finite run -/

theorem main_loop_quiet_last (opt_interval : Dbl) (contexts : List ping_context_t)
    (it : Iteration) (rest : List Iteration) (hq : it.quiet) :
    main_loop opt_interval 1 contexts (it :: rest)
      = ⟨LoopEnd.left, 1, update_hosts opt_interval contexts it.latencies,
          [Event.begin_round, Event.send, Event.aggregate]⟩ := by
  obtain ⟨h1, h2, h3, h4, h5, h6⟩ := hq
  simp [main_loop, h1, h2, h3, h4]

theorem main_loop_quiet_next (opt_interval : Dbl) (n : Int) (hn : 2 ≤ n)
    (contexts : List ping_context_t) (it : Iteration) (rest : List Iteration) (hq : it.quiet) :
    main_loop opt_interval n contexts (it :: rest)
      = (main_loop opt_interval (n - 1) (update_hosts opt_interval contexts it.latencies)
          rest).prepend
          [Event.begin_round, Event.send, Event.aggregate, Event.sleep it.sleep_resumed] := by
  obtain ⟨h1, h2, h3, h4, h5, h6⟩ := hq
  have hn0 : n ≠ 0 := by omega
  have hn1 : n ≠ 1 := by omega
  have hpos : 0 < n := by omega
  simp [main_loop, h1, h2, h3, h4, h5, h6, hn0, hn1, hpos]

theorem main_loop_quiet_unbounded (opt_interval : Dbl) (n : Int) (hn : n < 0)
    (contexts : List ping_context_t) (it : Iteration) (rest : List Iteration) (hq : it.quiet) :
    main_loop opt_interval n contexts (it :: rest)
      = (main_loop opt_interval n (update_hosts opt_interval contexts it.latencies)
          rest).prepend
          [Event.begin_round, Event.send, Event.aggregate, Event.sleep it.sleep_resumed] := by
  obtain ⟨h1, h2, h3, h4, h5, h6⟩ := hq
  have hn0 : n ≠ 0 := by omega
  have hn1 : n ≠ 1 := by omega
  have hpos : ¬ 0 < n := by omega
  simp [main_loop, h1, h2, h3, h4, h5, h6, hn0, hn1, hpos]

theorem rounds_prepend_round (r : LoopResult) (k : Nat) :
    rounds (r.prepend [Event.begin_round, Event.send, Event.aggregate, Event.sleep k]).trace
      = rounds r.trace + 1 ∧
    sends (r.prepend [Event.begin_round, Event.send, Event.aggregate, Event.sleep k]).trace
      = sends r.trace + 1 ∧
    sleeps (r.prepend [Event.begin_round, Event.send, Event.aggregate, Event.sleep k]).trace
      = sleeps r.trace + 1 := by
  simp [LoopResult.prepend, rounds, sends, sleeps, List.count_cons, List.countP_cons,
    Event.is_sleep]

theorem main_loop_finite (opt_interval : Dbl) (n : Nat) (hn : 1 ≤ n)
    (contexts : List ping_context_t) (its : List Iteration)
    (hlen : n ≤ its.length) (hq : ∀ it ∈ its.take n, it.quiet) :
    (main_loop opt_interval n contexts its).how = LoopEnd.left ∧
    rounds (main_loop opt_interval n contexts its).trace = n ∧
    sends (main_loop opt_interval n contexts its).trace = n ∧
    sleeps (main_loop opt_interval n contexts its).trace = n - 1 ∧
    (main_loop opt_interval n contexts its).trace.getLast? = some Event.aggregate ∧
    (main_loop opt_interval n contexts its).contexts
      = aggregate_all opt_interval contexts (its.take n) := by
  induction its generalizing n contexts with
  | nil => simp at hlen; omega
  | cons it rest ih =>
    have hit : it.quiet := hq it (by
      have : n = (n - 1) + 1 := by omega
      rw [this, List.take_succ_cons]
      simp)
    by_cases h1 : n = 1
    · subst h1
      rw [Nat.cast_one, main_loop_quiet_last opt_interval contexts it rest hit]
      simp [rounds, sends, sleeps, Event.is_sleep, aggregate_all]
    · have h2 : 2 ≤ n := by omega
      have hcast : ((n : Nat) : Int) - 1 = ((n - 1 : Nat) : Int) := by omega
      rw [main_loop_quiet_next opt_interval n (by omega) contexts it rest hit, hcast]
      have hrec := ih (n - 1) (by omega) (update_hosts opt_interval contexts it.latencies)
        (by simp only [List.length_cons] at hlen; omega)
        (fun x hx => hq x (by
          have : n = (n - 1) + 1 := by omega
          rw [this, List.take_succ_cons]
          simp [hx]))
      obtain ⟨e1, e2, e3, e4, e5, e6⟩ := hrec
      obtain ⟨p1, p2, p3⟩ := rounds_prepend_round
        (main_loop opt_interval ((n - 1 : Nat) : Int)
          (update_hosts opt_interval contexts it.latencies) rest) it.sleep_resumed
      refine ⟨e1, by rw [p1, e2]; omega, by rw [p2, e3]; omega, by rw [p3, e4]; omega, ?_, ?_⟩
      · simp only [LoopResult.prepend]
        rw [List.getLast?_append, e5]
        rfl
      · simp only [LoopResult.prepend]
        rw [e6]
        have : n = (n - 1) + 1 := by omega
        conv_rhs => rw [this, List.take_succ_cons]
        simp [aggregate_all]


theorem quiet_pass_quiet (latencies : List Dbl) : (quiet_pass latencies).quiet :=
  ⟨rfl, rfl, rfl, rfl, rfl, rfl⟩

/-- C13: for every configured round count `n >= 1`, when no interrupt arrives,
the clock can be read and every `ping_send` succeeds, the main loop ends through
its `break` after exactly `n` rounds (`n` calls of `ping_send`, each followed by
the aggregation of its samples) and exactly `n - 1` sleeps; the last thing it
does is the aggregation of round `n`, with no sleep after it. -/
theorem main_loop_rounds (opt_interval : Dbl) (n : Nat) (hn : 1 ≤ n)
    (contexts : List ping_context_t) (its : List Iteration)
    (hlen : n ≤ its.length) (hq : ∀ it ∈ its.take n, it.quiet) :
    (main_loop opt_interval n contexts its).how = LoopEnd.left ∧
    rounds (main_loop opt_interval n contexts its).trace = n ∧
    sends (main_loop opt_interval n contexts its).trace = n ∧
    sleeps (main_loop opt_interval n contexts its).trace = n - 1 ∧
    (main_loop opt_interval n contexts its).trace.getLast? = some Event.aggregate ∧
    (main_loop opt_interval n contexts its).contexts
      = aggregate_all opt_interval contexts (its.take n) :=
  main_loop_finite opt_interval n hn contexts its hlen hq

theorem main_loop_rounds_witness :
    (main_loop (Dbl.fin 1) (3 : Nat) [context_init true]
      (List.replicate 3 (quiet_pass [Dbl.fin 12]))).how = LoopEnd.left ∧
    rounds (main_loop (Dbl.fin 1) (3 : Nat) [context_init true]
      (List.replicate 3 (quiet_pass [Dbl.fin 12]))).trace = 3 ∧
    sends (main_loop (Dbl.fin 1) (3 : Nat) [context_init true]
      (List.replicate 3 (quiet_pass [Dbl.fin 12]))).trace = 3 ∧
    sleeps (main_loop (Dbl.fin 1) (3 : Nat) [context_init true]
      (List.replicate 3 (quiet_pass [Dbl.fin 12]))).trace = 3 - 1 ∧
    (main_loop (Dbl.fin 1) (3 : Nat) [context_init true]
      (List.replicate 3 (quiet_pass [Dbl.fin 12]))).trace.getLast? = some Event.aggregate ∧
    (main_loop (Dbl.fin 1) (3 : Nat) [context_init true]
      (List.replicate 3 (quiet_pass [Dbl.fin 12]))).contexts
      = aggregate_all (Dbl.fin 1) [context_init true]
          ((List.replicate 3 (quiet_pass [Dbl.fin 12])).take 3) :=
  main_loop_rounds (Dbl.fin 1) 3 (by decide) [context_init true]
    (List.replicate 3 (quiet_pass [Dbl.fin 12])) (by decide)
    (fun it hit => by
      rw [List.eq_of_mem_replicate (List.mem_of_mem_take hit)]
      exact quiet_pass_quiet _)

/-! ## C14: the stop signal during a sleep -/

theorem main_loop_zero (opt_interval : Dbl) (contexts : List ping_context_t)
    (its : List Iteration) :
    main_loop opt_interval 0 contexts its = ⟨LoopEnd.left, 0, contexts, []⟩ := by
  cases its <;> simp [main_loop]

theorem main_loop_sigint_in_sleep (opt_interval : Dbl) (n : Int) (hn0 : n ≠ 0) (hn1 : n ≠ 1)
    (contexts : List ping_context_t) (it : Iteration) (rest : List Iteration)
    (hb : it.begin_ok = true) (hs : it.sigint_in_send = false) (hok : it.send = SendStatus.ok)
    (hh : it.sigint_in_hooks = false) (he : it.end_ok = true)
    (hsl : it.sigint_in_sleep = true) :
    main_loop opt_interval n contexts (it :: rest)
      = ⟨LoopEnd.left, 0, update_hosts opt_interval contexts it.latencies,
          [Event.begin_round, Event.send, Event.aggregate, Event.sleep it.sleep_resumed]⟩ := by
  simp [main_loop, hb, hs, hok, hh, he, hsl, hn0, hn1, sigint_handler, main_loop_zero,
    LoopResult.prepend]

theorem main_loop_stop_in_sleep (opt_interval : Dbl) (contexts : List ping_context_t)
    (pre : List Iteration) (it : Iteration) (rest : List Iteration)
    (hq : ∀ p ∈ pre, p.quiet)
    (hb : it.begin_ok = true) (hs : it.sigint_in_send = false) (hok : it.send = SendStatus.ok)
    (hh : it.sigint_in_hooks = false) (he : it.end_ok = true)
    (hsl : it.sigint_in_sleep = true) :
    (main_loop opt_interval (-1) contexts (pre ++ it :: rest)).how = LoopEnd.left ∧
    rounds (main_loop opt_interval (-1) contexts (pre ++ it :: rest)).trace = pre.length + 1 ∧
    sends (main_loop opt_interval (-1) contexts (pre ++ it :: rest)).trace = pre.length + 1 ∧
    (main_loop opt_interval (-1) contexts (pre ++ it :: rest)).trace.getLast?
      = some (Event.sleep it.sleep_resumed) ∧
    (main_loop opt_interval (-1) contexts (pre ++ it :: rest)).contexts
      = aggregate_all opt_interval contexts (pre ++ [it]) := by
  induction pre generalizing contexts with
  | nil =>
    simp only [List.nil_append, List.length_nil]
    rw [main_loop_sigint_in_sleep opt_interval (-1) (by decide) (by decide) contexts it rest
      hb hs hok hh he hsl]
    simp [rounds, sends, aggregate_all]
  | cons p pre ih =>
    have hp : p.quiet := hq p (by simp)
    simp only [List.cons_append, List.length_cons]
    rw [main_loop_quiet_unbounded opt_interval (-1) (by decide) contexts p _ hp]
    obtain ⟨e1, e2, e3, e4, e5⟩ := ih (update_hosts opt_interval contexts p.latencies)
      (fun x hx => hq x (by simp [hx]))
    obtain ⟨p1, p2, _⟩ := rounds_prepend_round
      (main_loop opt_interval (-1) (update_hosts opt_interval contexts p.latencies)
        (pre ++ it :: rest)) p.sleep_resumed
    refine ⟨e1, by rw [p1, e2], by rw [p2, e3], ?_, ?_⟩
    · simp only [LoopResult.prepend]
      rw [List.getLast?_append, e4]
      rfl
    · simp only [LoopResult.prepend]
      rw [e5]
      simp [aggregate_all]

/-- C14 (scenario D): in an unbounded run (`opt_count = -1`), when the stop
signal is handled during the sleep of round `k` (after `k - 1` quiet rounds),
the loop ends after that sleep, whatever the environment would do afterwards:
`ping_send` was called exactly `k` times, `k` rounds were aggregated, the last
event is the sleep of round `k`, and the process exits with the status computed
by the final report over the contexts of these `k` rounds. -/
theorem stop_signal_during_sleep (opt_interval opt_exit_status_threshold : Dbl)
    (contexts : List ping_context_t)
    (pre : List Iteration) (it : Iteration) (rest : List Iteration)
    (hq : ∀ p ∈ pre, p.quiet)
    (hb : it.begin_ok = true) (hs : it.sigint_in_send = false) (hok : it.send = SendStatus.ok)
    (hh : it.sigint_in_hooks = false) (he : it.end_ok = true)
    (hsl : it.sigint_in_sleep = true) :
    (main_loop opt_interval (-1) contexts (pre ++ it :: rest)).how = LoopEnd.left ∧
    rounds (main_loop opt_interval (-1) contexts (pre ++ it :: rest)).trace = pre.length + 1 ∧
    sends (main_loop opt_interval (-1) contexts (pre ++ it :: rest)).trace = pre.length + 1 ∧
    (main_loop opt_interval (-1) contexts (pre ++ it :: rest)).trace.getLast?
      = some (Event.sleep it.sleep_resumed) ∧
    main_end opt_exit_status_threshold
        (main_loop opt_interval (-1) contexts (pre ++ it :: rest))
      = some (main_exit opt_exit_status_threshold
          (aggregate_all opt_interval contexts (pre ++ [it]))) := by
  obtain ⟨e1, e2, e3, e4, e5⟩ := main_loop_stop_in_sleep opt_interval contexts pre it rest
    hq hb hs hok hh he hsl
  refine ⟨e1, e2, e3, e4, ?_⟩
  simp only [main_end, e1, e5]

theorem stop_signal_during_sleep_witness :
    (main_loop (Dbl.fin 1) (-1) [context_init true]
      ([quiet_pass [Dbl.fin 12]] ++ sigint_sleep_pass [Dbl.fin (-1)]
        :: [quiet_pass [Dbl.fin 13]])).how = LoopEnd.left ∧
    rounds (main_loop (Dbl.fin 1) (-1) [context_init true]
      ([quiet_pass [Dbl.fin 12]] ++ sigint_sleep_pass [Dbl.fin (-1)]
        :: [quiet_pass [Dbl.fin 13]])).trace = [quiet_pass [Dbl.fin 12]].length + 1 ∧
    sends (main_loop (Dbl.fin 1) (-1) [context_init true]
      ([quiet_pass [Dbl.fin 12]] ++ sigint_sleep_pass [Dbl.fin (-1)]
        :: [quiet_pass [Dbl.fin 13]])).trace = [quiet_pass [Dbl.fin 12]].length + 1 ∧
    (main_loop (Dbl.fin 1) (-1) [context_init true]
      ([quiet_pass [Dbl.fin 12]] ++ sigint_sleep_pass [Dbl.fin (-1)]
        :: [quiet_pass [Dbl.fin 13]])).trace.getLast?
      = some (Event.sleep (sigint_sleep_pass [Dbl.fin (-1)]).sleep_resumed) ∧
    main_end (Dbl.fin (1 / 2))
        (main_loop (Dbl.fin 1) (-1) [context_init true]
          ([quiet_pass [Dbl.fin 12]] ++ sigint_sleep_pass [Dbl.fin (-1)]
            :: [quiet_pass [Dbl.fin 13]]))
      = some (main_exit (Dbl.fin (1 / 2))
          (aggregate_all (Dbl.fin 1) [context_init true]
            ([quiet_pass [Dbl.fin 12]] ++ [sigint_sleep_pass [Dbl.fin (-1)]]))) :=
  stop_signal_during_sleep (Dbl.fin 1) (Dbl.fin (1 / 2)) [context_init true]
    [quiet_pass [Dbl.fin 12]] (sigint_sleep_pass [Dbl.fin (-1)]) [quiet_pass [Dbl.fin 13]]
    (fun p hp => by
      rw [List.mem_singleton.mp hp]
      exact quiet_pass_quiet _)
    rfl rfl rfl rfl rfl rfl

/-! ## C15: the stop signal during a round -/

theorem main_loop_stop_in_round (opt_interval : Dbl) (n : Int) (hn : n ≠ 0)
    (contexts : List ping_context_t) (it : Iteration) (rest : List Iteration)
    (hb : it.begin_ok = true) (hok : it.send = SendStatus.ok) (he : it.end_ok = true)
    (hsig : it.sigint_in_send = true ∨ it.sigint_in_hooks = true ∨ it.sigint_in_sleep = true) :
    (main_loop opt_interval n contexts (it :: rest)).how = LoopEnd.left ∧
    (main_loop opt_interval n contexts (it :: rest)).contexts
      = update_hosts opt_interval contexts it.latencies ∧
    (main_loop opt_interval n contexts (it :: rest)).trace.take 3
      = [Event.begin_round, Event.send, Event.aggregate] ∧
    sends (main_loop opt_interval n contexts (it :: rest)).trace = 1 := by
  simp only [main_loop, hn, hb, hok, he, if_false, sigint_handler, Bool.true_eq_false]
  by_cases h1 : it.sigint_in_send = true
  · by_cases h2 : it.sigint_in_hooks = true <;> by_cases h3 : it.sigint_in_sleep = true <;>
      simp [h1, h2, h3, main_loop_zero, LoopResult.prepend, sends]
  · by_cases h2 : it.sigint_in_hooks = true
    · by_cases h3 : it.sigint_in_sleep = true <;>
        simp [h1, h2, h3, main_loop_zero, LoopResult.prepend, sends]
    · have h3 : it.sigint_in_sleep = true := by tauto
      by_cases hone : n = 1
      · simp [h1, h2, h3, hone, sends]
      · simp [h1, h2, h3, hone, main_loop_zero, LoopResult.prepend, sends]

theorem main_loop_eintr_retry (opt_interval : Dbl) (n : Int) (hn : n ≠ 0)
    (contexts : List ping_context_t) (it : Iteration) (rest : List Iteration)
    (hb : it.begin_ok = true) (hs : it.sigint_in_send = false)
    (heintr : it.send = SendStatus.eintr) :
    main_loop opt_interval n contexts (it :: rest)
      = (main_loop opt_interval n contexts rest).prepend [Event.begin_round, Event.send] := by
  simp [main_loop, hn, hb, hs, heintr]

theorem main_loop_eintr_stop (opt_interval : Dbl) (n : Int) (hn : n ≠ 0)
    (contexts : List ping_context_t) (it : Iteration) (rest : List Iteration)
    (hb : it.begin_ok = true) (hs : it.sigint_in_send = true)
    (heintr : it.send = SendStatus.eintr) :
    main_loop opt_interval n contexts (it :: rest)
      = ⟨LoopEnd.left, 0, contexts, [Event.begin_round, Event.send]⟩ := by
  simp [main_loop, hn, hb, hs, heintr, sigint_handler, main_loop_zero, LoopResult.prepend]

/-- C15 (amended): in a round that has begun (`opt_count != 0`, begin timestamp
recorded), a stop signal handled while `ping_send` runs, while the hooks run or
during the sleep does not preempt the round when `ping_send` succeeds: the
samples of the round are aggregated for every target and the loop ends with no
further `ping_send`.  A `ping_send` that returns `-EINTR` without a stop signal
is retried in the next pass with the contexts and `opt_count` unchanged.  A
`ping_send` that returns `-EINTR` after the stop signal was handled is not
retried: the loop ends at once and the round is not aggregated. -/
theorem stop_signal_during_round (opt_interval : Dbl) (n : Int) (hn : n ≠ 0)
    (contexts : List ping_context_t) (it : Iteration) (rest : List Iteration)
    (hb : it.begin_ok = true) :
    (it.send = SendStatus.ok → it.end_ok = true →
      (it.sigint_in_send = true ∨ it.sigint_in_hooks = true ∨ it.sigint_in_sleep = true) →
      (main_loop opt_interval n contexts (it :: rest)).how = LoopEnd.left ∧
      (main_loop opt_interval n contexts (it :: rest)).contexts
        = update_hosts opt_interval contexts it.latencies ∧
      (main_loop opt_interval n contexts (it :: rest)).trace.take 3
        = [Event.begin_round, Event.send, Event.aggregate] ∧
      sends (main_loop opt_interval n contexts (it :: rest)).trace = 1) ∧
    (it.send = SendStatus.eintr → it.sigint_in_send = false →
      main_loop opt_interval n contexts (it :: rest)
        = (main_loop opt_interval n contexts rest).prepend
            [Event.begin_round, Event.send]) ∧
    (it.send = SendStatus.eintr → it.sigint_in_send = true →
      main_loop opt_interval n contexts (it :: rest)
        = ⟨LoopEnd.left, 0, contexts, [Event.begin_round, Event.send]⟩) :=
  ⟨fun hok he hsig => main_loop_stop_in_round opt_interval n hn contexts it rest hb hok he hsig,
   fun heintr hs => main_loop_eintr_retry opt_interval n hn contexts it rest hb hs heintr,
   fun heintr hs => main_loop_eintr_stop opt_interval n hn contexts it rest hb hs heintr⟩


theorem stop_signal_during_round_witness :
    ((sigint_send_pass [Dbl.fin 12]).send = SendStatus.ok →
      (sigint_send_pass [Dbl.fin 12]).end_ok = true →
      ((sigint_send_pass [Dbl.fin 12]).sigint_in_send = true ∨
        (sigint_send_pass [Dbl.fin 12]).sigint_in_hooks = true ∨
        (sigint_send_pass [Dbl.fin 12]).sigint_in_sleep = true) →
      (main_loop (Dbl.fin 1) (-1) [context_init true]
        (sigint_send_pass [Dbl.fin 12] :: [quiet_pass [Dbl.fin 13]])).how = LoopEnd.left ∧
      (main_loop (Dbl.fin 1) (-1) [context_init true]
        (sigint_send_pass [Dbl.fin 12] :: [quiet_pass [Dbl.fin 13]])).contexts
        = update_hosts (Dbl.fin 1) [context_init true] (sigint_send_pass [Dbl.fin 12]).latencies ∧
      (main_loop (Dbl.fin 1) (-1) [context_init true]
        (sigint_send_pass [Dbl.fin 12] :: [quiet_pass [Dbl.fin 13]])).trace.take 3
        = [Event.begin_round, Event.send, Event.aggregate] ∧
      sends (main_loop (Dbl.fin 1) (-1) [context_init true]
        (sigint_send_pass [Dbl.fin 12] :: [quiet_pass [Dbl.fin 13]])).trace = 1) ∧
    ((sigint_send_pass [Dbl.fin 12]).send = SendStatus.eintr →
      (sigint_send_pass [Dbl.fin 12]).sigint_in_send = false →
      main_loop (Dbl.fin 1) (-1) [context_init true]
          (sigint_send_pass [Dbl.fin 12] :: [quiet_pass [Dbl.fin 13]])
        = (main_loop (Dbl.fin 1) (-1) [context_init true] [quiet_pass [Dbl.fin 13]]).prepend
            [Event.begin_round, Event.send]) ∧
    ((sigint_send_pass [Dbl.fin 12]).send = SendStatus.eintr →
      (sigint_send_pass [Dbl.fin 12]).sigint_in_send = true →
      main_loop (Dbl.fin 1) (-1) [context_init true]
          (sigint_send_pass [Dbl.fin 12] :: [quiet_pass [Dbl.fin 13]])
        = ⟨LoopEnd.left, 0, [context_init true], [Event.begin_round, Event.send]⟩) :=
  stop_signal_during_round (Dbl.fin 1) (-1) (by decide) [context_init true]
    (sigint_send_pass [Dbl.fin 12]) [quiet_pass [Dbl.fin 13]] rfl

/-- C15 as stated fails when the stop signal interrupts the probe issuance: in
an unbounded run with one target, a first pass in which `SIGINT` is handled
during `ping_send`, which returns `-EINTR`, ends the loop at its test: the
issuance is not retried although the environment would let a second pass run,
no round is aggregated and the context of the target is untouched. -/
theorem stop_signal_preempts_interrupted_send :
    (sigint_send_pass [Dbl.fin 12]).begin_ok = true ∧
    (sigint_send_pass [Dbl.fin 12]).sigint_in_send = true ∧
    (sigint_send_pass [Dbl.fin 12]).send = SendStatus.eintr ∧
    main_loop (Dbl.fin 1) (-1) [context_init true]
        [sigint_send_pass [Dbl.fin 12], quiet_pass [Dbl.fin 13]]
      = ⟨LoopEnd.left, 0, [context_init true], [Event.begin_round, Event.send]⟩ ∧
    rounds (main_loop (Dbl.fin 1) (-1) [context_init true]
        [sigint_send_pass [Dbl.fin 12], quiet_pass [Dbl.fin 13]]).trace = 0 ∧
    sends (main_loop (Dbl.fin 1) (-1) [context_init true]
        [sigint_send_pass [Dbl.fin 12], quiet_pass [Dbl.fin 13]]).trace = 1 := by
  have h := main_loop_eintr_stop (Dbl.fin 1) (-1) (by decide) [context_init true]
    (sigint_send_pass [Dbl.fin 12]) [quiet_pass [Dbl.fin 13]] rfl rfl rfl
  refine ⟨rfl, rfl, rfl, h, ?_, ?_⟩
  · rw [h]; rfl
  · rw [h]; rfl

/-! ## C17: failures while the ping object is set up -/

theorem main_setup_construct_ok (env : SetupEnv) (hc : env.construct_ok = true) :
    (main_setup env).2 = none := by
  simp [main_setup, hc]

/-- C17 (amended): when `ping_construct` fails, `main` reports it and returns 1
before any round.  When an option cannot be set, `main` does not abort: it
goes on after printing a message for the TTL, the QoS, the source address or
the device, and prints nothing for the address family, whose `ping_setopt`
result is not looked at. -/
theorem setup_failures :
    (∀ env : SetupEnv, env.construct_ok = false →
      main_setup env = ([SetupMessage.construct_failed], some 1)) ∧
    (∀ env : SetupEnv, env.construct_ok = true → (main_setup env).2 = none) ∧
    (∀ env : SetupEnv, env.construct_ok = true →
      (SetupMessage.ttl_failed ∈ (main_setup env).1 ↔ env.setopt_ttl ≠ 0) ∧
      (SetupMessage.tos_failed ∈ (main_setup env).1 ↔ env.setopt_qos ≠ 0) ∧
      (SetupMessage.source_failed ∈ (main_setup env).1 ↔
        (env.srcaddr_given = true ∧ env.setopt_source ≠ 0)) ∧
      (SetupMessage.device_failed ∈ (main_setup env).1 ↔
        (env.device_given = true ∧ env.setopt_device ≠ 0))) ∧
    (∀ (env : SetupEnv) (given : Bool) (status : Int),
      main_setup { env with addrfamily_given := given, setopt_af := status } = main_setup env) := by
  refine ⟨?_, main_setup_construct_ok, ?_, ?_⟩
  · intro env hc
    simp [main_setup, hc]
  · intro env hc
    simp only [main_setup, hc, Bool.true_eq_false, if_false]
    refine ⟨?_, ?_, ?_, ?_⟩ <;>
      by_cases h1 : env.setopt_ttl = 0 <;> by_cases h2 : env.setopt_qos = 0 <;>
      by_cases h3 : env.srcaddr_given = true <;> by_cases h4 : env.setopt_source = 0 <;>
      by_cases h5 : env.device_given = true <;> by_cases h6 : env.setopt_device = 0 <;>
      simp [h1, h2, h3, h4, h5, h6]
  · intro env given status
    rfl

/-- C17 as stated fails: with a ping object constructed and every
`ping_setopt` call failing (TTL, QoS, address family, source address, device),
`main` prints four messages and goes on to add the hosts; it does not abort. -/
theorem setopt_failure_not_fatal :
    main_setup
        { construct_ok := true
          setopt_ttl := -1
          setopt_qos := -1
          addrfamily_given := true
          setopt_af := -1
          srcaddr_given := true
          setopt_source := -1
          device_given := true
          setopt_device := -1 }
      = ([SetupMessage.ttl_failed, SetupMessage.tos_failed, SetupMessage.source_failed,
          SetupMessage.device_failed], none) := by
  decide

/-! ## The sparkline -/

theorem graph_intensity_lt (opt_interval : Dbl) (symbols_num colors_num : Nat) (latency : Dbl)
    (h : 0 < symbols_num * colors_num) :
    graph_intensity opt_interval symbols_num colors_num latency < symbols_num * colors_num := by
  unfold graph_intensity
  simp only
  split_ifs <;> omega

theorem Dbl.lit_milli :
    Dbl.lit (1 / 1000) = Dbl.fin (1152921504606847 / 1152921504606846976) := by decide!

/-- The ratio of a latency that is not negative to a positive interval is a
finite value between 0 and 1. -/
theorem graph_ratio_fin (latency interval : ℚ) (hl : 0 ≤ latency) (hi : 0 < interval) :
    ∃ r : ℚ, graph_ratio (Dbl.fin interval) (Dbl.fin latency) = Dbl.fin r ∧ 0 ≤ r ∧ r ≤ 1 := by
  unfold graph_ratio
  simp only
  rw [Dbl.lit_milli, Dbl.mul64_nonneg _ _ hl (by norm_num)]
  rcases Dbl.round_nonneg_cases (latency * (1152921504606847 / 1152921504606846976))
    (by positivity) with h | ⟨a, ha, h⟩
  · rw [h]
    have hinf : Dbl.div64 Dbl.pinf (Dbl.fin interval) = Dbl.pinf := by
      simp [Dbl.div64, Dbl.isNaN, Dbl.isInf, Dbl.inf, Dbl.signbit, not_lt.mpr hi.le]
    rw [hinf]
    exact ⟨1, by simp [Dbl.gt, Dbl.lt], by norm_num, le_refl _⟩
  · rw [h, Dbl.div64_nonneg_pos _ _ ha hi]
    rcases Dbl.round_nonneg_cases (a / interval) (by positivity) with h2 | ⟨b, hb, h2⟩
    · rw [h2]
      exact ⟨1, by simp [Dbl.gt, Dbl.lt], by norm_num, le_refl _⟩
    · rw [h2, Dbl.gt_fin_fin]
      by_cases hgt : 1 < b
      · exact ⟨1, by simp [hgt], by norm_num, le_refl _⟩
      · exact ⟨b, by simp [hgt], hb, not_lt.mp hgt⟩

/-- The product of a ratio in `[0, 1]` and a count is finite and between 0 and
the count. -/
theorem graph_product_fin (r : ℚ) (n : Nat) (hr0 : 0 ≤ r) (hr1 : r ≤ 1) (hn : n < 2 ^ 53) :
    ∃ P : ℚ, Dbl.mul64 (Dbl.fin r) (Dbl.ofInt (n : Int)) = Dbl.fin P ∧ 0 ≤ P ∧ P ≤ (n : ℚ) := by
  unfold Dbl.ofInt
  simp only [Int.cast_natCast]
  have hn0 : (0 : ℚ) ≤ (n : ℚ) := Nat.cast_nonneg n
  rw [Dbl.mul64_nonneg _ _ hr0 hn0]
  have hle : r * (n : ℚ) ≤ (n : ℚ) := by nlinarith
  obtain ⟨h1, h2, h3⟩ := Dbl.round_le_nat (r * n) n (by positivity) hn hle
  exact ⟨_, h1, h2, h3⟩

theorem graph_intensity_spec (latency interval : ℚ) (levels tiers : Nat)
    (hl : 0 ≤ latency) (hi : 0 < interval) (hpos : 0 < levels * tiers)
    (hsmall : levels * tiers < 2 ^ 53) :
    ∃ ratio product : ℚ,
      graph_ratio (Dbl.fin interval) (Dbl.fin latency) = Dbl.fin ratio ∧
      0 ≤ ratio ∧ ratio ≤ 1 ∧
      Dbl.mul64 (Dbl.fin ratio) (Dbl.ofInt ((levels * tiers : Nat) : Int)) = Dbl.fin product ∧
      0 ≤ product ∧ product ≤ ((levels * tiers : Nat) : ℚ) ∧
      graph_intensity (Dbl.fin interval) levels tiers (Dbl.fin latency)
        = min (Int.toNat (Int.floor product)) (levels * tiers - 1) := by
  obtain ⟨r, hr, hr0, hr1⟩ := graph_ratio_fin latency interval hl hi
  obtain ⟨P, hP, hP0, hP1⟩ := graph_product_fin r (levels * tiers) hr0 hr1 hsmall
  refine ⟨r, P, hr, hr0, hr1, hP, hP0, hP1, ?_⟩
  unfold graph_intensity
  simp only
  rw [hr, hP]
  have hb : (((levels * tiers : Nat) : ℚ)) < 2 ^ 64 := by
    have : levels * tiers < 2 ^ 64 := lt_trans hsmall (by norm_num)
    exact_mod_cast this
  have hrange : -1 < P ∧ P < 2 ^ 64 := ⟨by linarith, lt_of_le_of_lt hP1 hb⟩
  simp only [Dbl.toSizeT, if_pos hrange]
  generalize Int.toNat (Int.floor P) = k
  simp only [min_def]
  split_ifs <;> omega

theorem hist_symbols_utf8_ne_bang : ∀ s ∈ hist_symbols_utf8, s ≠ "!" := by decide

/-- Whenever the slot can be computed, `update_prettyping_graph` draws a glyph
and returns 0: both `assert`s hold and both table reads are in bounds. -/
theorem update_prettyping_graph_drawn (opt_interval : Dbl) (has_utf8 has_colors : Bool)
    (x_max : Int) (latency : Dbl) (sequence : Nat)
    (hdiv : ((x_max - 4) % 4294967296).toNat ≠ 0) :
    ∃ cell, update_prettyping_graph opt_interval has_utf8 has_colors x_max latency sequence
        = graph_result.drawn cell 0 ∧
      cell.x_pos = to_int ((((sequence + 4294967295) % 4294967296)
        % ((x_max - 4) % 4294967296).toNat + 2) % 4294967296) ∧
      cell.bold = !(Dbl.ge latency (Dbl.fin 0)) ∧
      (Dbl.ge latency (Dbl.fin 0) = false →
        cell.symbol = if has_utf8 then graph_symbol.text "!"
          else graph_symbol.character 33 false) ∧
      (Dbl.ge latency (Dbl.fin 0) = true →
        cell.symbol ≠ graph_symbol.text "!" ∧
        cell.symbol ≠ graph_symbol.character 33 false) := by
  unfold update_prettyping_graph
  simp only [hdiv, if_false]
  by_cases hge : Dbl.ge latency (Dbl.fin 0) = true
  · simp only [hge, if_true]
    have hT : (if has_colors = true then hist_colors_num else 1) ≤ 3 ∧
        0 < (if has_colors = true then hist_colors_num else 1) := by
      cases has_colors <;> simp [hist_colors_num, hist_colors_utf8]
    generalize (if has_colors = true then hist_colors_num else 1) = T at hT ⊢
    cases has_utf8
    · simp only [Bool.false_eq_true, if_false]
      have h5 : hist_symbols_acs_num = 5 := rfl
      rw [h5]
      have hlt := graph_intensity_lt opt_interval 5 T latency (by omega)
      generalize graph_intensity opt_interval 5 T latency = n at hlt ⊢
      have h1 : n % 5 < 5 := Nat.mod_lt _ (by norm_num)
      have h2 : n / 5 < T :=
        (Nat.div_lt_iff_lt_mul (Nat.succ_pos 4)).mpr (by omega)
      have hc : n / 5 < hist_colors_acs.length := by
        have : hist_colors_acs.length = 3 := rfl
        omega
      have hs : n % 5 < hist_symbols_acs.length := by
        have : hist_symbols_acs.length = 5 := rfl
        omega
      simp only [h1, h2, not_true, if_false, List.getElem?_eq_getElem hc,
        List.getElem?_eq_getElem hs]
      refine ⟨_, rfl, ?_, ?_, fun h => ?_, fun _ => ⟨?_, ?_⟩⟩
      · simp only
      · simp only [Bool.not_true]
      · cases h
      · intro hcon; cases hcon
      · intro hcon
        have := (graph_symbol.character.inj hcon).2
        cases this
    · simp only [if_true]
      have h8 : hist_symbols_utf8_num = 8 := rfl
      rw [h8]
      have hlt := graph_intensity_lt opt_interval 8 T latency (by omega)
      generalize graph_intensity opt_interval 8 T latency = n at hlt ⊢
      have h1 : n % 8 < 8 := Nat.mod_lt _ (by norm_num)
      have h2 : n / 8 < T :=
        (Nat.div_lt_iff_lt_mul (Nat.succ_pos 7)).mpr (by omega)
      have hc : n / 8 < hist_colors_utf8.length := by
        have : hist_colors_utf8.length = 3 := rfl
        omega
      have hs : n % 8 < hist_symbols_utf8.length := by
        have : hist_symbols_utf8.length = 8 := rfl
        omega
      simp only [h1, h2, not_true, if_false, List.getElem?_eq_getElem hc,
        List.getElem?_eq_getElem hs]
      refine ⟨_, rfl, ?_, ?_, fun h => ?_, fun _ => ⟨?_, ?_⟩⟩
      · simp only
      · simp only [Bool.not_true]
      · cases h
      · intro hcon
        have hmem : hist_symbols_utf8[n % 8] ∈ hist_symbols_utf8 := List.getElem_mem hs
        exact hist_symbols_utf8_ne_bang _ hmem (graph_symbol.text.inj hcon)
      · intro hcon; cases hcon
  · have hf : Dbl.ge latency (Dbl.fin 0) = false := by simpa using hge
    simp [hf]


theorem graph_divisor (w : Int) (hw : 4 < w) (hw' : w ≤ 2147483647) :
    ((w - 4) % 4294967296).toNat = (w - 4).toNat ∧ (w - 4).toNat ≠ 0 := by
  have h : (w - 4) % 4294967296 = w - 4 := Int.emod_eq_of_lt (by omega) (by omega)
  rw [h]
  exact ⟨rfl, by omega⟩

/-- The glyph drawn for a latency that is not negative: column, attributes,
colour pair and symbol. -/
theorem update_prettyping_graph_cell (opt_interval : Dbl) (has_utf8 has_colors : Bool)
    (x_max : Int) (latency : Dbl) (sequence : Nat)
    (hdiv : ((x_max - 4) % 4294967296).toNat ≠ 0) (hge : Dbl.ge latency (Dbl.fin 0) = true) :
    update_prettyping_graph opt_interval has_utf8 has_colors x_max latency sequence
      = graph_result.drawn
          { x_pos := to_int ((((sequence + 4294967295) % 4294967296)
              % ((x_max - 4) % 4294967296).toNat + 2) % 4294967296)
            bold := false
            color_pair :=
              if has_colors then
                some (graph_color has_utf8
                  (graph_intensity opt_interval (graph_levels has_utf8) (graph_tiers has_colors)
                    latency / graph_levels has_utf8))
              else none
            symbol := graph_glyph has_utf8
              (graph_intensity opt_interval (graph_levels has_utf8) (graph_tiers has_colors)
                latency % graph_levels has_utf8) } 0 := by
  have hL : (if has_utf8 = true then hist_symbols_utf8_num else hist_symbols_acs_num)
      = graph_levels has_utf8 := by cases has_utf8 <;> rfl
  have hT : (if has_colors = true then hist_colors_num else 1) = graph_tiers has_colors := by
    cases has_colors <;> rfl
  have hLpos : 0 < graph_levels has_utf8 := by cases has_utf8 <;> decide
  have hT3 : graph_tiers has_colors ≤ 3 := by cases has_colors <;> decide
  have hlt := graph_intensity_lt opt_interval (graph_levels has_utf8) (graph_tiers has_colors)
    latency (by cases has_utf8 <;> cases has_colors <;> decide)
  unfold update_prettyping_graph
  simp only [hdiv, if_false, hge, if_true, hL, hT]
  generalize graph_intensity opt_interval (graph_levels has_utf8) (graph_tiers has_colors)
    latency = n at hlt ⊢
  have h1 : n % graph_levels has_utf8 < graph_levels has_utf8 := Nat.mod_lt _ hLpos
  have h2 : n / graph_levels has_utf8 < graph_tiers has_colors :=
    (Nat.div_lt_iff_lt_mul hLpos).mpr (by rw [Nat.mul_comm]; exact hlt)
  simp only [h1, h2, not_true, if_false]
  cases has_utf8
  · have hs : n % graph_levels false < hist_symbols_acs.length := h1
    have hc : n / graph_levels false < hist_colors_acs.length := lt_of_lt_of_le h2 hT3
    simp only [Bool.false_eq_true, if_false, List.getElem?_eq_getElem hc,
      List.getElem?_eq_getElem hs, graph_glyph, graph_color, List.getD_eq_getElem _ _ hc,
      List.getD_eq_getElem _ _ hs]
  · have hs : n % graph_levels true < hist_symbols_utf8.length := h1
    have hc : n / graph_levels true < hist_colors_utf8.length := lt_of_lt_of_le h2 hT3
    simp only [if_true, List.getElem?_eq_getElem hc,
      List.getElem?_eq_getElem hs, graph_glyph, graph_color, List.getD_eq_getElem _ _ hc,
      List.getD_eq_getElem _ _ hs]

/-! ## C18: glyph and colour indices -/

/-- C18 (amended): for every latency >= 0, interval > 0, `levels` in {5, 8}
(without and with UTF-8) and `tiers` in {1, 3} (without and with colours), let
`ratio` be the binary64 value of `(latency * 0.001) / interval`, replaced by 1
when it is above 1, and `product` the binary64 value of
`ratio * (levels * tiers)`.  Both are finite, `0 <= ratio <= 1` and
`0 <= product <= levels * tiers`; the intensity computed by
`update_prettyping_graph` is `min (floor product, levels * tiers - 1)`, the
glyph index `intensity mod levels` is below `levels` and the tier index
`intensity div levels` is below `tiers`, so that both assertions hold and both
table reads are in bounds; and in a window more than 4 columns wide the function
returns 0 after it has drawn, not bold, entry `intensity mod levels` of the
glyph table, in the colour pair at entry `intensity div levels` of the colour
table when the terminal has colours. -/
theorem glyph_and_tier_in_bounds (latency interval : ℚ) (has_utf8 has_colors : Bool)
    (hl : 0 ≤ latency) (hi : 0 < interval) :
    (if has_utf8 then hist_symbols_utf8_num else hist_symbols_acs_num) = graph_levels has_utf8 ∧
    (if has_colors then hist_colors_num else 1) = graph_tiers has_colors ∧
    (graph_levels has_utf8 = 5 ∨ graph_levels has_utf8 = 8) ∧
    (graph_tiers has_colors = 1 ∨ graph_tiers has_colors = 3) ∧
    (∃ ratio product : ℚ,
      graph_ratio (Dbl.fin interval) (Dbl.fin latency) = Dbl.fin ratio ∧
      0 ≤ ratio ∧ ratio ≤ 1 ∧
      Dbl.mul64 (Dbl.fin ratio)
          (Dbl.ofInt ((graph_levels has_utf8 * graph_tiers has_colors : Nat) : Int))
        = Dbl.fin product ∧
      0 ≤ product ∧
      product ≤ ((graph_levels has_utf8 * graph_tiers has_colors : Nat) : ℚ) ∧
      graph_intensity (Dbl.fin interval) (graph_levels has_utf8) (graph_tiers has_colors)
          (Dbl.fin latency)
        = min (Int.toNat (Int.floor product))
            (graph_levels has_utf8 * graph_tiers has_colors - 1)) ∧
    graph_intensity (Dbl.fin interval) (graph_levels has_utf8) (graph_tiers has_colors)
        (Dbl.fin latency) % graph_levels has_utf8 < graph_levels has_utf8 ∧
    graph_intensity (Dbl.fin interval) (graph_levels has_utf8) (graph_tiers has_colors)
        (Dbl.fin latency) / graph_levels has_utf8 < graph_tiers has_colors ∧
    (∀ (x_max : Int) (sequence : Nat), 4 < x_max → x_max ≤ 2147483647 →
      update_prettyping_graph (Dbl.fin interval) has_utf8 has_colors x_max
          (Dbl.fin latency) sequence
        = graph_result.drawn
            { x_pos := to_int ((((sequence + 4294967295) % 4294967296)
                % ((x_max - 4) % 4294967296).toNat + 2) % 4294967296)
              bold := false
              color_pair :=
                if has_colors then
                  some (graph_color has_utf8
                    (graph_intensity (Dbl.fin interval) (graph_levels has_utf8)
                      (graph_tiers has_colors) (Dbl.fin latency) / graph_levels has_utf8))
                else none
              symbol := graph_glyph has_utf8
                (graph_intensity (Dbl.fin interval) (graph_levels has_utf8)
                  (graph_tiers has_colors) (Dbl.fin latency) % graph_levels has_utf8) } 0) := by
  have hL : 0 < graph_levels has_utf8 := by cases has_utf8 <;> decide
  have hLT : 0 < graph_levels has_utf8 * graph_tiers has_colors := by
    cases has_utf8 <;> cases has_colors <;> decide
  have hsmall : graph_levels has_utf8 * graph_tiers has_colors < 2 ^ 53 := by
    cases has_utf8 <;> cases has_colors <;> decide
  have hlt := graph_intensity_lt (Dbl.fin interval) (graph_levels has_utf8)
    (graph_tiers has_colors) (Dbl.fin latency) hLT
  refine ⟨by cases has_utf8 <;> rfl, by cases has_colors <;> rfl,
    by cases has_utf8 <;> simp [graph_levels], by cases has_colors <;> simp [graph_tiers],
    graph_intensity_spec latency interval _ _ hl hi hLT hsmall,
    Nat.mod_lt _ hL, (Nat.div_lt_iff_lt_mul hL).mpr (by rw [Nat.mul_comm]; exact hlt), ?_⟩
  intro x_max sequence hw hw'
  have hd := graph_divisor x_max hw hw'
  exact update_prettyping_graph_cell (Dbl.fin interval) has_utf8 has_colors x_max
    (Dbl.fin latency) sequence (by rw [hd.1]; exact hd.2)
    (by rw [Dbl.ge_fin_fin]; simp [hl])

theorem glyph_and_tier_in_bounds_witness :
    (if true then hist_symbols_utf8_num else hist_symbols_acs_num) = graph_levels true ∧
    (if true then hist_colors_num else 1) = graph_tiers true ∧
    (graph_levels true = 5 ∨ graph_levels true = 8) ∧
    (graph_tiers true = 1 ∨ graph_tiers true = 3) ∧
    (∃ ratio product : ℚ,
      graph_ratio (Dbl.fin 1) (Dbl.fin 500) = Dbl.fin ratio ∧
      0 ≤ ratio ∧ ratio ≤ 1 ∧
      Dbl.mul64 (Dbl.fin ratio) (Dbl.ofInt ((graph_levels true * graph_tiers true : Nat) : Int))
        = Dbl.fin product ∧
      0 ≤ product ∧
      product ≤ ((graph_levels true * graph_tiers true : Nat) : ℚ) ∧
      graph_intensity (Dbl.fin 1) (graph_levels true) (graph_tiers true) (Dbl.fin 500)
        = min (Int.toNat (Int.floor product)) (graph_levels true * graph_tiers true - 1)) ∧
    graph_intensity (Dbl.fin 1) (graph_levels true) (graph_tiers true) (Dbl.fin 500)
      % graph_levels true < graph_levels true ∧
    graph_intensity (Dbl.fin 1) (graph_levels true) (graph_tiers true) (Dbl.fin 500)
      / graph_levels true < graph_tiers true ∧
    (∀ (x_max : Int) (sequence : Nat), 4 < x_max → x_max ≤ 2147483647 →
      update_prettyping_graph (Dbl.fin 1) true true x_max (Dbl.fin 500) sequence
        = graph_result.drawn
            { x_pos := to_int ((((sequence + 4294967295) % 4294967296)
                % ((x_max - 4) % 4294967296).toNat + 2) % 4294967296)
              bold := false
              color_pair :=
                if true then
                  some (graph_color true
                    (graph_intensity (Dbl.fin 1) (graph_levels true) (graph_tiers true)
                      (Dbl.fin 500) / graph_levels true))
                else none
              symbol := graph_glyph true
                (graph_intensity (Dbl.fin 1) (graph_levels true) (graph_tiers true)
                  (Dbl.fin 500) % graph_levels true) } 0) :=
  glyph_and_tier_in_bounds 500 1 true true (by norm_num) (by norm_num)

/-- C18 as stated, with the ratio and the product of real numbers, fails: for a
latency of 600 ms at an interval of 3 s, without UTF-8 and with colours
(5 levels, 3 tiers), `ratio * levels * tiers` is 3 and the formula of the claim
gives intensity 3, glyph 3 of the table.  The code computes `600.0 * 0.001`,
divides by `3.0` and multiplies by `15.0` in binary64; the product is
`2.9999999999999996`, the intensity is 2 and glyph 2 (scancode 113) is drawn
where the claim has glyph 3 (scancode 112). -/
theorem graph_intensity_not_exact :
    graph_levels false = 5 ∧ graph_tiers true = 3 ∧
    min (Int.toNat (Int.floor
          (min 1 ((600 : ℚ) / 1000 / 3) * ((graph_levels false : ℚ) * (graph_tiers true : ℚ)))))
        (graph_levels false * graph_tiers true - 1) = 3 ∧
    graph_ratio (Dbl.fin 3) (Dbl.fin 600) = Dbl.fin (7205759403792793 / 36028797018963968) ∧
    Dbl.mul64 (Dbl.fin (7205759403792793 / 36028797018963968))
        (Dbl.ofInt ((graph_levels false * graph_tiers true : Nat) : Int))
      = Dbl.fin (6755399441055743 / 2251799813685248) ∧
    graph_intensity (Dbl.fin 3) (graph_levels false) (graph_tiers true) (Dbl.fin 600) = 2 ∧
    update_prettyping_graph (Dbl.fin 3) false true 80 (Dbl.fin 600) 1
      = graph_result.drawn ⟨2, false, some OPING_GREEN, graph_symbol.character 113 true⟩ 0 ∧
    hist_symbols_acs.getD 3 0 = 112 := by
  refine ⟨rfl, rfl, ?_, by decide!, by decide!, by decide!, by decide!, rfl⟩
  have h : min 1 ((600 : ℚ) / 1000 / 3) * (((graph_levels false : Nat) : ℚ)
      * ((graph_tiers true : Nat) : ℚ)) = 3 := by
    simp only [graph_levels, graph_tiers]
    norm_num
  rw [h]
  simp [graph_levels, graph_tiers]

/-! ## C19: the slot of a round -/

theorem graph_slot_value (w : Int) (s : Nat) (hw : 4 < w) (hw' : w ≤ 2147483647)
    (hs : 1 ≤ s) (hs' : s < 4294967296) :
    to_int ((((s + 4294967295) % 4294967296) % ((w - 4) % 4294967296).toNat + 2) % 4294967296)
      = ((s : Int) - 1) % (w - 4) + 2 := by
  obtain ⟨hd, hd0⟩ := graph_divisor w hw hw'
  rw [hd]
  have hs1 : (s + 4294967295) % 4294967296 = s - 1 := by omega
  rw [hs1]
  have hdlt : (w - 4).toNat < 2147483644 := by omega
  have hm : (s - 1) % (w - 4).toNat < (w - 4).toNat := Nat.mod_lt _ (by omega)
  have hsmall : (s - 1) % (w - 4).toNat + 2 < 2147483648 := by omega
  rw [Nat.mod_eq_of_lt (by omega)]
  unfold to_int
  rw [if_pos hsmall]
  push_cast
  have hc1 : ((s - 1 : Nat) : Int) = (s : Int) - 1 := by omega
  have hc2 : (((w - 4).toNat : Nat) : Int) = w - 4 := Int.toNat_of_nonneg (by omega)
  rw [hc1, hc2]

theorem graph_slot_x_pos (opt_interval : Dbl) (has_utf8 has_colors : Bool) (latency : Dbl)
    (w : Int) (s : Nat) (hw : 4 < w) (hw' : w ≤ 2147483647)
    (hs : 1 ≤ s) (hs' : s < 4294967296) :
    (update_prettyping_graph opt_interval has_utf8 has_colors w latency s).x_pos?
      = some (((s : Int) - 1) % (w - 4) + 2) := by
  have hd := graph_divisor w hw hw'
  obtain ⟨cell, hcell, hx, _⟩ := update_prettyping_graph_drawn opt_interval has_utf8 has_colors
    w latency s (by rw [hd.1]; exact hd.2)
  rw [hcell, graph_result.x_pos?, hx, graph_slot_value w s hw hw' hs hs']

/-- C19: for every panel width `w > 4` and every sequence number `s >= 1`,
`update_prettyping_graph` draws the glyph of the round at column
`((s - 1) mod (w - 4)) + 2`, which lies in `[2, w - 3]`; two rounds whose
sequence numbers differ by a multiple of `w - 4` are drawn at the same column. -/
theorem graph_slot (opt_interval : Dbl) (has_utf8 has_colors : Bool) (latency : Dbl)
    (w : Int) (s : Nat) (hw : 4 < w) (hw' : w ≤ 2147483647)
    (hs : 1 ≤ s) (hs' : s < 4294967296) :
    (update_prettyping_graph opt_interval has_utf8 has_colors w latency s).x_pos?
      = some (((s : Int) - 1) % (w - 4) + 2) ∧
    2 ≤ ((s : Int) - 1) % (w - 4) + 2 ∧
    ((s : Int) - 1) % (w - 4) + 2 ≤ w - 3 ∧
    ∀ (latency' : Dbl) (s' : Nat) (k : Int), 1 ≤ s' → s' < 4294967296 →
      (s' : Int) = (s : Int) + k * (w - 4) →
      (update_prettyping_graph opt_interval has_utf8 has_colors w latency' s').x_pos?
        = (update_prettyping_graph opt_interval has_utf8 has_colors w latency s).x_pos? := by
  have h0 : 0 ≤ ((s : Int) - 1) % (w - 4) := Int.emod_nonneg _ (by omega)
  have h1 : ((s : Int) - 1) % (w - 4) < w - 4 := Int.emod_lt_of_pos _ (by omega)
  refine ⟨graph_slot_x_pos opt_interval has_utf8 has_colors latency w s hw hw' hs hs',
    by omega, by omega, ?_⟩
  intro latency' s' k hs1 hs2 hk
  rw [graph_slot_x_pos opt_interval has_utf8 has_colors latency' w s' hw hw' hs1 hs2,
    graph_slot_x_pos opt_interval has_utf8 has_colors latency w s hw hw' hs hs', hk]
  have : (s : Int) + k * (w - 4) - 1 = ((s : Int) - 1) + k * (w - 4) := by ring
  rw [this, Int.add_mul_emod_self]

theorem graph_slot_witness :
    (update_prettyping_graph (Dbl.fin 1) true true 80 (Dbl.fin 12) 100).x_pos?
      = some ((((100 : Nat) : Int) - 1) % (80 - 4) + 2) ∧
    2 ≤ (((100 : Nat) : Int) - 1) % (80 - 4) + 2 ∧
    (((100 : Nat) : Int) - 1) % (80 - 4) + 2 ≤ 80 - 3 ∧
    ∀ (latency' : Dbl) (s' : Nat) (k : Int), 1 ≤ s' → s' < 4294967296 →
      (s' : Int) = ((100 : Nat) : Int) + k * (80 - 4) →
      (update_prettyping_graph (Dbl.fin 1) true true 80 latency' s').x_pos?
        = (update_prettyping_graph (Dbl.fin 1) true true 80 (Dbl.fin 12) 100).x_pos? :=
  graph_slot (Dbl.fin 1) true true (Dbl.fin 12) 80 100 (by decide) (by decide) (by decide)
    (by decide)

/-! ## C20: the timeout mark and the received count -/

theorem Dbl.ge_zero_of_gt_zero (x : Dbl) (h : Dbl.isZero x = false) :
    Dbl.ge x (Dbl.fin 0) = Dbl.gt x (Dbl.fin 0) := by
  cases x with
  | nan => rfl
  | pinf => rfl
  | ninf => rfl
  | nzero => simp [Dbl.isZero] at h
  | fin q =>
    have hq : q ≠ 0 := by simpa [Dbl.isZero] using h
    rw [Dbl.ge_fin_fin, Dbl.gt_fin_fin]
    by_cases hpos : 0 < q
    · simp [hpos, hpos.le]
    · have : ¬ 0 ≤ q := fun hle => hq (le_antisymm (not_lt.mp hpos) hle)
      simp [hpos, this]

theorem graph_timeout_iff (opt_interval : Dbl) (has_utf8 has_colors : Bool) (x_max : Int)
    (latency : Dbl) (sequence : Nat) (hdiv : ((x_max - 4) % 4294967296).toNat ≠ 0) :
    (update_prettyping_graph opt_interval has_utf8 has_colors x_max latency sequence).is_timeout
      = !(Dbl.ge latency (Dbl.fin 0)) := by
  obtain ⟨cell, hcell, _, hbold, hsym, hnsym⟩ := update_prettyping_graph_drawn opt_interval
    has_utf8 has_colors x_max latency sequence hdiv
  rw [hcell]
  simp only [graph_result.is_timeout, hbold]
  by_cases hge : Dbl.ge latency (Dbl.fin 0) = true
  · simp [hge]
  · have hf : Dbl.ge latency (Dbl.fin 0) = false := by simpa using hge
    rw [hsym hf, hf]
    cases has_utf8 <;> simp


/-- C20 fails on the code at latency 0.0: `update_host_hook` tests
`latency > 0.0` and counts the sample as lost (`req_sent` becomes 1, `req_rcvd`
stays 0), while `update_prettyping_graph` tests `latency >= 0.0` and draws the
lowest shade, not the bold `!`.  For every other value, NaN, the infinities and
negative values included, the two tests agree: the bold `!` is drawn exactly
when the sample is not counted as received. -/
theorem zero_latency_not_timeout_glyph :
    (update_host_hook (Dbl.fin 1) (context_init true) (Dbl.fin 0)).req_sent = 1 ∧
    (update_host_hook (Dbl.fin 1) (context_init true) (Dbl.fin 0)).req_rcvd = 0 ∧
    update_prettyping_graph (Dbl.fin 1) true true 80 (Dbl.fin 0) 1
      = graph_result.drawn ⟨2, false, some OPING_GREEN_HIST, graph_symbol.text "▁"⟩ 0 ∧
    (update_prettyping_graph (Dbl.fin 1) true true 80 (Dbl.fin 0) 1).is_timeout = false ∧
    (∀ (opt_interval : Dbl) (has_utf8 has_colors : Bool) (x_max : Int) (latency : Dbl)
        (sequence : Nat) (ctx : ping_context_t),
      ((x_max - 4) % 4294967296).toNat ≠ 0 → Dbl.isZero latency = false →
      ((update_prettyping_graph opt_interval has_utf8 has_colors x_max latency
          sequence).is_timeout = true ↔
        (update_host_hook opt_interval ctx latency).req_rcvd = ctx.req_rcvd)) := by
  refine ⟨by decide!, by decide!, by decide!, by decide!, ?_⟩
  intro opt_interval has_utf8 has_colors x_max latency sequence ctx hdiv hz
  rw [graph_timeout_iff opt_interval has_utf8 has_colors x_max latency sequence hdiv,
    Dbl.ge_zero_of_gt_zero latency hz]
  unfold update_host_hook
  simp only
  by_cases hgt : Dbl.gt latency (Dbl.fin 0) = true
  · simp only [hgt, if_true, update_context_req_rcvd]
    simp
  · have hf : Dbl.gt latency (Dbl.fin 0) = false := by simpa using hgt
    simp [hf]

/-! ## C16: a panel too narrow for the graph -/

/-- C16 fails on the code for the sparkline.  `update_boxplot` returns `EINVAL`
and draws nothing when `getmaxx` is at most 4.  `update_prettyping_graph` has no
such test: for a panel 4 columns wide it divides by zero when it computes the
slot, and for a panel 0 to 3 columns wide it computes a slot, draws a glyph and
returns 0 (for 3 columns and sequence number 1, at column 2). -/
theorem narrow_panel_graph :
    (∀ (x_max : Int) (calloc_ok : Bool) (ctx : ping_context_t), 0 ≤ x_max → x_max ≤ 4 →
      update_boxplot x_max calloc_ok ctx = boxplot_result.failed EINVAL) ∧
    (∀ (opt_interval : Dbl) (has_utf8 has_colors : Bool) (latency : Dbl) (sequence : Nat),
      update_prettyping_graph opt_interval has_utf8 has_colors 4 latency sequence
        = graph_result.undefined) ∧
    (∀ (opt_interval : Dbl) (has_utf8 has_colors : Bool) (x_max : Int) (latency : Dbl)
        (sequence : Nat), 0 ≤ x_max → x_max ≤ 3 →
      ∃ cell, update_prettyping_graph opt_interval has_utf8 has_colors x_max latency sequence
        = graph_result.drawn cell 0) ∧
    update_prettyping_graph (Dbl.fin 1) true true 3 (Dbl.fin 12) 1
      = graph_result.drawn ⟨2, false, some OPING_GREEN_HIST, graph_symbol.text "▁"⟩ 0 := by
  refine ⟨?_, ?_, ?_, by decide!⟩
  · intro x_max calloc_ok ctx h0 h4
    have h : (x_max % 2 ^ 64).toNat ≤ 4 := by
      have : x_max % 2 ^ 64 = x_max := Int.emod_eq_of_lt h0 (by norm_num; omega)
      rw [this]
      omega
    unfold update_boxplot
    simp only
    rw [if_pos h]
  · intro opt_interval has_utf8 has_colors latency sequence
    simp [update_prettyping_graph]
  · intro opt_interval has_utf8 has_colors x_max latency sequence h0 h3
    have hdiv : ((x_max - 4) % 4294967296).toNat ≠ 0 := by
      have : (x_max - 4) % 4294967296 = x_max - 4 + 4294967296 := by
        rw [← Int.add_emod_self]
        exact Int.emod_eq_of_lt (by omega) (by omega)
      rw [this]
      omega
    obtain ⟨cell, hcell, _⟩ := update_prettyping_graph_drawn opt_interval has_utf8 has_colors
      x_max latency sequence hdiv
    exact ⟨cell, hcell⟩

/-! ## C21: DSCP names through `set_opt_send_qos` and `format_qos` -/

/-- When the buffer holds the whole text, `format_qos` does not cut it. -/
theorem format_qos_fits (qos n : Nat) (s : String) (h : format_qos qos 16 = some s)
    (hs : s.length ≤ 4) (hn : 5 ≤ n) : format_qos qos n = some s := by
  unfold format_qos at h ⊢
  simp only at h ⊢
  rw [if_neg (by omega)]
  rw [if_neg (by norm_num)] at h
  simp only [Option.some.injEq] at h ⊢
  rw [← h] at hs ⊢
  have hlen : ∀ (l : List Char), (String.mk l).length = l.length := fun l => rfl
  rw [hlen, List.length_take] at hs
  have h2 : ∀ (l : List Char), min (16 - 1) l.length ≤ 4 → l.take (n - 1) = l.take (16 - 1) := by
    intro l hl
    have : l.length ≤ 4 := by
      simp only [min_def] at hl
      split_ifs at hl <;> omega
    rw [List.take_of_length_le (by omega), List.take_of_length_le (by omega)]
  rw [h2 _ hs]

/-- Every DSCP name but `va` is stored and formatted back to itself. -/
theorem qos_round_trip_except_va (name : String) (hname : name ∈ dscp_names)
    (hva : name ≠ "va") (strtoul : String → strtoul_result) (old buffer_size : Nat)
    (hsize : 5 ≤ buffer_size) :
    ∃ qos, set_opt_send_qos strtoul old (some name) = qos_outcome.returned 0 qos ∧
      format_qos qos buffer_size = some name := by
  simp only [dscp_names, List.mem_cons, List.mem_singleton, List.not_mem_nil, or_false] at hname
  rcases hname with h | h | h | h | h | h | h | h | h | h | h | h | h | h | h | h | h | h | h | h | h | h
  all_goals first
    | exact absurd h hva
    | (subst h
       refine ⟨_, rfl, ?_⟩
       exact format_qos_fits _ _ _ (by decide) (by decide) hsize)

/-- C21 fails on the code for the name `va`.  `set_opt_send_qos` stores `0xB0`
for `va`, a byte whose upper six bits are `0x2c`, while `format_qos` has `va` at
`0x2d`: the byte stored for `va` is formatted as `0x2c`, and the byte formatted
as `va` is `0xB4`.  For each of the 21 other names (`be`, `ef`, `af11` to `af43`,
`cs1` to `cs7`) `format_qos` applied to the byte stored returns the name, for
every buffer of at least 5 bytes. -/
theorem va_round_trip_fails :
    (∀ (strtoul : String → strtoul_result) (old : Nat),
      set_opt_send_qos strtoul old (some "va") = qos_outcome.returned 0 0xB0) ∧
    format_qos 0xB0 16 = some "0x2c" ∧
    format_qos 0xB4 16 = some "va" ∧
    (∀ name ∈ dscp_names, name ≠ "va" →
      ∀ (strtoul : String → strtoul_result) (old buffer_size : Nat), 5 ≤ buffer_size →
        ∃ qos, set_opt_send_qos strtoul old (some name) = qos_outcome.returned 0 qos ∧
          format_qos qos buffer_size = some name) :=
  ⟨fun _ _ => rfl, by decide, by decide,
    fun name hname hva strtoul old buffer_size hsize =>
      qos_round_trip_except_va name hname hva strtoul old buffer_size hsize⟩

/-! ## C22: the box plot -/

/-- One pass of the "Downsample" loop leaves the length of the array alone. -/
theorem boxplot_fold_length (hist : List Nat) (size x_max : Nat) (is : List Nat)
    (acc : List Nat) :
    (is.foldl
      (fun acc i =>
        let x := (i * x_max % 2 ^ 64) / size
        acc.set x ((acc.getD x 0 + hist.getD i 0) % 2 ^ 32)) acc).length = acc.length := by
  induction is generalizing acc with
  | nil => rfl
  | cons i is ih =>
    rw [List.foldl_cons, ih]
    simp

/-- Column `x` after the "Downsample" loop over the buckets `is`: what it held
before plus the counters of the buckets that go to it, modulo `2^32`. -/
theorem boxplot_fold_getD (hist : List Nat) (size x_max : Nat) (is : List Nat)
    (acc : List Nat) (x : Nat) (hx : x < acc.length) (hu : acc.getD x 0 < 2 ^ 32) :
    (is.foldl
      (fun acc i =>
        let x := (i * x_max % 2 ^ 64) / size
        acc.set x ((acc.getD x 0 + hist.getD i 0) % 2 ^ 32)) acc).getD x 0
      = (acc.getD x 0 +
          ((is.filter (fun i => decide ((i * x_max % 2 ^ 64) / size = x))).map
            (fun i => hist.getD i 0)).sum) % 2 ^ 32 := by
  induction is generalizing acc with
  | nil =>
    rw [List.foldl_nil, List.filter_nil, List.map_nil, List.sum_nil, Nat.add_zero,
      Nat.mod_eq_of_lt hu]
  | cons i is ih =>
    rw [List.foldl_cons]
    by_cases hc : (i * x_max % 2 ^ 64) / size = x
    · rw [ih _ (by simpa using hx)
        (by simp only [hc]; rw [getD_set_self _ _ _ hx]; exact Nat.mod_lt _ (by norm_num))]
      simp only [hc]
      rw [getD_set_self _ _ _ hx, List.filter_cons_of_pos (by simpa using hc), List.map_cons,
        List.sum_cons]
      omega
    · rw [ih _ (by simpa using hx)
        (by simp only []; rw [getD_set_ne _ _ _ _ (Ne.symm hc)]; exact hu)]
      simp only []
      rw [getD_set_ne _ _ _ _ (Ne.symm hc), List.filter_cons_of_neg (by simpa using hc)]

/-- Sum of the array after the "Downsample" loop over the buckets `is`, when
every bucket goes to a column of the array and no addition wraps. -/
theorem boxplot_fold_sum (hist : List Nat) (size x_max : Nat) (is : List Nat)
    (acc : List Nat) (hcol : ∀ i ∈ is, (i * x_max % 2 ^ 64) / size < acc.length)
    (hsum : acc.sum + (is.map (fun i => hist.getD i 0)).sum < 2 ^ 32) :
    (is.foldl
      (fun acc i =>
        let x := (i * x_max % 2 ^ 64) / size
        acc.set x ((acc.getD x 0 + hist.getD i 0) % 2 ^ 32)) acc).sum
      = acc.sum + (is.map (fun i => hist.getD i 0)).sum := by
  induction is generalizing acc with
  | nil => simp
  | cons i is ih =>
    rw [List.map_cons, List.sum_cons] at hsum
    have hx := hcol i (List.mem_cons_self i is)
    have htail : ∀ j ∈ is, (j * x_max % 2 ^ 64) / size < acc.length :=
      fun j hj => hcol j (List.mem_cons_of_mem i hj)
    rw [List.foldl_cons]
    simp only []
    generalize (i * x_max % 2 ^ 64) / size = x at hx ⊢
    have hle := getD_le_sum acc x
    have hmod : (acc.getD x 0 + hist.getD i 0) % 2 ^ 32 = acc.getD x 0 + hist.getD i 0 :=
      Nat.mod_eq_of_lt (by omega)
    have hstep : (acc.set x ((acc.getD x 0 + hist.getD i 0) % 2 ^ 32)).sum
        = acc.sum + hist.getD i 0 := by
      have h := sum_set_add acc x (acc.getD x 0 + hist.getD i 0) hx
      rw [hmod]
      omega
    rw [ih _ (fun j hj => by rw [List.length_set]; exact htail j hj) (by rw [hstep]; omega)]
    rw [hstep, List.map_cons, List.sum_cons]
    omega

/-- The counters of a histogram, read bucket by bucket. -/
theorem map_getD_range (hist : List Nat) :
    (List.range hist.length).map (fun i => hist.getD i 0) = hist := by
  apply List.ext_getElem
  · simp
  · intro n h1 h2
    rw [List.getElem_map, List.getElem_range, List.getD_eq_getElem _ _ h2]

/-- A bucket below `size` goes to a column below `x_max`, and the product in
the column index does not wrap. -/
theorem boxplot_column_lt (size x_max i : Nat) (hi : i < size) (hpos : 0 < x_max)
    (hmul : size * x_max < 2 ^ 64) :
    (i * x_max % 2 ^ 64) / size = i * x_max / size ∧ i * x_max / size < x_max := by
  have h1 : i * x_max < size * x_max := Nat.mul_lt_mul_of_pos_right hi hpos
  rw [Nat.mod_eq_of_lt (lt_trans h1 hmul)]
  exact ⟨rfl, Nat.div_lt_of_lt_mul h1⟩

/-- The "Downsample" loop fills an array of `x_max` columns. -/
theorem boxplot_downsample_length (hist : List Nat) (size x_max : Nat) :
    (boxplot_downsample hist size x_max).length = x_max := by
  unfold boxplot_downsample
  rw [boxplot_fold_length, List.length_replicate]

/-- Column `x` after the "Downsample" loop holds the counters of the buckets
`i` with `i * x_max / size = x`, modulo `2^32`. -/
theorem boxplot_downsample_getD_mod (hist : List Nat) (size x_max x : Nat) (hx : x < x_max)
    (hmul : size * x_max < 2 ^ 64) :
    (boxplot_downsample hist size x_max).getD x 0 = column_count hist size x_max x % 2 ^ 32 := by
  unfold boxplot_downsample column_count
  have hz : (List.replicate x_max 0).getD x 0 = 0 := by
    rw [List.getD_eq_getElem _ _ (by rw [List.length_replicate]; exact hx),
      List.getElem_replicate]
  rw [boxplot_fold_getD _ _ _ _ _ _ (by rw [List.length_replicate]; exact hx)
    (by rw [hz]; norm_num)]
  rw [hz, Nat.zero_add]
  congr 3
  apply List.filter_congr
  intro i hi
  rw [(boxplot_column_lt size x_max i (List.mem_range.1 hi) (by omega) hmul).1]

/-- The sum of part of the counters is at most the sum of all of them. -/
theorem sum_filter_le (f : Nat → Nat) (p : Nat → Bool) (l : List Nat) :
    ((l.filter p).map f).sum ≤ (l.map f).sum := by
  induction l with
  | nil => simp
  | cons a l ih =>
    by_cases h : p a = true
    · rw [List.filter_cons_of_pos h, List.map_cons, List.map_cons, List.sum_cons, List.sum_cons]
      omega
    · rw [List.filter_cons_of_neg h, List.map_cons, List.sum_cons]
      omega

/-- A column holds at most the total count. -/
theorem column_count_le (hist : List Nat) (x_max x : Nat) :
    column_count hist hist.length x_max x ≤ hist.sum := by
  unfold column_count
  calc _ ≤ ((List.range hist.length).map (fun i => hist.getD i 0)).sum := sum_filter_le _ _ _
    _ = hist.sum := by rw [map_getD_range]

/-- Without a wrap, column `x` after the "Downsample" loop holds the counters
of the buckets `i` with `i * x_max / size = x`. -/
theorem boxplot_downsample_getD (hist : List Nat) (x_max x : Nat) (hx : x < x_max)
    (hmul : hist.length * x_max < 2 ^ 64) (hsum : hist.sum < 2 ^ 32) :
    (boxplot_downsample hist hist.length x_max).getD x 0
      = column_count hist hist.length x_max x := by
  rw [boxplot_downsample_getD_mod hist _ x_max x hx hmul]
  exact Nat.mod_eq_of_lt (lt_of_le_of_lt (column_count_le hist x_max x) hsum)

/-- Without a wrap, the columns after the "Downsample" loop hold the total
count between them. -/
theorem boxplot_downsample_sum (hist : List Nat) (x_max : Nat) (hpos : 0 < x_max)
    (hmul : hist.length * x_max < 2 ^ 64) (hsum : hist.sum < 2 ^ 32) :
    (boxplot_downsample hist hist.length x_max).sum = hist.sum := by
  unfold boxplot_downsample
  have hz : (List.replicate x_max 0).sum = 0 := by simp
  rw [boxplot_fold_sum hist _ x_max _ _
    (fun i hi => by
      rw [List.length_replicate,
        (boxplot_column_lt _ x_max i (List.mem_range.1 hi) hpos hmul).1]
      exact (boxplot_column_lt _ x_max i (List.mem_range.1 hi) hpos hmul).2)
    (by rw [hz, map_getD_range]; omega)]
  rw [hz, map_getD_range, Nat.zero_add]
/-- The array `ratios` has one entry for each column. -/
theorem boxplot_ratios_length (hist : List Nat) (size x_max : Nat) :
    (boxplot_ratios hist size x_max).length = x_max := by
  unfold boxplot_ratios
  simp only [List.length_map]
  rw [accumulated_length, boxplot_downsample_length]

/-- Without a wrap, the ratio of column `x` is the count of the columns up to
`x` over the total count. -/
theorem boxplot_ratios_getD (hist : List Nat) (x_max x : Nat) (hx : x < x_max)
    (hmul : hist.length * x_max < 2 ^ 64) (hpos : 0 < hist.sum) (hsum : hist.sum < 2 ^ 32) :
    (boxplot_ratios hist hist.length x_max).getD x Dbl.nan
      = Dbl.fin ((cum (boxplot_downsample hist hist.length x_max) x : ℚ) / (hist.sum : ℚ)) := by
  have hW : 0 < x_max := by omega
  have hlen := boxplot_downsample_length hist hist.length x_max
  have hs := boxplot_downsample_sum hist x_max hW hmul hsum
  have hnum : (accumulated (boxplot_downsample hist hist.length x_max)).getD (x_max - 1) 0
      = hist.sum := by
    have h := accumulated_num (boxplot_downsample hist hist.length x_max)
      (by rw [hs]; exact hpos) (by rw [hs]; exact hsum)
    rw [hlen, hs] at h
    exact h
  have hacc : (accumulated (boxplot_downsample hist hist.length x_max)).getD x 0
      = cum (boxplot_downsample hist hist.length x_max) x :=
    accumulated_getD _ x (by rw [hlen]; exact hx) (by rw [hs]; exact hsum)
  have hxl : x < (accumulated (boxplot_downsample hist hist.length x_max)).length := by
    rw [accumulated_length, hlen]; exact hx
  unfold boxplot_ratios
  simp only []
  rw [List.getD_eq_getElem _ _ (by rw [List.length_map]; exact hxl), List.getElem_map, hnum,
    ← List.getD_eq_getElem _ 0 hxl, hacc, ratio_fin _ _ hpos]

/-- Comparison `<=` of two finite doubles. -/
theorem Dbl.le_fin_fin (a b : ℚ) : Dbl.le (Dbl.fin a) (Dbl.fin b) = decide (a ≤ b) := by
  simp [Dbl.le, Dbl.val]

/-- What `update_boxplot` draws in a window `W + 4` columns wide. -/
theorem update_boxplot_drawn (W : Nat) (ctx : ping_context_t) (hist : List Nat)
    (hW : 1 ≤ W) (hint : W + 4 < 2 ^ 31) (hhist : ctx.latency_histogram = some hist) :
    update_boxplot ((W : Int) + 4) true ctx
      = boxplot_result.drawn
          ((List.range W).map (fun x =>
            { x_pos := to_int ((x + 2) % 4294967296)
              symbol := (boxplot_choose x
                ((boxplot_ratios hist ctx.latency_histogram_size W).getD (x - 1) Dbl.nan)
                ((boxplot_ratios hist ctx.latency_histogram_size W).getD x Dbl.nan)).1
              reverse := (boxplot_choose x
                ((boxplot_ratios hist ctx.latency_histogram_size W).getD (x - 1) Dbl.nan)
                ((boxplot_ratios hist ctx.latency_histogram_size W).getD x Dbl.nan)).2 }))
          0 := by
  have hx : (((W : Int) + 4) % 2 ^ 64).toNat = W + 4 := by
    have : ((W : Int) + 4) % 2 ^ 64 = (W : Int) + 4 :=
      Int.emod_eq_of_lt (by omega) (by norm_num; omega)
    rw [this]
    omega
  unfold update_boxplot
  simp only []
  rw [hx, if_neg (by omega), hhist]
  simp only [Nat.add_sub_cancel]
  rfl
/-- The median mark is chosen for column 0 when its ratio is at least 0.5 and
for a later column when the ratio reaches 0.5 there. -/
theorem boxplot_choose_median (x : Nat) (prev ratio : Dbl) :
    (boxplot_choose x prev ratio).1 = boxplot_symbol.median ↔
      (x = 0 ∧ Dbl.ge ratio (Dbl.fin (1 / 2)) = true) ∨
      (x ≠ 0 ∧ Dbl.lt prev (Dbl.fin (1 / 2)) = true ∧ Dbl.ge ratio (Dbl.fin (1 / 2)) = true) := by
  unfold boxplot_choose
  by_cases hx : x = 0
  · rw [if_pos hx]
    split_ifs <;> simp_all
  · rw [if_neg hx]
    split_ifs <;> simp_all

/-- A property that holds from some column on is reached in exactly one
column. -/
theorem countP_first (A : Nat → Prop) [DecidablePred A] (W : Nat) (hW : 1 ≤ W)
    (hmono : ∀ x y, x ≤ y → A x → A y) (hlast : A (W - 1)) :
    (List.range W).countP
      (fun x => decide ((x = 0 ∧ A 0) ∨ (x ≠ 0 ∧ ¬ A (x - 1) ∧ A x))) = 1 := by
  have hex : ∃ x, A x := ⟨W - 1, hlast⟩
  have hk : Nat.find hex < W := lt_of_le_of_lt (Nat.find_min' hex hlast) (by omega)
  have hiff : ∀ x, ((x = 0 ∧ A 0) ∨ (x ≠ 0 ∧ ¬ A (x - 1) ∧ A x)) ↔ x = Nat.find hex := by
    intro x
    constructor
    · rintro (⟨h0, hA⟩ | ⟨h0, hn, hA⟩)
      · have := Nat.find_min' hex hA
        omega
      · have hle := Nat.find_min' hex hA
        by_contra hne
        exact hn (hmono _ _ (by omega) (Nat.find_spec hex))
    · intro h
      subst h
      by_cases h0 : Nat.find hex = 0
      · left
        refine ⟨h0, ?_⟩
        have := Nat.find_spec hex
        rwa [h0] at this
      · right
        exact ⟨h0, Nat.find_min hex (by omega), Nat.find_spec hex⟩
  have hcongr : (List.range W).countP
      (fun x => decide ((x = 0 ∧ A 0) ∨ (x ≠ 0 ∧ ¬ A (x - 1) ∧ A x)))
      = (List.range W).countP (fun x => x == Nat.find hex) := by
    apply List.countP_congr
    intro x _
    simp only [decide_eq_true_eq, beq_iff_eq]
    exact hiff x
  rw [hcongr]
  exact List.count_eq_one_of_mem (List.nodup_range W) (List.mem_range.2 hk)
/-- Without a wrap, the ratios do not decrease from one column to the next. -/
theorem boxplot_ratios_mono (hist : List Nat) (x_max x y : Nat) (hxy : x ≤ y) (hy : y < x_max)
    (hmul : hist.length * x_max < 2 ^ 64) (hpos : 0 < hist.sum) (hsum : hist.sum < 2 ^ 32) :
    Dbl.le ((boxplot_ratios hist hist.length x_max).getD x Dbl.nan)
      ((boxplot_ratios hist hist.length x_max).getD y Dbl.nan) = true := by
  rw [boxplot_ratios_getD hist x_max x (by omega) hmul hpos hsum,
    boxplot_ratios_getD hist x_max y hy hmul hpos hsum, Dbl.le_fin_fin, decide_eq_true_eq]
  have hT : (0 : ℚ) ≤ (hist.sum : ℚ) := Nat.cast_nonneg _
  exact div_le_div_of_nonneg_right (by exact_mod_cast cum_mono _ x y hxy) hT

/-- Without a wrap, the ratio of the last column is 1. -/
theorem boxplot_ratios_last (hist : List Nat) (x_max : Nat) (hW : 1 ≤ x_max)
    (hmul : hist.length * x_max < 2 ^ 64) (hpos : 0 < hist.sum) (hsum : hist.sum < 2 ^ 32) :
    (boxplot_ratios hist hist.length x_max).getD (x_max - 1) Dbl.nan = Dbl.fin 1 := by
  rw [boxplot_ratios_getD hist x_max (x_max - 1) (by omega) hmul hpos hsum]
  have h := cum_last (boxplot_downsample hist hist.length x_max)
  rw [boxplot_downsample_length, boxplot_downsample_sum hist x_max (by omega) hmul hsum] at h
  rw [h, div_self (by exact_mod_cast (ne_of_gt hpos))]

/-- Without a wrap, exactly one column is drawn with the median mark. -/
theorem update_boxplot_medians (W : Nat) (ctx : ping_context_t) (hist : List Nat)
    (hW : 1 ≤ W) (hint : W + 4 < 2 ^ 31) (hhist : ctx.latency_histogram = some hist)
    (hlen : hist.length = ctx.latency_histogram_size)
    (hmul : ctx.latency_histogram_size * W < 2 ^ 64)
    (hpos : 0 < hist.sum) (hsum : hist.sum < 2 ^ 32) :
    (update_boxplot ((W : Int) + 4) true ctx).medians = 1 := by
  rw [update_boxplot_drawn W ctx hist hW hint hhist, ← hlen]
  rw [← hlen] at hmul
  unfold boxplot_result.medians
  simp only []
  rw [List.countP_map]
  have hT : (0 : ℚ) ≤ (hist.sum : ℚ) := Nat.cast_nonneg _
  have hlast : (1 / 2 : ℚ)
      ≤ (cum (boxplot_downsample hist hist.length W) (W - 1) : ℚ) / (hist.sum : ℚ) := by
    have h := cum_last (boxplot_downsample hist hist.length W)
    rw [boxplot_downsample_length, boxplot_downsample_sum hist W (by omega) hmul hsum] at h
    rw [h, div_self (by exact_mod_cast (ne_of_gt hpos))]
    norm_num
  refine Eq.trans ?_ (countP_first
    (fun x => (1 / 2 : ℚ) ≤ (cum (boxplot_downsample hist hist.length W) x : ℚ) / (hist.sum : ℚ))
    W hW
    (fun x y hxy hx => le_trans hx
      (div_le_div_of_nonneg_right (by exact_mod_cast cum_mono _ x y hxy) hT))
    hlast)
  apply List.countP_congr
  intro x hx
  have hxW : x < W := List.mem_range.1 hx
  simp only [Function.comp, decide_eq_true_eq]
  rw [boxplot_choose_median, boxplot_ratios_getD hist W x hxW hmul hpos hsum,
    boxplot_ratios_getD hist W (x - 1) (by omega) hmul hpos hsum, Dbl.ge_fin_fin, Dbl.lt_fin_fin]
  simp only [decide_eq_true_eq, not_le]
  constructor
  · rintro (⟨h0, h⟩ | ⟨h0, h1, h2⟩)
    · left
      subst h0
      exact ⟨rfl, h⟩
    · right
      exact ⟨h0, h1, h2⟩
  · rintro (⟨h0, h⟩ | ⟨h0, h1, h2⟩)
    · left
      subst h0
      exact ⟨rfl, h⟩
    · right
      exact ⟨h0, h1, h2⟩
/-- An array of zeros reads as zero at every index. -/
theorem getD_replicate_zero (n j : Nat) : (List.replicate n 0).getD j 0 = 0 := by
  by_cases h : j < n
  · rw [List.getD_eq_getElem _ _ (by rw [List.length_replicate]; exact h),
      List.getElem_replicate]
  · rw [List.getD_eq_default _ _ (by rw [List.length_replicate]; omega)]

/-- The buckets of `half_histogram` from bucket 2 on are empty. -/
theorem half_histogram_getD (i : Nat) (hi : 2 ≤ i) : half_histogram.getD i 0 = 0 := by
  obtain ⟨j, rfl⟩ : ∃ j, i = j + 2 := ⟨i - 2, by omega⟩
  unfold half_histogram
  rw [List.getD_cons_succ, List.getD_cons_succ, getD_replicate_zero]

set_option maxRecDepth 100000 in
/-- Column 0 of 76 takes `2^32` replies from `half_histogram`. -/
theorem half_histogram_column_zero : column_count half_histogram 1001 76 0 = 4294967296 := by
  decide!

/-- Every column of 76 takes a multiple of `2^32` from `half_histogram`. -/
theorem half_histogram_columns (x : Nat) :
    column_count half_histogram 1001 76 x % 2 ^ 32 = 0 := by
  by_cases hx : x = 0
  · rw [hx, half_histogram_column_zero]
    norm_num
  · have h0 : column_count half_histogram 1001 76 x = 0 := by
      unfold column_count
      apply List.sum_eq_zero
      intro v hv
      obtain ⟨i, hi, rfl⟩ := List.mem_map.1 hv
      have hcol : i * 76 / 1001 = x := by simpa using (List.mem_filter.1 hi).2
      apply half_histogram_getD
      by_contra hlt
      have : i * 76 / 1001 = 0 := by
        have : i = 0 ∨ i = 1 := by omega
        rcases this with h | h <;> rw [h]
      omega
    rw [h0]
    norm_num

/-- The "Downsample" loop over `half_histogram` leaves 76 columns of zeros. -/
theorem half_histogram_downsample :
    boxplot_downsample half_histogram 1001 76 = List.replicate 76 0 := by
  apply List.ext_getElem
  · rw [boxplot_downsample_length, List.length_replicate]
  · intro x h1 h2
    have hx : x < 76 := by rwa [List.length_replicate] at h2
    rw [List.getElem_replicate, ← List.getD_eq_getElem _ 0 h1,
      boxplot_downsample_getD_mod _ _ _ _ hx (by norm_num), half_histogram_columns]

/-- The ratios of `half_histogram` in 76 columns are all NaN. -/
theorem half_histogram_ratios :
    boxplot_ratios half_histogram 1001 76 = List.replicate 76 Dbl.nan := by
  unfold boxplot_ratios
  simp only []
  rw [half_histogram_downsample, accumulated_zero _ (fun b hb => (List.mem_replicate.1 hb).2),
    List.length_replicate, List.map_replicate, getD_replicate_zero]
  rfl

/-- An array of NaN reads as NaN at every index. -/
theorem getD_replicate_nan (n j : Nat) : (List.replicate n Dbl.nan).getD j Dbl.nan = Dbl.nan := by
  by_cases h : j < n
  · rw [List.getD_eq_getElem _ _ (by rw [List.length_replicate]; exact h),
      List.getElem_replicate]
  · rw [List.getD_eq_default _ _ (by rw [List.length_replicate]; omega)]

/-- In a window 80 columns wide the box plot of `half_histogram` is blank. -/
theorem half_histogram_boxplot :
    update_boxplot 80 true (context_with_histogram half_histogram)
      = boxplot_result.drawn
          ((List.range 76).map (fun x =>
            { x_pos := to_int ((x + 2) % 4294967296)
              symbol := boxplot_symbol.blank
              reverse := false })) 0 := by
  have hsize : (context_with_histogram half_histogram).latency_histogram_size = 1001 := by
    decide!
  have h := update_boxplot_drawn 76 (context_with_histogram half_histogram) half_histogram
    (by norm_num) (by norm_num) rfl
  rw [hsize, half_histogram_ratios] at h
  simp only [getD_replicate_nan] at h
  have h80 : ((76 : Nat) : Int) + 4 = 80 := by norm_num
  rw [h80] at h
  rw [h]
  rfl

/-- Counterexample to C22 as stated: with `2^31` replies in bucket 0 and `2^31`
in bucket 1 the total count `2^32` wraps to 0 in the `uint32_t` array, every
ratio is `0 / 0` = NaN, and in a window 80 columns wide (76 usable columns)
`update_boxplot` draws 76 blanks: the ratios do not end at 1 and no column has
the median mark. -/
theorem boxplot_total_wraps :
    half_histogram.length = 1001 ∧
    half_histogram.sum = 4294967296 ∧
    boxplot_downsample half_histogram 1001 76 = List.replicate 76 0 ∧
    boxplot_ratios half_histogram 1001 76 = List.replicate 76 Dbl.nan ∧
    update_boxplot 80 true (context_with_histogram half_histogram)
      = boxplot_result.drawn
          ((List.range 76).map (fun x =>
            { x_pos := to_int ((x + 2) % 4294967296)
              symbol := boxplot_symbol.blank
              reverse := false })) 0 ∧
    (update_boxplot 80 true (context_with_histogram half_histogram)).medians = 0 := by
  refine ⟨by decide!, by decide!, half_histogram_downsample, half_histogram_ratios,
    half_histogram_boxplot, ?_⟩
  rw [half_histogram_boxplot]
  rfl

/-- C22, amended: in a window `W + 4` columns wide (`W >= 1` usable columns,
the width an `int`), for a histogram of `N` buckets with `N * W < 2^64` whose
total count is positive and below `2^32`, and with the two arrays allocated:
every bucket `i < N` goes to column `i * W / N < W`, so that after the
"Downsample" loop column `x` holds the counters of the buckets `i` with
`i * W / N = x`; the ratios do not decrease from column to column and the last
one is 1; the row drawn has `W` columns, each chosen by `boxplot_choose` from
the ratios of the column and of the one before; and exactly one column is drawn
with the median mark. -/
theorem boxplot_columns (W N : Nat) (ctx : ping_context_t) (hist : List Nat)
    (hW : 1 ≤ W) (hint : W + 4 < 2 ^ 31) (hhist : ctx.latency_histogram = some hist)
    (hsize : ctx.latency_histogram_size = N) (hlen : hist.length = N)
    (hmul : N * W < 2 ^ 64) (hpos : 0 < hist.sum) (hsum : hist.sum < 2 ^ 32) :
    (∀ i, i < N → (i * W % 2 ^ 64) / N = i * W / N ∧ i * W / N < W) ∧
    (∀ x, x < W → (boxplot_downsample hist N W).getD x 0 = column_count hist N W x) ∧
    (∀ x y, x ≤ y → y < W →
      Dbl.le ((boxplot_ratios hist N W).getD x Dbl.nan)
        ((boxplot_ratios hist N W).getD y Dbl.nan) = true) ∧
    (boxplot_ratios hist N W).getD (W - 1) Dbl.nan = Dbl.fin 1 ∧
    update_boxplot ((W : Int) + 4) true ctx
      = boxplot_result.drawn
          ((List.range W).map (fun x =>
            { x_pos := to_int ((x + 2) % 4294967296)
              symbol := (boxplot_choose x ((boxplot_ratios hist N W).getD (x - 1) Dbl.nan)
                ((boxplot_ratios hist N W).getD x Dbl.nan)).1
              reverse := (boxplot_choose x ((boxplot_ratios hist N W).getD (x - 1) Dbl.nan)
                ((boxplot_ratios hist N W).getD x Dbl.nan)).2 }))
          0 ∧
    (update_boxplot ((W : Int) + 4) true ctx).medians = 1 := by
  subst hsize
  have hmul2 : hist.length * W < 2 ^ 64 := by rw [hlen]; exact hmul
  refine ⟨fun i hi => boxplot_column_lt _ W i hi (by omega) hmul, ?_, ?_, ?_,
    update_boxplot_drawn W ctx hist hW hint hhist,
    update_boxplot_medians W ctx hist hW hint hhist hlen hmul hpos hsum⟩
  · intro x hx
    rw [← hlen]
    exact boxplot_downsample_getD hist W x hx hmul2 hsum
  · intro x y hxy hy
    rw [← hlen]
    exact boxplot_ratios_mono hist W x y hxy hy hmul2 hpos hsum
  · rw [← hlen]
    exact boxplot_ratios_last hist W hW hmul2 hpos hsum

set_option maxRecDepth 100000 in
/-- The amended C22 at the histogram of five replies (three in bucket 10, one in
bucket 20, one in the overflow bucket) in a window 80 columns wide. -/
theorem boxplot_columns_witness :
    (∀ i, i < 1001 → (i * 76 % 2 ^ 64) / 1001 = i * 76 / 1001 ∧ i * 76 / 1001 < 76) ∧
    (∀ x, x < 76 →
      (boxplot_downsample sample_histogram 1001 76).getD x 0
        = column_count sample_histogram 1001 76 x) ∧
    (∀ x y, x ≤ y → y < 76 →
      Dbl.le ((boxplot_ratios sample_histogram 1001 76).getD x Dbl.nan)
        ((boxplot_ratios sample_histogram 1001 76).getD y Dbl.nan) = true) ∧
    (boxplot_ratios sample_histogram 1001 76).getD (76 - 1) Dbl.nan = Dbl.fin 1 ∧
    update_boxplot (((76 : Nat) : Int) + 4) true (context_with_histogram sample_histogram)
      = boxplot_result.drawn
          ((List.range 76).map (fun x =>
            { x_pos := to_int ((x + 2) % 4294967296)
              symbol := (boxplot_choose x
                ((boxplot_ratios sample_histogram 1001 76).getD (x - 1) Dbl.nan)
                ((boxplot_ratios sample_histogram 1001 76).getD x Dbl.nan)).1
              reverse := (boxplot_choose x
                ((boxplot_ratios sample_histogram 1001 76).getD (x - 1) Dbl.nan)
                ((boxplot_ratios sample_histogram 1001 76).getD x Dbl.nan)).2 }))
          0 ∧
    (update_boxplot (((76 : Nat) : Int) + 4) true
      (context_with_histogram sample_histogram)).medians = 1 :=
  boxplot_columns 76 1001 (context_with_histogram sample_histogram) sample_histogram
    (by decide) (by decide) rfl (by decide!) (by decide!) (by decide) (by decide!) (by decide!)

end Oping
